import Mathlib

/-!
# nshm: a shared-memory arena with a size-classed allocator and a key/value index

Shallow embedding of `src/nshm.c` and `src/nshm.h`.

Platform: the embedding fixes the x86-64 System V ABI (LP64, Linux/glibc), the
platform the struct sizes below are taken from: `int` is 32 bits, `int64_t`,
`size_t`, `time_t` and pointers are 64 bits, `pthread_spinlock_t` is an `int`,
and plain `char` is signed.

Memory model: the mapped region is a function from byte offsets (relative to
the mapping base) to values.  It is kept at the granularity of scalar fields:
the cell at the offset where a scalar field starts holds the value of that
field, and a key byte is the cell at its own offset.  Pointers are absolute
addresses (`_base + offset`), `0` is `NULL`; dereferencing an address outside
`[_base, _base + _size)` is a fault, modelled by `none`.

Machine arithmetic that the code performs on `int32_t`/`int`/`int64_t` values is
wrapped explicitly (`wrap32`, `wrap64`, `to_size_t`); signed overflow is
modelled as two's complement wrap-around, which is what the compiled code does.
-/

namespace Nshm

set_option autoImplicit false

/-! ## Constants of `nshm.c` -/

def _ALIGNMENT_BYTE : Int := 8
def _SMALL_MSEG_NUM : Nat := 64
def _SMALL_MSEG_NMEMB : Nat := 8
def _BIG_MSEG_NUM : Nat := 20
def _BIG_MSEG_NMEMB : Nat := 4
def _SEGSIZE_THRESHOLD : Int := 1024
def _MAX_ALLOCSIZE : Int := 1024 * 1024 * 1024
def _DATA_HASH_SIZ : Int := 1024

/-! ## Struct layouts (x86-64 LP64)

`_nshm_base_t`: `magic` at 0 (8 bytes), `lock_point` at 8 (4 bytes + 4 padding),
`free_offset` at 16, `small_msegs` at 24 (64 * 8), `big_msegs` at 536 (20 * 8),
`data` at 696 (1024 * 8), `replaced` at 8888, `version` at 8892, `ctime` at 8896;
`sizeof(_nshm_base_t) = 8904`.

`_shmem_hdr`: `next_offset` at 0, `seg_siz` at 8; `sizeof(_shmem_hdr) = 16`.

`_tokarr_t`: `key_offset` at 0, `klen` at 8, `val_offset` at 16,
`next_offset` at 24; `sizeof(_tokarr_t) = 32`. -/

def sizeof_nshm_base_t : Int := 8904
def sizeof_shmem_hdr : Int := 16
def sizeof_tokarr_t : Int := 32

def off_free_offset : Int := 16
def off_small_msegs : Int := 24
def off_big_msegs : Int := 536
def off_data : Int := 696
def off_replaced : Int := 8888
def off_version : Int := 8892
def off_ctime : Int := 8896

def hdr_next_offset : Int := 0
def hdr_seg_siz : Int := 8

def tok_key_offset : Int := 0
def tok_klen : Int := 8
def tok_val_offset : Int := 16
def tok_next_offset : Int := 24

/-! ## Machine integers -/

/-- Value of an integer after conversion to `int32_t` (two's complement wrap). -/
def wrap32 (x : Int) : Int := (x + 2147483648) % 4294967296 - 2147483648

/-- Value of an integer after conversion to `int64_t` (two's complement wrap). -/
def wrap64 (x : Int) : Int :=
  (x + 9223372036854775808) % 18446744073709551616 - 9223372036854775808

/-- Value of an integer after conversion to `unsigned int` (32 bits). -/
def to_uint (x : Int) : Int := x % 4294967296

/-- Value of an integer after conversion to `size_t` (64 bits). -/
def to_size_t (x : Int) : Int := x % 18446744073709551616

/-- Value that reading a byte through `char` yields (`char` is signed). -/
def char_of_byte (b : Nat) : Int := if b < 128 then (b : Int) else (b : Int) - 256

/-! ## The handle and the mapped region -/

/-- The handle `NShm` together with the content of the region it maps:
`_size` and `_base` are the fields of the C struct, `lock_point` is the spin
lock word of the arena header (`true` = held), `mem` is the region content by
offset. -/
structure NShm where
  _size : Nat
  _base : Int
  lock_point : Bool
  mem : Int → Int

/-- Region content after writing `v` into the cell at offset `a`. -/
def upd (m : Int → Int) (a v : Int) : Int → Int := fun x => if x = a then v else m x

/-- Write `v` into the cell at offset `a` of the region. -/
def NShm.set (n : NShm) (a v : Int) : NShm := { n with mem := upd n.mem a v }

/-- An address lies in the mapping of the handle. -/
def NShm.mapped (n : NShm) (p : Int) : Prop := n._base ≤ p ∧ p < n._base + (n._size : Int)

instance (n : NShm) (p : Int) : Decidable (n.mapped p) := by
  unfold NShm.mapped; infer_instance

/-- Read through a pointer: `none` is a fault. -/
def load (n : NShm) (p : Int) : Option Int :=
  if n.mapped p then some (n.mem (p - n._base)) else none

/-- Write through a pointer: `none` is a fault. -/
def store (n : NShm) (p v : Int) : Option NShm :=
  if n.mapped p then some (n.set (p - n._base) v) else none

/-! ## `nshm.h`: offset/address translation -/

/-- Macro `vos_assign(cast,ptr)`: `ptr ? (char*)ptr - (char*)_nshm_base : -1`. -/
def vos_assign (_nshm_base ptr : Int) : Int := if ptr ≠ 0 then ptr - _nshm_base else -1

/-- Macro `vos_ptr(cast,offset)`: `offset > 0 ? (char*)_nshm_base + offset : 0`. -/
def vos_ptr (_nshm_base offset : Int) : Int := if offset > 0 then _nshm_base + offset else 0

/-! ## Size classes -/

/-- C: `get_smallseg_index`: `(siz-1)/0x10` (C division truncates). -/
def get_smallseg_index (siz : Int) : Int := wrap32 (Int.tdiv (wrap32 (siz - 1)) 16)

/-- C: `get_smallseg_size`: `(index+1)*0x10`. -/
def get_smallseg_size (index : Int) : Int := wrap32 (wrap32 (index + 1) * 16)

/-- Loop of `get_bigseg_index`: `for(ix = ...; ix < usiz; ix <<= 1){ rc++; }` on
`unsigned int ix`.  After at most 22 shifts `ix` is 0 and stays 0, so a loop
that has not ended after 34 tests never ends: `none`. -/
def get_bigseg_index_loop (usiz : Int) : Nat → Int → Int → Option Int
  | 0, _, _ => none
  | fuel + 1, ix, rc =>
    if ix < usiz then get_bigseg_index_loop usiz fuel (to_uint (ix * 2)) (wrap32 (rc + 1))
    else some rc

/-- C: `get_bigseg_index`. -/
def get_bigseg_index (siz : Int) : Option Int :=
  (get_bigseg_index_loop (to_uint siz) 34 (to_uint _SEGSIZE_THRESHOLD) 0).map
    (fun rc => wrap32 (rc - 1))

/-- Loop of `get_bigseg_size`: `for(ix = 0; ix < index; ix++){ rc <<= 1; }`, with
`todo` the number of iterations left. -/
def get_bigseg_size_loop : Nat → Int → Int
  | 0, rc => rc
  | todo + 1, rc => get_bigseg_size_loop todo (wrap32 (rc * 2))

/-- C: `get_bigseg_size`. -/
def get_bigseg_size (index : Int) : Int :=
  get_bigseg_size_loop index.toNat (wrap32 (_SEGSIZE_THRESHOLD * 2))

/-! ## The interprocess lock -/

/-- C: `_lock_nshm`: `pthread_spin_lock` spins for ever on a lock that is held,
which is `none`. -/
def _lock_nshm (n : NShm) : Option NShm :=
  if n.lock_point then none else some { n with lock_point := true }

/-- C: `_unlock_nshm`. -/
def _unlock_nshm (n : NShm) : NShm := { n with lock_point := false }

/-! ## Bump allocator -/

/-- The bump cursor `base->free_offset`. -/
def NShm.free_offset (n : NShm) : Int := n.mem off_free_offset

/-- C: `x & -_ALIGNMENT_BYTE` on a two's complement `int`: the three low bits of
`x` are cleared, which rounds `x` down to a multiple of 8 (for negative `x`
too).  Theorem `mask_align_eq_land` states that this is `Int.land x (-8)`. -/
def mask_align (x : Int) : Int := x - x % _ALIGNMENT_BYTE

/-- C: `_shmalloc`.  Returns the address (`0` = `NULL`) and the new state. -/
def _shmalloc (n : NShm) (size : Int) : Int × NShm :=
  let alloc_siz := mask_align (wrap32 (size + _ALIGNMENT_BYTE - 1))
  if to_size_t (wrap64 (n.free_offset + alloc_siz)) > (n._size : Int) then (0, n)
  else
    let free_vaddr := vos_ptr n._base n.free_offset
    (free_vaddr, n.set off_free_offset (wrap64 (n.free_offset + alloc_siz)))

/-- C: `shmalloc`. -/
def shmalloc (n : NShm) (size : Int) : Option (Int × NShm) :=
  if size ≤ 0 then some (0, n)
  else do
    let n1 ← _lock_nshm n
    let (rc, n2) := _shmalloc n1 size
    some (rc, _unlock_nshm n2)

/-! ## Segregated free lists

`_alloc_small_shmem` and `_alloc_big_shmem` (and the two `_free_*` functions)
are the same code over a different head table, class index and batch size;
the shared body takes the offset `head` of the head cell
(`&base->small_msegs[index]` or `&base->big_msegs[index]`). -/

/-- The refill loop `for( ix = 0; ix < NMEMB; ix++){ ... }` with `todo`
iterations left.  The flag is `false` when a `_shmalloc` returned `NULL`
(`goto finally`). -/
def refill_loop (head seg_siz : Int) : Nat → NShm → Option (Bool × NShm)
  | 0, n => some (true, n)
  | todo + 1, n =>
    let alloc_siz := wrap32 (8 + 4 + seg_siz)
    let (ptr, n1) := _shmalloc n alloc_siz
    if ptr = 0 then some (false, n1)
    else do
      let n2 ← store n1 (ptr + hdr_seg_siz) seg_siz
      let n3 ← store n2 (ptr + hdr_next_offset) (n2.mem head)
      let n4 := n3.set head (vos_assign n3._base ptr)
      refill_loop head seg_siz todo n4

/-- The part of `_alloc_*_shmem` after the refill: pop the head of the list. -/
def pop_head (head : Int) (n : NShm) : Option (Int × NShm) := do
  let ptr := vos_ptr n._base (n.mem head)
  let next ← load n (ptr + hdr_next_offset)
  let n1 := n.set head next
  let n2 ← store n1 (ptr + hdr_next_offset) (-1)
  some (ptr + sizeof_shmem_hdr, n2)

/-- The body shared by `_alloc_small_shmem` and `_alloc_big_shmem`. -/
def alloc_class (n : NShm) (head seg_siz : Int) (nmemb : Nat) : Option (Int × NShm) := do
  let n1 ← _lock_nshm n
  if n1.mem head < 0 then
    let (ok, n2) ← refill_loop head seg_siz nmemb n1
    if ok then
      let (rc, n3) ← pop_head head n2
      some (rc, _unlock_nshm n3)
    else some (0, _unlock_nshm n2)
  else
    let (rc, n3) ← pop_head head n1
    some (rc, _unlock_nshm n3)

/-- C: `_alloc_small_shmem`. -/
def _alloc_small_shmem (n : NShm) (size : Int) : Option (Int × NShm) :=
  let index := get_smallseg_index size
  let seg_siz := get_smallseg_size index
  alloc_class n (off_small_msegs + 8 * index) seg_siz _SMALL_MSEG_NMEMB

/-- C: `_alloc_big_shmem`. -/
def _alloc_big_shmem (n : NShm) (size : Int) : Option (Int × NShm) := do
  let index ← get_bigseg_index size
  let seg_siz := get_bigseg_size index
  alloc_class n (off_big_msegs + 8 * index) seg_siz _BIG_MSEG_NMEMB

/-- C: `nshm_memalloc`. -/
def nshm_memalloc (n : NShm) (size : Int) : Option (Int × NShm) :=
  if size ≤ 0 then some (0, n)
  else if size ≤ _SEGSIZE_THRESHOLD then _alloc_small_shmem n size
  else if size ≤ _MAX_ALLOCSIZE then _alloc_big_shmem n size
  else some (0, n)

/-- The body shared by `_free_small_shmem` and `_free_big_shmem`. -/
def free_class (n : NShm) (head hdr : Int) : Option NShm := do
  let n1 ← _lock_nshm n
  let n2 ← store n1 (hdr + hdr_next_offset) (n1.mem head)
  let n3 := n2.set head (vos_assign n2._base hdr)
  some (_unlock_nshm n3)

/-- C: `_free_small_shmem`. -/
def _free_small_shmem (n : NShm) (hdr : Int) : Option NShm := do
  let seg_siz ← load n (hdr + hdr_seg_siz)
  let index := get_smallseg_index seg_siz
  free_class n (off_small_msegs + 8 * index) hdr

/-- C: `_free_big_shmem`. -/
def _free_big_shmem (n : NShm) (hdr : Int) : Option NShm := do
  let seg_siz ← load n (hdr + hdr_seg_siz)
  let index ← get_bigseg_index seg_siz
  free_class n (off_big_msegs + 8 * index) hdr

/-- C: `nshm_memfree`. -/
def nshm_memfree (n : NShm) (ptr : Int) : Option NShm :=
  if ptr = 0 then some n
  else do
    let hdr := ptr - sizeof_shmem_hdr
    let seg_siz ← load n (hdr + hdr_seg_siz)
    if seg_siz ≤ 0 then some n
    else if seg_siz ≤ _SEGSIZE_THRESHOLD then _free_small_shmem n hdr
    else if seg_siz ≤ _MAX_ALLOCSIZE then _free_big_shmem n hdr
    else some n

/-! ## Key/value index -/

/-- C: `_get_key_hash`: `rc += key[ix]` over the `klen` bytes of the key, read
through `const char*`, then `rc % _DATA_HASH_SIZ` (C remainder truncates). -/
def _get_key_hash (key : List Nat) : Int :=
  Int.tmod (key.foldl (fun rc b => wrap32 (rc + char_of_byte b)) 0) _DATA_HASH_SIZ

/-- Read `k` consecutive bytes through a pointer. -/
def load_bytes (n : NShm) : Nat → Int → Option (List Int)
  | 0, _ => some []
  | k + 1, p => do
    let b ← load n p
    let bs ← load_bytes n k (p + 1)
    some (b :: bs)

/-- C: `memcpy(dst, key, klen)` into the region. -/
def store_bytes : List Nat → NShm → Int → Option NShm
  | [], n, _ => some n
  | b :: bs, n, p => do
    let n1 ← store n p (b : Int)
    store_bytes bs n1 (p + 1)

/-- The loop `while( offset >= 0 ){ ... }` of `nshm_get`; a key is its bytes,
`klen` is their number.  The region has `_size` offsets and is not written by
the loop, so a walk of more than `_size` steps has come back to an entry it
has visited and never ends: `none`. -/
def nshm_get_loop (n : NShm) (key : List Nat) : Nat → Int → Option Int
  | 0, _ => none
  | fuel + 1, offset =>
    if offset ≥ 0 then do
      let tokarr := vos_ptr n._base offset
      let klen ← load n (tokarr + tok_klen)
      if klen = (key.length : Int) then do
        let key_offset ← load n (tokarr + tok_key_offset)
        let key_vaddr := vos_ptr n._base key_offset
        let bytes ← load_bytes n key.length key_vaddr
        if bytes = key.map (fun (b : Nat) => (b : Int)) then do
          let val_offset ← load n (tokarr + tok_val_offset)
          some (vos_ptr n._base val_offset)
        else do
          let next ← load n (tokarr + tok_next_offset)
          nshm_get_loop n key fuel next
      else do
        let next ← load n (tokarr + tok_next_offset)
        nshm_get_loop n key fuel next
    else some 0

/-- C: `nshm_get`; the result `0` is `NULL`. -/
def nshm_get (n : NShm) (key : List Nat) : Option Int :=
  if (key.length : Int) ≤ 0 then some 0
  else do
    let hash := _get_key_hash key
    let offset ← load n (n._base + off_data + 8 * hash)
    nshm_get_loop n key (n._size + 1) offset

/-- C: `nshm_set`; returns the `int` result and the new state. -/
def nshm_set (n : NShm) (key : List Nat) (val : Int) : Option (Int × NShm) :=
  if (key.length : Int) ≤ 0 then some (-1, n)
  else do
    let found ← nshm_get n key
    if found ≠ 0 then some (0, n)
    else do
      let (tokarr, n1) ← nshm_memalloc n sizeof_tokarr_t
      if tokarr = 0 then some (-1, n1)
      else do
        let (key_vaddr, n2) ← nshm_memalloc n1 (key.length : Int)
        if key_vaddr = 0 then do
          let n3 ← nshm_memfree n2 tokarr
          some (-1, n3)
        else do
          let n3 ← store_bytes key n2 key_vaddr
          let n4 ← store n3 (tokarr + tok_key_offset) (vos_assign n3._base key_vaddr)
          let n5 ← store n4 (tokarr + tok_klen) (key.length : Int)
          let n6 ← store n5 (tokarr + tok_val_offset) (vos_assign n5._base val)
          let hash := _get_key_hash key
          let n7 ← _lock_nshm n6
          let head ← load n7 (n7._base + off_data + 8 * hash)
          let n8 ← store n7 (tokarr + tok_next_offset) head
          let n9 ← store n8 (n8._base + off_data + 8 * hash) (vos_assign n8._base tokarr)
          some (1, _unlock_nshm n9)

/-! ## Lifecycle and queries -/

/-- Content of a region right after `nshm_create`: the file is zero-filled by
`ftruncate`; then `magic`, `version`, `replaced`, `free_offset` and the three
head tables are written (`ctime`, the time of the call, is left out). -/
def init_mem (a : Int) : Int :=
  if a = 0 then 95 else if a = 1 then 110 else if a = 2 then 115
  else if a = 3 then 104 else if a = 4 then 109 else if a = 5 then 95
  else if a = off_version then 1
  else if a = off_free_offset then sizeof_nshm_base_t
  else if off_small_msegs ≤ a ∧ a < off_small_msegs + 8 * 64 ∧ (a - off_small_msegs) % 8 = 0
    then -1
  else if off_big_msegs ≤ a ∧ a < off_big_msegs + 8 * 20 ∧ (a - off_big_msegs) % 8 = 0
    then -1
  else if off_data ≤ a ∧ a < off_data + 8 * 1024 ∧ (a - off_data) % 8 = 0 then -1
  else 0

/-- C: `nshm_create`, for a backing file that can be created, sized and
mapped; `base` is the address `mmap` returns.  `none` is the `NULL` result. -/
def nshm_create (size : Nat) (base : Int) : Option NShm :=
  if (size : Int) ≤ sizeof_nshm_base_t then none
  else some { _size := size, _base := base, lock_point := false, mem := init_mem }

/-- C: `nshm_get_restbyte`. -/
def nshm_get_restbyte (n : NShm) : Int := wrap64 (to_size_t ((n._size : Int) - n.free_offset))


/-! ## Specification vocabulary -/

/-- The size `_shmalloc` rounds a request to: the next multiple of 8. -/
def round8 (size : Int) : Int := size + 7 - (size + 7) % 8

/-- The 84 size classes: `head` is the offset of the head cell of the class
(`small_msegs[i]` or `big_msegs[i]`) and `c` its class size. -/
def IsClass (head c : Int) : Prop :=
  (∃ i : Nat, i < 64 ∧ head = off_small_msegs + 8 * (i : Int) ∧ c = 16 * ((i : Int) + 1)) ∨
  (∃ i : Nat, i < 20 ∧ head = off_big_msegs + 8 * (i : Int) ∧ c = 2048 * 2 ^ i)

/-- The cells linked from `head` through `next_offset` are exactly the header
offsets in the list, and the last link is `-1`. -/
def FreeList (m : Int → Int) : Int → List Int → Prop
  | head, [] => head = -1
  | head, h :: t => head = h ∧ FreeList m (m (h + hdr_next_offset)) t

/-- A header offset can be reached from a head value by following `next_offset`
links through offsets that are not negative. -/
inductive FreeReach (m : Int → Int) : Int → Int → Prop
  | here (h : Int) : 0 ≤ h → FreeReach m h h
  | next (h x : Int) : 0 ≤ h → FreeReach m (m (h + hdr_next_offset)) x → FreeReach m h x

/-- Ghost description of how the region is carved: every segment ever cut from
the bump area as (header offset, class size), and for every head cell the
list of the segments on its free list. -/
structure Layout where
  segs : List (Int × Int)
  fl : Int → List Int

/-- The allocator invariant of a region `m` mapped at `base` with `size` bytes,
for a layout and the list of the blocks the caller holds. -/
structure Inv (base : Int) (size : Nat) (m : Int → Int) (L : Layout) (live : List Int) :
    Prop where
  base_pos : 0 < base
  size_lt : (size : Int) < 9223372036854775808
  fo_ge : sizeof_nshm_base_t ≤ m off_free_offset
  fo_le : m off_free_offset ≤ (size : Int)
  seg_disj : ∀ a ∈ L.segs, ∀ b ∈ L.segs,
    a = b ∨ a.1 + 16 + a.2 ≤ b.1 ∨ b.1 + 16 + b.2 ≤ a.1
  seg_ok : ∀ a ∈ L.segs, sizeof_nshm_base_t ≤ a.1 ∧ a.1 + 16 + a.2 ≤ m off_free_offset ∧
    m (a.1 + hdr_seg_siz) = a.2 ∧ ∃ head, IsClass head a.2
  fl_ok : ∀ head c, IsClass head c →
    FreeList m (m head) (L.fl head) ∧ (L.fl head).Nodup ∧ ∀ h ∈ L.fl head, (h, c) ∈ L.segs
  live_ok : ∀ p ∈ live, ∃ head c, IsClass head c ∧ (p - base - 16, c) ∈ L.segs ∧
    p - base - 16 ∉ L.fl head
  live_nodup : live.Nodup

/-- The bucket index of a key is inside the bucket table. -/
def GoodKey (key : List Nat) : Prop := 0 ≤ _get_key_hash key

instance (key : List Nat) : Decidable (GoodKey key) := by unfold GoodKey; infer_instance

/-- The environment of `nshm_create`: `mmap` returns a non-null address, and a
file length is an `off_t`, so it is below `2^63`. -/
def MapOk (size : Nat) (base : Int) : Prop := 0 < base ∧ (size : Int) < 9223372036854775808

instance (size : Nat) (base : Int) : Decidable (MapOk size base) := by
  unfold MapOk; infer_instance

/-- States reached from `nshm_create` by calls that return, together with the
list of the blocks that `nshm_memalloc` has returned to the caller and that the
caller has not freed, and the list of the keys for which `nshm_set` has
returned 1.  `nshm_memfree` is applied to blocks the caller holds only,
`shmalloc` to sizes whose rounding fits `int32_t`, and `nshm_set` to keys whose
hash is a bucket index. -/
inductive Reach : NShm → List Int → List (List Nat) → Prop
  | create (size : Nat) (base : Int) (n : NShm) :
      MapOk size base → nshm_create size base = some n → Reach n [] []
  | shmalloc (n : NShm) (live : List Int) (keys : List (List Nat)) (size p : Int) (n1 : NShm) :
      Reach n live keys → size ≤ 2147483640 → shmalloc n size = some (p, n1) →
      Reach n1 live keys
  | memalloc (n : NShm) (live : List Int) (keys : List (List Nat)) (size p : Int) (n1 : NShm) :
      Reach n live keys → nshm_memalloc n size = some (p, n1) →
      Reach n1 (if p = 0 then live else p :: live) keys
  | memfree (n : NShm) (live : List Int) (keys : List (List Nat)) (p : Int) (n1 : NShm) :
      Reach n live keys → p ∈ live → nshm_memfree n p = some n1 →
      Reach n1 (live.erase p) keys
  | set (n : NShm) (live : List Int) (keys : List (List Nat)) (key : List Nat) (val r : Int)
      (n1 : NShm) :
      Reach n live keys → GoodKey key → nshm_set n key val = some (r, n1) →
      Reach n1 live (if r = 1 then key :: keys else keys)

/-- The header offsets of `j` segments of class size `c` cut one after the
other from offset `fo`, the last one cut first in the list (the order in
which the refill loop leaves them on the free list). -/
def carved (c : Int) : Nat → Int → List Int
  | 0, _ => []
  | j + 1, fo => carved c j (fo + 16 + c) ++ [fo]

/-- What an allocator call on the class with head cell `head` keeps: the
mapping, the lock state, and every cell but the cursor, the head cell and the
cells of segment headers; the cursor does not move back. -/
structure Frame (n n1 : NShm) (L L1 : Layout) (head : Int) : Prop where
  base_eq : n1._base = n._base
  size_eq : n1._size = n._size
  lock_eq : n1.lock_point = n.lock_point
  fo_le : n.free_offset ≤ n1.free_offset
  cells : ∀ a, a ≠ off_free_offset → a ≠ head →
    (∀ s ∈ L1.segs, a ≠ s.1 ∧ a ≠ s.1 + 8) → n1.mem a = n.mem a
  segs_sub : ∀ s ∈ L.segs, s ∈ L1.segs
  fl_other : ∀ hd, hd ≠ head → L1.fl hd = L.fl hd

/-- Region content after `memcpy` of the bytes to offset `a`. -/
def write_bytes : List Nat → (Int → Int) → Int → (Int → Int)
  | [], m, _ => m
  | b :: bs, m, a => write_bytes bs (upd m a (b : Int)) (a + 1)

/-- What a call of `nshm_set` that links a new entry leaves behind: the entry
node at offset `t` and the key copy at offset `k`, both inside the region and
apart from each other, the node at the head of the bucket of the key, and
every other cell from the bucket table on that is not a cell of a segment
header as it was. -/
structure Inserted (n n1 : NShm) (L1 : Layout) (key : List Nat) (val t k : Int) : Prop where
  t_ge : sizeof_nshm_base_t + 16 ≤ t
  t_le : t + sizeof_tokarr_t ≤ (n._size : Int)
  k_ge : sizeof_nshm_base_t + 16 ≤ k
  k_le : k + (key.length : Int) ≤ (n._size : Int)
  apart : t + sizeof_tokarr_t ≤ k ∨ k + (key.length : Int) ≤ t
  bucket : n1.mem (off_data + 8 * _get_key_hash key) = t
  key_offset : n1.mem (t + tok_key_offset) = k
  klen : n1.mem (t + tok_klen) = (key.length : Int)
  val_offset : n1.mem (t + tok_val_offset) = vos_assign n._base val
  next_offset : n1.mem (t + tok_next_offset) = n.mem (off_data + 8 * _get_key_hash key)
  bytes : ∀ (i : Nat) (hi : i < key.length), n1.mem (k + (i : Int)) = (key[i] : Int)
  others : ∀ a, 696 ≤ a → a ≠ off_data + 8 * _get_key_hash key →
    (∀ s ∈ L1.segs, a ≠ s.1 ∧ a ≠ s.1 + 8) → ¬ (t ≤ a ∧ a < t + sizeof_tokarr_t) →
    ¬ (k ≤ a ∧ a < k + (key.length : Int)) → n1.mem a = n.mem a
  t_seg : ∃ c, (t - 16, c) ∈ L1.segs ∧ sizeof_tokarr_t ≤ c
  k_seg : ∃ c, (k - 16, c) ∈ L1.segs ∧ (key.length : Int) ≤ c

/-- The calls `nshm_memalloc(s)` made `k` times in a row: the addresses they
return, the first call first, and the final state. -/
def alloc_repeat (s : Int) : Nat → NShm → Option (List Int × NShm)
  | 0, n => some ([], n)
  | k + 1, n => do
    let (p, n1) ← nshm_memalloc n s
    let (ps, n2) ← alloc_repeat s k n1
    some (p :: ps, n2)

/-- Two requests are served from the same size class. -/
def SameClass (s s1 : Int) : Prop :=
  (s ≤ _SEGSIZE_THRESHOLD ∧ s1 ≤ _SEGSIZE_THRESHOLD ∧
      get_smallseg_index s = get_smallseg_index s1) ∨
    (_SEGSIZE_THRESHOLD < s ∧ _SEGSIZE_THRESHOLD < s1 ∧
      get_bigseg_index s = get_bigseg_index s1)

/-- The class size stored in the segment header that precedes block `p`
(`((_shmem_hdr*)p - 1)->seg_siz`). -/
def block_size (n : NShm) (p : Int) : Int :=
  n.mem (p - n._base - sizeof_shmem_hdr + hdr_seg_siz)

/-- The state `nshm_create` returns for a region of 1 MiB mapped at address
4096. -/
def arena_1MiB : NShm := { _size := 1048576, _base := 4096, lock_point := false, mem := init_mem }

/-- The state `nshm_create` returns for a region of 4 GiB mapped at address
4096. -/
def arena_4GiB : NShm :=
  { _size := 4294967296, _base := 4096, lock_point := false, mem := init_mem }

/-- The state `nshm_create` returns for a region of 8905 bytes, one byte more
than the arena header, mapped at address 4096. -/
def arena_tiny : NShm := { _size := 8905, _base := 4096, lock_point := false, mem := init_mem }

/-- An entry of the index as the region holds it: the offset `t` of its node
(`_tokarr_t`), the offset `k` of its key copy, the key bytes and the stored
`val_offset`. -/
structure Entry where
  t : Int
  k : Int
  key : List Nat
  vo : Int

/-- The nodes linked from a bucket head through `next_offset` are exactly the
entries of the list, each with its fields and its key bytes in the region, and
the last link is `-1`. -/
def Chain (m : Int → Int) : Int → List Entry → Prop
  | head, [] => head = -1
  | head, e :: es =>
    head = e.t ∧ m (e.t + tok_key_offset) = e.k ∧ m (e.t + tok_klen) = (e.key.length : Int) ∧
      m (e.t + tok_val_offset) = e.vo ∧
      (∀ (i : Nat) (hi : i < e.key.length), m (e.k + (i : Int)) = (e.key[i] : Int)) ∧
      Chain m (m (e.t + tok_next_offset)) es

/-- What `nshm_get` returns for a key on a chain of entries: the value address
of the first entry with that key, `NULL` when there is none. -/
def lookup (base : Int) (key : List Nat) : List Entry → Int
  | [] => 0
  | e :: es => if e.key = key then vos_ptr base e.vo else lookup base key es

/-- The invariant of the index: every bucket holds a chain of entries with
distinct nodes; the key of an entry hashes to its bucket; node and key copy
are blocks the index owns, of segments large enough for them. -/
structure KV (base : Int) (m : Int → Int) (L : Layout) (owned : List Int)
    (ch : Int → List Entry) : Prop where
  chain : ∀ b, 0 ≤ b → b < 1024 → Chain m (m (off_data + 8 * b)) (ch b)
  nodup : ∀ b, 0 ≤ b → b < 1024 → ((ch b).map Entry.t).Nodup
  entry : ∀ b, 0 ≤ b → b < 1024 → ∀ e ∈ ch b,
    _get_key_hash e.key = b ∧ 0 < e.key.length ∧ base + e.t ∈ owned ∧ base + e.k ∈ owned ∧
      (∃ c, (e.t - 16, c) ∈ L.segs ∧ sizeof_tokarr_t ≤ c) ∧
      (∃ c, (e.k - 16, c) ∈ L.segs ∧ (e.key.length : Int) ≤ c)


/-! ## Requests by class, sequences of requests, remapping -/

/-- The head cell, the class size and the batch size with which `nshm_memalloc`
serves a request of `s` bytes (`none`: the request is rejected, or the index
loop does not end). -/
def request_class (s : Int) : Option (Int × Int × Nat) :=
  if s ≤ 0 then none
  else if s ≤ _SEGSIZE_THRESHOLD then
    some (off_small_msegs + 8 * get_smallseg_index s,
      get_smallseg_size (get_smallseg_index s), _SMALL_MSEG_NMEMB)
  else if s ≤ _MAX_ALLOCSIZE then
    (get_bigseg_index s).map
      (fun index => (off_big_msegs + 8 * index, get_bigseg_size index, _BIG_MSEG_NMEMB))
  else none

/-- The calls `nshm_memalloc(s)` for the sizes of a list, one after the other:
the addresses they return, the first call first, and the final state. -/
def alloc_list : List Int → NShm → Option (List Int × NShm)
  | [], n => some ([], n)
  | s :: ss, n => do
    let (p, n1) ← nshm_memalloc n s
    let (ps, n2) ← alloc_list ss n1
    some (p :: ps, n2)

/-- The handle of a process in which `mmap` has placed the same region content
at the address `b` (`nshm_attach` stores what `mmap` returns in `_base`). -/
def NShm.at_base (n : NShm) (b : Int) : NShm := { n with _base := b }

/-- The state `nshm_create` returns for a region of 9388 bytes mapped at address
4096: behind the arena header there is room for a batch of eight segments of
class 32 and for three segments of class 16. -/
def arena_9388 : NShm := { _size := 9388, _base := 4096, lock_point := false, mem := init_mem }

/-! ## Calls under observation

The lock discipline is a property of the steps of a call, not of its result.
The functions of this section are the functions of the model, statement by
statement, over a state that carries one more component: the flag `unguarded`,
which a write raises when it goes to a cell the lock protects while the lock is
not held.  As in the model, `pthread_spin_lock` on a lock that is held never
returns (`none`). -/

/-- The cells the lock protects: the cursor `free_offset`, the free-list heads
`small_msegs[0..63]` and `big_msegs[0..19]`, and the bucket heads
`data[0..1023]`. -/
def Protected (a : Int) : Prop :=
  a = off_free_offset ∨ (off_small_msegs ≤ a ∧ a < off_small_msegs + 8 * 64) ∨
    (off_big_msegs ≤ a ∧ a < off_big_msegs + 8 * 20) ∨
    (off_data ≤ a ∧ a < off_data + 8 * 1024)

instance (a : Int) : Decidable (Protected a) := by unfold Protected; infer_instance

/-- A state under observation. -/
structure Watched where
  st : NShm
  unguarded : Bool

/-- Write `v` into the cell at offset `a`; the flag is raised when the cell is
protected and the lock is not held. -/
def Watched.write (x : Watched) (a v : Int) : Watched :=
  { st := x.st.set a v,
    unguarded := x.unguarded || (decide (Protected a) && !x.st.lock_point) }

/-- Write through a pointer: `none` is a fault. -/
def Watched.store (x : Watched) (p v : Int) : Option Watched :=
  if x.st.mapped p then some (x.write (p - x.st._base) v) else none

/-- C: `_lock_nshm`. -/
def Watched.lock (x : Watched) : Option Watched :=
  (_lock_nshm x.st).map (fun s => { x with st := s })

/-- C: `_unlock_nshm`. -/
def Watched.unlock (x : Watched) : Watched := { x with st := _unlock_nshm x.st }

/-- C: `_shmalloc`, under observation. -/
def _shmalloc_w (x : Watched) (size : Int) : Int × Watched :=
  let alloc_siz := mask_align (wrap32 (size + _ALIGNMENT_BYTE - 1))
  if to_size_t (wrap64 (x.st.free_offset + alloc_siz)) > (x.st._size : Int) then (0, x)
  else
    let free_vaddr := vos_ptr x.st._base x.st.free_offset
    (free_vaddr, x.write off_free_offset (wrap64 (x.st.free_offset + alloc_siz)))

/-- C: `shmalloc`, under observation. -/
def shmalloc_w (x : Watched) (size : Int) : Option (Int × Watched) :=
  if size ≤ 0 then some (0, x)
  else do
    let x1 ← x.lock
    let (rc, x2) := _shmalloc_w x1 size
    some (rc, x2.unlock)

/-- The refill loop of `_alloc_*_shmem`, under observation. -/
def refill_loop_w (head seg_siz : Int) : Nat → Watched → Option (Bool × Watched)
  | 0, x => some (true, x)
  | todo + 1, x =>
    let alloc_siz := wrap32 (8 + 4 + seg_siz)
    let (ptr, x1) := _shmalloc_w x alloc_siz
    if ptr = 0 then some (false, x1)
    else do
      let x2 ← x1.store (ptr + hdr_seg_siz) seg_siz
      let x3 ← x2.store (ptr + hdr_next_offset) (x2.st.mem head)
      let x4 := x3.write head (vos_assign x3.st._base ptr)
      refill_loop_w head seg_siz todo x4

/-- The pop of `_alloc_*_shmem`, under observation. -/
def pop_head_w (head : Int) (x : Watched) : Option (Int × Watched) := do
  let ptr := vos_ptr x.st._base (x.st.mem head)
  let next ← load x.st (ptr + hdr_next_offset)
  let x1 := x.write head next
  let x2 ← x1.store (ptr + hdr_next_offset) (-1)
  some (ptr + sizeof_shmem_hdr, x2)

/-- The body shared by `_alloc_small_shmem` and `_alloc_big_shmem`, under
observation. -/
def alloc_class_w (x : Watched) (head seg_siz : Int) (nmemb : Nat) : Option (Int × Watched) := do
  let x1 ← x.lock
  if x1.st.mem head < 0 then
    let (ok, x2) ← refill_loop_w head seg_siz nmemb x1
    if ok then
      let (rc, x3) ← pop_head_w head x2
      some (rc, x3.unlock)
    else some (0, x2.unlock)
  else
    let (rc, x3) ← pop_head_w head x1
    some (rc, x3.unlock)

/-- C: `_alloc_small_shmem`, under observation. -/
def _alloc_small_shmem_w (x : Watched) (size : Int) : Option (Int × Watched) :=
  let index := get_smallseg_index size
  let seg_siz := get_smallseg_size index
  alloc_class_w x (off_small_msegs + 8 * index) seg_siz _SMALL_MSEG_NMEMB

/-- C: `_alloc_big_shmem`, under observation. -/
def _alloc_big_shmem_w (x : Watched) (size : Int) : Option (Int × Watched) := do
  let index ← get_bigseg_index size
  let seg_siz := get_bigseg_size index
  alloc_class_w x (off_big_msegs + 8 * index) seg_siz _BIG_MSEG_NMEMB

/-- C: `nshm_memalloc`, under observation. -/
def nshm_memalloc_w (x : Watched) (size : Int) : Option (Int × Watched) :=
  if size ≤ 0 then some (0, x)
  else if size ≤ _SEGSIZE_THRESHOLD then _alloc_small_shmem_w x size
  else if size ≤ _MAX_ALLOCSIZE then _alloc_big_shmem_w x size
  else some (0, x)

/-- The body shared by `_free_small_shmem` and `_free_big_shmem`, under
observation. -/
def free_class_w (x : Watched) (head hdr : Int) : Option Watched := do
  let x1 ← x.lock
  let x2 ← x1.store (hdr + hdr_next_offset) (x1.st.mem head)
  let x3 := x2.write head (vos_assign x2.st._base hdr)
  some x3.unlock

/-- C: `_free_small_shmem`, under observation. -/
def _free_small_shmem_w (x : Watched) (hdr : Int) : Option Watched := do
  let seg_siz ← load x.st (hdr + hdr_seg_siz)
  let index := get_smallseg_index seg_siz
  free_class_w x (off_small_msegs + 8 * index) hdr

/-- C: `_free_big_shmem`, under observation. -/
def _free_big_shmem_w (x : Watched) (hdr : Int) : Option Watched := do
  let seg_siz ← load x.st (hdr + hdr_seg_siz)
  let index ← get_bigseg_index seg_siz
  free_class_w x (off_big_msegs + 8 * index) hdr

/-- C: `nshm_memfree`, under observation. -/
def nshm_memfree_w (x : Watched) (ptr : Int) : Option Watched :=
  if ptr = 0 then some x
  else do
    let hdr := ptr - sizeof_shmem_hdr
    let seg_siz ← load x.st (hdr + hdr_seg_siz)
    if seg_siz ≤ 0 then some x
    else if seg_siz ≤ _SEGSIZE_THRESHOLD then _free_small_shmem_w x hdr
    else if seg_siz ≤ _MAX_ALLOCSIZE then _free_big_shmem_w x hdr
    else some x

/-- C: `memcpy(dst, key, klen)` into the region, under observation. -/
def store_bytes_w : List Nat → Watched → Int → Option Watched
  | [], x, _ => some x
  | b :: bs, x, p => do
    let x1 ← x.store p (b : Int)
    store_bytes_w bs x1 (p + 1)

/-- C: `nshm_set`, under observation (`nshm_get` writes nothing). -/
def nshm_set_w (x : Watched) (key : List Nat) (val : Int) : Option (Int × Watched) :=
  if (key.length : Int) ≤ 0 then some (-1, x)
  else do
    let found ← nshm_get x.st key
    if found ≠ 0 then some (0, x)
    else do
      let (tokarr, x1) ← nshm_memalloc_w x sizeof_tokarr_t
      if tokarr = 0 then some (-1, x1)
      else do
        let (key_vaddr, x2) ← nshm_memalloc_w x1 (key.length : Int)
        if key_vaddr = 0 then do
          let x3 ← nshm_memfree_w x2 tokarr
          some (-1, x3)
        else do
          let x3 ← store_bytes_w key x2 key_vaddr
          let x4 ← x3.store (tokarr + tok_key_offset) (vos_assign x3.st._base key_vaddr)
          let x5 ← x4.store (tokarr + tok_klen) (key.length : Int)
          let x6 ← x5.store (tokarr + tok_val_offset) (vos_assign x5.st._base val)
          let hash := _get_key_hash key
          let x7 ← x6.lock
          let head ← load x7.st (x7.st._base + off_data + 8 * hash)
          let x8 ← x7.store (tokarr + tok_next_offset) head
          let x9 ← x8.store (x8.st._base + off_data + 8 * hash) (vos_assign x8.st._base tokarr)
          some (1, x9.unlock)

/-- The state a call under observation starts in: the flag is down. -/
def watch (n : NShm) : Watched := { st := n, unguarded := false }

/-- The state `nshm_create` returns for a region of `2^31 + 8` bytes mapped at
address 4096. -/
def arena_2GiB : NShm :=
  { _size := 2147483656, _base := 4096, lock_point := false, mem := init_mem }

/-! ## Machine-integer lemmas -/

theorem wrap32_of_range {x : Int} (h1 : -2147483648 ≤ x) (h2 : x < 2147483648) :
    wrap32 x = x := by
  unfold wrap32; omega

theorem wrap64_of_range {x : Int} (h1 : -9223372036854775808 ≤ x)
    (h2 : x < 9223372036854775808) : wrap64 x = x := by
  unfold wrap64; omega

theorem to_size_t_of_range {x : Int} (h1 : 0 ≤ x) (h2 : x < 18446744073709551616) :
    to_size_t x = x := by
  unfold to_size_t; omega

theorem to_uint_of_range {x : Int} (h1 : 0 ≤ x) (h2 : x < 4294967296) : to_uint x = x := by
  unfold to_uint; omega

theorem nat_ldiff_seven (m : Nat) : Nat.ldiff m 7 = 8 * (m / 8) := by
  apply Nat.eq_of_testBit_eq
  intro k
  have h8 : 8 * (m / 8) = (m >>> 3) <<< 3 := by
    rw [Nat.shiftLeft_eq, Nat.shiftRight_eq_div_pow]; norm_num; ring
  have h7 : (7 : Nat) = 2 ^ 3 - 1 := by norm_num
  rw [Nat.testBit_ldiff, h8, Nat.testBit_shiftLeft, Nat.testBit_shiftRight, h7,
    Nat.testBit_two_pow_sub_one]
  by_cases hk : k < 3
  · simp [hk]
  · have : 3 + (k - 3) = k := by omega
    simp [hk, this]
    omega

theorem nat_lor_seven (m : Nat) : m ||| 7 = 8 * (m / 8) + 7 := by
  have h := Nat.mul_add_lt_is_or (show 7 < 2 ^ 3 by norm_num) (m / 8)
  norm_num at h
  rw [h]
  apply Nat.eq_of_testBit_eq
  intro k
  have h8 : 8 * (m / 8) = (m >>> 3) <<< 3 := by
    rw [Nat.shiftLeft_eq, Nat.shiftRight_eq_div_pow]; norm_num; ring
  have h7 : (7 : Nat) = 2 ^ 3 - 1 := by norm_num
  rw [Nat.testBit_or, Nat.testBit_or, h8, Nat.testBit_shiftLeft, Nat.testBit_shiftRight, h7,
    Nat.testBit_two_pow_sub_one]
  by_cases hk : k < 3
  · simp [hk]
  · have : 3 + (k - 3) = k := by omega
    simp [hk, this]
    omega

/-- Masking with `-8` clears the three low bits: it rounds down to a multiple of 8. -/
theorem land_neg8 (x : Int) : Int.land x (-8) = x - x % 8 := by
  cases x with
  | ofNat m =>
    show Int.land (Int.ofNat m) (Int.negSucc 7) = _
    simp only [Int.land, nat_ldiff_seven]
    simp only [Int.ofNat_eq_coe]
    push_cast
    omega
  | negSucc m =>
    show Int.land (Int.negSucc m) (Int.negSucc 7) = _
    simp only [Int.land, nat_lor_seven]
    simp only [Int.negSucc_eq]
    push_cast
    omega

theorem round8_ge (s : Int) : s ≤ round8 s := by unfold round8; omega
theorem round8_lt (s : Int) : round8 s < s + 8 := by unfold round8; omega
theorem round8_mod (s : Int) : round8 s % 8 = 0 := by unfold round8; omega

/-- The mask of `_shmalloc` is the bitwise `and` with `-8`. -/
theorem mask_align_eq_land (x : Int) : mask_align x = Int.land x (-8) := by
  unfold mask_align _ALIGNMENT_BYTE; exact (land_neg8 x).symm

/-! ## Size-class arithmetic -/

theorem get_smallseg_index_eq {s : Int} (h1 : 1 ≤ s) (h2 : s ≤ 1024) :
    get_smallseg_index s = (s - 1) / 16 := by
  unfold get_smallseg_index
  have e1 : wrap32 (s - 1) = s - 1 := wrap32_of_range (by omega) (by omega)
  rw [e1, Int.tdiv_eq_ediv (by omega) (by norm_num)]
  exact wrap32_of_range (by omega) (by omega)

theorem get_smallseg_size_eq {i : Int} (h1 : 0 ≤ i) (h2 : i < 64) :
    get_smallseg_size i = 16 * (i + 1) := by
  unfold get_smallseg_size
  have e1 : wrap32 (i + 1) = i + 1 := wrap32_of_range (by omega) (by omega)
  rw [e1, wrap32_of_range (by omega) (by omega)]
  ring

theorem two_pow_le_of_le {a b : Nat} (h : a ≤ b) : (2 : Int) ^ a ≤ 2 ^ b := by
  exact_mod_cast Nat.pow_le_pow_right (by norm_num) h

theorem two_pow_pos (a : Nat) : (0 : Int) < 2 ^ a := by positivity

theorem get_bigseg_index_loop_eq (usiz : Int) :
    ∀ (d j fuel : Nat), d < fuel → j + d ≤ 20 → usiz ≤ 1024 * 2 ^ (j + d) →
      (d = 0 ∨ 1024 * 2 ^ (j + d - 1) < usiz) →
      get_bigseg_index_loop usiz fuel (1024 * 2 ^ j) (j : Int) = some ((j + d : Nat) : Int) := by
  intro d
  induction d with
  | zero =>
    intro j fuel hf _ hu _
    obtain ⟨f, rfl⟩ : ∃ f, fuel = f + 1 := ⟨fuel - 1, by omega⟩
    simp only [get_bigseg_index_loop, Nat.add_zero] at hu ⊢
    rw [if_neg (by omega)]
  | succ d ih =>
    intro j fuel hf hj hu hl
    obtain ⟨f, rfl⟩ : ∃ f, fuel = f + 1 := ⟨fuel - 1, by omega⟩
    have hl' : 1024 * (2 : Int) ^ (j + (d + 1) - 1) < usiz := by
      rcases hl with h | h
      · omega
      · exact h
    have e1 : j + (d + 1) - 1 = j + d := by omega
    rw [e1] at hl'
    have hjd : (2 : Int) ^ j ≤ 2 ^ (j + d) := two_pow_le_of_le (by omega)
    have h20 : (2 : Int) ^ (j + 1) ≤ 2 ^ 20 := two_pow_le_of_le (by omega)
    have hp : (0 : Int) < 2 ^ j := two_pow_pos j
    have e2 : (2 : Int) ^ (j + 1) = 2 ^ j * 2 := pow_succ 2 j
    simp only [get_bigseg_index_loop]
    rw [if_pos (by omega)]
    have e3 : to_uint (1024 * 2 ^ j * 2) = 1024 * 2 ^ (j + 1) := by
      rw [to_uint_of_range (by omega) (by norm_num at h20; omega)]; omega
    have e4 : wrap32 ((j : Int) + 1) = ((j + 1 : Nat) : Int) := by
      rw [wrap32_of_range (by omega) (by omega)]; push_cast; ring
    rw [e3, e4]
    have := ih (j + 1) f (by omega) (by omega) (by
      have : j + 1 + d = j + (d + 1) := by omega
      rw [this]; exact hu) (by
      rcases Nat.eq_zero_or_pos d with h0 | h0
      · left; exact h0
      · right
        have : j + 1 + d - 1 = j + d := by omega
        rw [this]; exact hl')
    rw [this]
    have e5 : j + 1 + d = j + (d + 1) := by omega
    rw [e5]

/-- For a request `s` in `(1024, 2^30]` that lies in `(1024*2^k, 2048*2^k]`,
`get_bigseg_index` ends and returns `k`. -/
theorem get_bigseg_index_eq {s : Int} {k : Nat} (hk : k < 20) (h1 : 1024 * 2 ^ k < s)
    (h2 : s ≤ 2048 * 2 ^ k) : get_bigseg_index s = some (k : Int) := by
  have hp : (0 : Int) < 2 ^ k := two_pow_pos k
  have h20 : (2 : Int) ^ k ≤ 2 ^ 19 := two_pow_le_of_le (by omega)
  norm_num at h20
  have e2 : (2 : Int) ^ (k + 1) = 2 ^ k * 2 := pow_succ 2 k
  unfold get_bigseg_index
  have hs : to_uint s = s := to_uint_of_range (by omega) (by omega)
  have ht : to_uint _SEGSIZE_THRESHOLD = 1024 * 2 ^ 0 := by
    unfold _SEGSIZE_THRESHOLD; rw [to_uint_of_range (by omega) (by omega)]; norm_num
  rw [hs, ht]
  have := get_bigseg_index_loop_eq s (k + 1) 0 34 (by omega) (by omega)
    (by rw [Nat.zero_add, e2]; omega) (by right; simpa using h1)
  simp only [Nat.cast_zero] at this
  rw [this]
  simp only [Option.map_some', Nat.zero_add]
  rw [wrap32_of_range (by push_cast; omega) (by push_cast; omega)]
  push_cast; ring_nf

theorem get_bigseg_size_loop_eq :
    ∀ (t : Nat) (rc : Int), 0 ≤ rc → rc * 2 ^ t < 2147483648 →
      get_bigseg_size_loop t rc = rc * 2 ^ t := by
  intro t
  induction t with
  | zero => intro rc _ _; simp [get_bigseg_size_loop]
  | succ t ih =>
    intro rc h0 h
    have hp : (0 : Int) < 2 ^ t := two_pow_pos t
    have e2 : (2 : Int) ^ (t + 1) = 2 ^ t * 2 := pow_succ 2 t
    have hle : rc * 2 ≤ rc * 2 ^ (t + 1) := by
      rw [e2]; nlinarith
    simp only [get_bigseg_size_loop]
    rw [wrap32_of_range (by omega) (by omega), ih (rc * 2) (by omega) (by rw [e2] at h; nlinarith)]
    rw [e2]; ring

theorem get_bigseg_size_eq {k : Nat} (hk : k < 20) :
    get_bigseg_size (k : Int) = 2048 * 2 ^ k := by
  have h20 : (2 : Int) ^ k ≤ 2 ^ 19 := two_pow_le_of_le (by omega)
  norm_num at h20
  unfold get_bigseg_size _SEGSIZE_THRESHOLD
  rw [Int.toNat_ofNat, wrap32_of_range (by norm_num) (by norm_num),
    get_bigseg_size_loop_eq k _ (by norm_num) (by omega)]
  norm_num


/-! ## Cells -/

@[simp] theorem upd_same (m : Int → Int) (a v : Int) : upd m a v a = v := by
  simp [upd]

theorem upd_other (m : Int → Int) {a x : Int} (v : Int) (h : x ≠ a) : upd m a v x = m x := by
  simp [upd, h]

@[simp] theorem set_mem (n : NShm) (a v : Int) : (n.set a v).mem = upd n.mem a v := rfl
@[simp] theorem set_base (n : NShm) (a v : Int) : (n.set a v)._base = n._base := rfl
@[simp] theorem set_size (n : NShm) (a v : Int) : (n.set a v)._size = n._size := rfl
@[simp] theorem set_lock (n : NShm) (a v : Int) : (n.set a v).lock_point = n.lock_point := rfl

theorem load_eq {n : NShm} {a : Int} (h1 : 0 ≤ a) (h2 : a < (n._size : Int)) :
    load n (n._base + a) = some (n.mem a) := by
  unfold load NShm.mapped
  rw [if_pos (by omega)]
  congr 2; omega

theorem store_eq {n : NShm} {a : Int} (v : Int) (h1 : 0 ≤ a) (h2 : a < (n._size : Int)) :
    store n (n._base + a) v = some (n.set a v) := by
  unfold store NShm.mapped
  rw [if_pos (by omega)]
  congr 2
  have : n._base + a - n._base = a := by omega
  rw [this]

/-! ## Size classes -/

theorem IsClass.head_ge {head c : Int} (h : IsClass head c) : 24 ≤ head := by
  rcases h with ⟨i, _, rfl, _⟩ | ⟨i, _, rfl, _⟩ <;> simp only [off_small_msegs, off_big_msegs] <;>
    omega

theorem IsClass.head_lt {head c : Int} (h : IsClass head c) : head < 696 := by
  rcases h with ⟨i, _, rfl, _⟩ | ⟨i, _, rfl, _⟩ <;> simp only [off_small_msegs, off_big_msegs] <;>
    omega

theorem IsClass.size_pos {head c : Int} (h : IsClass head c) : 0 < c := by
  rcases h with ⟨i, _, _, rfl⟩ | ⟨i, _, _, rfl⟩
  · omega
  · have := two_pow_pos i; omega

theorem IsClass.size_le {head c : Int} (h : IsClass head c) : c ≤ 1073741824 := by
  rcases h with ⟨i, hi, _, rfl⟩ | ⟨i, hi, _, rfl⟩
  · omega
  · have h20 : (2 : Int) ^ i ≤ 2 ^ 19 := two_pow_le_of_le (by omega)
    norm_num at h20
    omega

/-- A class size belongs to one head cell only. -/
theorem IsClass.head_unique {head head1 c : Int} (h : IsClass head c) (h1 : IsClass head1 c) :
    head = head1 := by
  rcases h with ⟨i, hi, rfl, hc⟩ | ⟨i, hi, rfl, hc⟩ <;>
    rcases h1 with ⟨j, hj, rfl, hc1⟩ | ⟨j, hj, rfl, hc1⟩
  · omega
  · have := two_pow_pos j; omega
  · have := two_pow_pos i; omega
  · have e : (2 : Int) ^ i = 2 ^ j := by omega
    have e1 : (2 : Nat) ^ i = 2 ^ j := by exact_mod_cast e
    have := Nat.pow_right_injective (le_refl 2) e1
    subst this; rfl

/-- A head cell has one class size only. -/
theorem IsClass.size_unique {head c c1 : Int} (h : IsClass head c) (h1 : IsClass head c1) :
    c = c1 := by
  rcases h with ⟨i, hi, hh, rfl⟩ | ⟨i, hi, hh, rfl⟩ <;>
    rcases h1 with ⟨j, hj, hh1, rfl⟩ | ⟨j, hj, hh1, rfl⟩ <;>
    simp only [off_small_msegs, off_big_msegs] at hh hh1
  · have : i = j := by omega
    subst this; rfl
  · omega
  · omega
  · have : i = j := by omega
    subst this; rfl

/-! ## Free lists -/

theorem FreeList.frame_cell {m : Int → Int} {l : List Int} :
    ∀ {head : Int} (a v : Int), FreeList m head l → a ∉ l → FreeList (upd m a v) head l := by
  induction l with
  | nil => intro head a v h _; exact h
  | cons x t ih =>
    intro head a v h ha
    simp only [FreeList, hdr_next_offset, add_zero] at h ⊢
    refine ⟨h.1, ?_⟩
    have hx : x ≠ a := fun e => ha (by simp [e])
    rw [upd_other m v hx]
    exact ih a v h.2 (fun hm => ha (List.mem_cons_of_mem _ hm))

theorem FreeList.head_neg {m : Int → Int} {head : Int} (h : FreeList m head []) : head < 0 := by
  simp only [FreeList] at h; omega

/-- Every offset reached from the head is a member of the list. -/
theorem FreeList.reach_mem {m : Int → Int} {x : Int} :
    ∀ {head : Int} {l : List Int}, FreeReach m head x → FreeList m head l → x ∈ l := by
  intro head l hr
  induction hr generalizing l with
  | here h h0 =>
    intro hl
    cases l with
    | nil => simp only [FreeList] at hl; omega
    | cons y t => simp only [FreeList] at hl; simp [hl.1]
  | next h x h0 _ ih =>
    intro hl
    cases l with
    | nil => simp only [FreeList] at hl; omega
    | cons y t =>
      simp only [FreeList] at hl
      obtain ⟨rfl, hl2⟩ := hl
      exact List.mem_cons_of_mem _ (ih hl2)

/-! ## The allocator invariant, cell by cell -/

theorem Inv.seg_unique {base : Int} {size : Nat} {m : Int → Int} {L : Layout} {live : List Int}
    (I : Inv base size m L live) {h c c1 : Int} (h1 : (h, c) ∈ L.segs) (h2 : (h, c1) ∈ L.segs) :
    c = c1 := by
  rcases I.seg_disj _ h1 _ h2 with e | e | e
  · exact (Prod.mk.inj e).2
  · obtain ⟨hd, hc⟩ := (I.seg_ok _ h1).2.2.2
    have := hc.size_pos
    simp only at e; omega
  · obtain ⟨hd, hc⟩ := (I.seg_ok _ h2).2.2.2
    have := hc.size_pos
    simp only at e; omega

/-- A segment on the free list of one class is on the list of no other class,
so it is on the list of its own class or on none. -/
theorem Inv.fl_class {base : Int} {size : Nat} {m : Int → Int} {L : Layout} {live : List Int}
    (I : Inv base size m L live) {head head1 c c1 h : Int} (hc : IsClass head c)
    (hc1 : IsClass head1 c1) (hs : (h, c) ∈ L.segs) (hm : h ∈ L.fl head1) : head1 = head := by
  have := (I.fl_ok head1 c1 hc1).2.2 h hm
  have e := I.seg_unique hs this
  subst e
  exact hc1.head_unique hc

/-- Writing a cell that is neither the cursor, nor a head cell, nor a cell of a
segment header keeps the invariant. -/
theorem Inv.frame {base : Int} {size : Nat} {m : Int → Int} {L : Layout} {live : List Int}
    (I : Inv base size m L live) {a : Int} (v : Int) (h16 : a ≠ off_free_offset)
    (hhead : a < 24 ∨ 696 ≤ a) (hseg : ∀ s ∈ L.segs, a ≠ s.1 ∧ a ≠ s.1 + 8) :
    Inv base size (upd m a v) L live := by
  have e16 : upd m a v off_free_offset = m off_free_offset := upd_other m v (Ne.symm h16)
  refine ⟨I.base_pos, I.size_lt, ?_, ?_, I.seg_disj, ?_, ?_, I.live_ok, I.live_nodup⟩
  · rw [e16]; exact I.fo_ge
  · rw [e16]; exact I.fo_le
  · intro s hs
    obtain ⟨h1, h2, h3, h4⟩ := I.seg_ok s hs
    refine ⟨h1, by rw [e16]; exact h2, ?_, h4⟩
    rw [upd_other m v (by simp only [hdr_seg_siz]; exact Ne.symm (hseg s hs).2)]
    exact h3
  · intro head c hc
    obtain ⟨h1, h2, h3⟩ := I.fl_ok head c hc
    refine ⟨?_, h2, h3⟩
    have hh : head ≠ a := by
      have := hc.head_ge; have := hc.head_lt; omega
    rw [upd_other m v hh]
    exact h1.frame_cell a v (fun hm => (hseg _ (h3 a hm)).1 rfl)

/-- Moving the cursor forward keeps the invariant. -/
theorem Inv.bump {base : Int} {size : Nat} {m : Int → Int} {L : Layout} {live : List Int}
    (I : Inv base size m L live) {x : Int} (h1 : m off_free_offset ≤ x) (h2 : x ≤ (size : Int)) :
    Inv base size (upd m off_free_offset x) L live := by
  have hge := I.fo_ge
  simp only [sizeof_nshm_base_t, off_free_offset] at hge h1 ⊢
  refine ⟨I.base_pos, I.size_lt, ?_, ?_, I.seg_disj, ?_, ?_, I.live_ok, I.live_nodup⟩
  · simp only [sizeof_nshm_base_t, off_free_offset, upd_same]; omega
  · simp only [off_free_offset, upd_same]; exact h2
  · intro s hs
    obtain ⟨g1, g2, g3, g4⟩ := I.seg_ok s hs
    simp only [sizeof_nshm_base_t, off_free_offset, hdr_seg_siz] at g1 g2 g3 ⊢
    refine ⟨g1, by rw [upd_same]; omega, ?_, g4⟩
    rw [upd_other m x (by omega)]
    exact g3
  · intro head c hc
    obtain ⟨g1, g2, g3⟩ := I.fl_ok head c hc
    refine ⟨?_, g2, g3⟩
    have hh : head ≠ 16 := by have := hc.head_ge; omega
    rw [upd_other m x hh]
    refine g1.frame_cell 16 x (fun hm => ?_)
    have := (I.seg_ok _ (g3 16 hm)).1
    simp only [sizeof_nshm_base_t] at this
    omega

/-- Dropping blocks from the list of held blocks keeps the invariant. -/
theorem Inv.live_sub {base : Int} {size : Nat} {m : Int → Int} {L : Layout}
    {live live1 : List Int} (I : Inv base size m L live) (hs : List.Sublist live1 live) :
    Inv base size m L live1 :=
  ⟨I.base_pos, I.size_lt, I.fo_ge, I.fo_le, I.seg_disj, I.seg_ok, I.fl_ok,
    fun p hp => I.live_ok p (hs.subset hp), I.live_nodup.sublist hs⟩

/-- Cutting a new segment at the cursor: the cursor moves past it and its class
size is stamped; the segment is on no free list yet. -/
theorem Inv.carve {base : Int} {size : Nat} {m : Int → Int} {L : Layout} {live : List Int}
    (I : Inv base size m L live) {head c : Int} (hc : IsClass head c)
    (hfit : m off_free_offset + 16 + c ≤ (size : Int)) :
    Inv base size
      (upd (upd m off_free_offset (m off_free_offset + 16 + c)) (m off_free_offset + 8) c)
      ⟨(m off_free_offset, c) :: L.segs, L.fl⟩ live := by
  have hge := I.fo_ge
  have hpos := hc.size_pos
  simp only [sizeof_nshm_base_t, off_free_offset] at hge hfit ⊢
  set fo := m 16 with hfo
  have I1 : Inv base size (upd m 16 (fo + 16 + c)) L live := I.bump (by
    simp only [off_free_offset]; omega) hfit
  have I2 : Inv base size (upd (upd m 16 (fo + 16 + c)) (fo + 8) c) L live := by
    refine I1.frame c (by simp only [off_free_offset]; omega) (by omega) ?_
    intro s hs
    have g2 := (I.seg_ok s hs).2.1
    obtain ⟨hd, hcs⟩ := (I.seg_ok s hs).2.2.2
    have := hcs.size_pos
    simp only [off_free_offset] at g2
    omega
  have e16 : upd (upd m 16 (fo + 16 + c)) (fo + 8) c 16 = fo + 16 + c := by
    rw [upd_other _ _ (by omega), upd_same]
  refine ⟨I.base_pos, I.size_lt, I2.fo_ge, I2.fo_le, ?_, ?_, ?_, ?_, I.live_nodup⟩
  · intro a ha b hb
    simp only [List.mem_cons] at ha hb
    rcases ha with rfl | ha <;> rcases hb with rfl | hb
    · left; rfl
    · right; right
      have := (I.seg_ok b hb).2.1
      simp only [off_free_offset] at this
      exact this
    · right; left
      have := (I.seg_ok a ha).2.1
      simp only [off_free_offset] at this
      exact this
    · exact I.seg_disj a ha b hb
  · intro s hs
    simp only [List.mem_cons] at hs
    rcases hs with rfl | hs
    · simp only [sizeof_nshm_base_t, off_free_offset, hdr_seg_siz]
      refine ⟨hge, by rw [e16], by rw [upd_same], head, hc⟩
    · exact I2.seg_ok s hs
  · intro hd cc hcc
    obtain ⟨g1, g2, g3⟩ := I2.fl_ok hd cc hcc
    exact ⟨g1, g2, fun h hm => List.mem_cons_of_mem _ (g3 h hm)⟩
  · intro p hp
    obtain ⟨hd, cc, g1, g2, g3⟩ := I.live_ok p hp
    exact ⟨hd, cc, g1, List.mem_cons_of_mem _ g2, g3⟩

/-- Pushing a segment that is on no free list and that the caller does not hold
onto the free list of its class. -/
theorem Inv.push {base : Int} {size : Nat} {m : Int → Int} {L : Layout} {live : List Int}
    (I : Inv base size m L live) {head c h : Int} (hc : IsClass head c)
    (hs : (h, c) ∈ L.segs) (hfree : h ∉ L.fl head) (hlive : base + h + 16 ∉ live) :
    Inv base size (upd (upd m (h + hdr_next_offset) (m head)) head h)
      ⟨L.segs, Function.update L.fl head (h :: L.fl head)⟩ live := by
  have hh1 := hc.head_ge
  have hh2 := hc.head_lt
  have hge := (I.seg_ok _ hs).1
  simp only [sizeof_nshm_base_t, hdr_next_offset, add_zero] at hge ⊢
  -- the two cells written are no cell the other lists go through
  have hcell : ∀ s ∈ L.segs, h ≠ s.1 + 8 ∧ head ≠ s.1 ∧ head ≠ s.1 + 8 := by
    intro s hs1
    have g := (I.seg_ok s hs1).1
    obtain ⟨hd, hcs⟩ := (I.seg_ok s hs1).2.2.2
    have := hcs.size_pos
    have := hc.size_pos
    simp only [sizeof_nshm_base_t] at g
    refine ⟨?_, by omega, by omega⟩
    rcases I.seg_disj _ hs _ hs1 with e | e | e
    · rw [← e]; simp
    · simp only at e; omega
    · simp only at e; omega
  have e16 : upd (upd m h (m head)) head h off_free_offset = m off_free_offset := by
    simp only [off_free_offset]
    rw [upd_other _ _ (by omega), upd_other _ _ (by omega)]
  refine ⟨I.base_pos, I.size_lt, by rw [e16]; exact I.fo_ge, by rw [e16]; exact I.fo_le,
    I.seg_disj, ?_, ?_, ?_, I.live_nodup⟩
  · intro s hs1
    obtain ⟨g1, g2, g3, g4⟩ := I.seg_ok s hs1
    refine ⟨g1, by rw [e16]; exact g2, ?_, g4⟩
    simp only [hdr_seg_siz] at g3 ⊢
    rw [upd_other _ _ (Ne.symm (hcell s hs1).2.2), upd_other _ _ (Ne.symm (hcell s hs1).1)]
    exact g3
  · intro hd cc hcc
    obtain ⟨g1, g2, g3⟩ := I.fl_ok hd cc hcc
    by_cases e : hd = head
    · subst e
      have ecc : cc = c := hcc.size_unique hc
      subst ecc
      simp only [Function.update_same]
      refine ⟨?_, List.nodup_cons.mpr ⟨hfree, g2⟩, ?_⟩
      · simp only [FreeList, hdr_next_offset, add_zero, upd_same, true_and]
        rw [upd_other _ _ (by omega), upd_same]
        refine FreeList.frame_cell _ _ (FreeList.frame_cell _ _ g1 hfree) ?_
        intro hm
        have := (hcell _ (g3 _ hm)).2.1
        exact this rfl
      · intro x hx
        simp only [List.mem_cons] at hx
        rcases hx with rfl | hx
        · exact hs
        · exact g3 x hx
    · simp only [Function.update_noteq e]
      refine ⟨?_, g2, g3⟩
      rw [upd_other _ _ e]
      have hdne : hd ≠ h := by have := hcc.head_lt; omega
      rw [upd_other _ _ hdne]
      refine FreeList.frame_cell _ _ (FreeList.frame_cell _ _ g1 ?_) ?_
      · intro hm
        exact e (I.fl_class hc hcc hs hm)
      · intro hm
        exact (hcell _ (g3 _ hm)).2.1 rfl
  · intro p hp
    obtain ⟨hd, cc, g1, g2, g3⟩ := I.live_ok p hp
    refine ⟨hd, cc, g1, g2, ?_⟩
    by_cases e : hd = head
    · subst e
      simp only [Function.update_same, List.mem_cons, not_or]
      refine ⟨?_, g3⟩
      intro e1
      apply hlive
      have : base + h + 16 = p := by omega
      rw [this]; exact hp
    · simp only [Function.update_noteq e]
      exact g3

/-- Popping the head of a free list and handing it to the caller. -/
theorem Inv.pop {base : Int} {size : Nat} {m : Int → Int} {L : Layout} {live : List Int}
    (I : Inv base size m L live) {head c h : Int} {t : List Int} (hc : IsClass head c)
    (hl : L.fl head = h :: t) :
    Inv base size (upd (upd m head (m (h + hdr_next_offset))) (h + hdr_next_offset) (-1))
      ⟨L.segs, Function.update L.fl head t⟩ ((base + h + 16) :: live) := by
  have hh1 := hc.head_ge
  have hh2 := hc.head_lt
  obtain ⟨f1, f2, f3⟩ := I.fl_ok head c hc
  rw [hl] at f1 f2 f3
  have hs : (h, c) ∈ L.segs := f3 h (by simp)
  have hge := (I.seg_ok _ hs).1
  have hnd := List.nodup_cons.mp f2
  simp only [sizeof_nshm_base_t, hdr_next_offset, add_zero, FreeList] at hge f1 ⊢
  have hcell : ∀ s ∈ L.segs, h ≠ s.1 + 8 ∧ head ≠ s.1 ∧ head ≠ s.1 + 8 := by
    intro s hs1
    have g := (I.seg_ok s hs1).1
    obtain ⟨hd, hcs⟩ := (I.seg_ok s hs1).2.2.2
    have := hcs.size_pos
    have := hc.size_pos
    simp only [sizeof_nshm_base_t] at g
    refine ⟨?_, by omega, by omega⟩
    rcases I.seg_disj _ hs _ hs1 with e | e | e
    · rw [← e]; simp
    · simp only at e; omega
    · simp only at e; omega
  have e16 : upd (upd m head (m h)) h (-1) off_free_offset = m off_free_offset := by
    simp only [off_free_offset]
    rw [upd_other _ _ (by omega), upd_other _ _ (by omega)]
  -- the popped segment was not held by the caller
  have hnotlive : base + h + 16 ∉ live := by
    intro hp
    obtain ⟨hd, cc, g1, g2, g3⟩ := I.live_ok _ hp
    have e : base + h + 16 - base - 16 = h := by omega
    rw [e] at g2 g3
    have ecc := I.seg_unique hs g2
    subst ecc
    have := g1.head_unique hc
    subst this
    rw [hl] at g3
    exact g3 (by simp)
  refine ⟨I.base_pos, I.size_lt, by rw [e16]; exact I.fo_ge, by rw [e16]; exact I.fo_le,
    I.seg_disj, ?_, ?_, ?_, List.nodup_cons.mpr ⟨hnotlive, I.live_nodup⟩⟩
  · intro s hs1
    obtain ⟨g1, g2, g3, g4⟩ := I.seg_ok s hs1
    refine ⟨g1, by rw [e16]; exact g2, ?_, g4⟩
    simp only [hdr_seg_siz] at g3 ⊢
    rw [upd_other _ _ (Ne.symm (hcell s hs1).1), upd_other _ _ (Ne.symm (hcell s hs1).2.2)]
    exact g3
  · intro hd cc hcc
    obtain ⟨g1, g2, g3⟩ := I.fl_ok hd cc hcc
    by_cases e : hd = head
    · subst e
      simp only [Function.update_same]
      refine ⟨?_, hnd.2, fun x hx => ?_⟩
      · rw [upd_other _ _ (by omega), upd_same]
        refine FreeList.frame_cell _ _ (FreeList.frame_cell _ _ f1.2 ?_) hnd.1
        intro hm
        exact (hcell _ (f3 _ (List.mem_cons_of_mem _ hm))).2.1 rfl
      · rw [hl] at g3
        exact g3 x (List.mem_cons_of_mem _ hx)
    · simp only [Function.update_noteq e]
      refine ⟨?_, g2, g3⟩
      have hdne : hd ≠ h := by have := hcc.head_lt; omega
      rw [upd_other _ _ hdne, upd_other _ _ e]
      refine FreeList.frame_cell _ _ (FreeList.frame_cell _ _ g1 ?_) ?_
      · intro hm
        exact (hcell _ (g3 _ hm)).2.1 rfl
      · intro hm
        exact e (I.fl_class hc hcc hs hm)
  · intro p hp
    simp only [List.mem_cons] at hp
    rcases hp with rfl | hp
    · have e : base + h + 16 - base - 16 = h := by omega
      rw [e]
      refine ⟨head, c, hc, hs, ?_⟩
      simp only [Function.update_same]
      exact hnd.1
    · obtain ⟨hd, cc, g1, g2, g3⟩ := I.live_ok p hp
      refine ⟨hd, cc, g1, g2, ?_⟩
      by_cases e : hd = head
      · subst e
        simp only [Function.update_same]
        rw [hl] at g3
        exact fun hm => g3 (List.mem_cons_of_mem _ hm)
      · simp only [Function.update_noteq e]
        exact g3

/-! ## The code, step by step -/

theorem load_at {n : NShm} {p a : Int} (hp : p = n._base + a) (h1 : 0 ≤ a)
    (h2 : a < (n._size : Int)) : load n p = some (n.mem a) := by
  subst hp; exact load_eq h1 h2

theorem store_at {n : NShm} {p a : Int} (v : Int) (hp : p = n._base + a) (h1 : 0 ≤ a)
    (h2 : a < (n._size : Int)) : store n p v = some (n.set a v) := by
  subst hp; exact store_eq v h1 h2

theorem vos_ptr_pos {base o : Int} (h : 0 < o) : vos_ptr base o = base + o := by
  unfold vos_ptr; rw [if_pos h]

theorem vos_assign_add {base o : Int} (h : base + o ≠ 0) : vos_assign base (base + o) = o := by
  unfold vos_assign; rw [if_pos h]; omega

/-- `_shmalloc` on a request whose rounding fits `int32_t`. -/
theorem _shmalloc_eq {n : NShm} {s : Int} (hs1 : 0 ≤ s) (hs2 : s ≤ 2147483640)
    (hfo0 : 0 ≤ n.free_offset) (hfo : n.free_offset ≤ (n._size : Int))
    (hsz : (n._size : Int) < 9223372036854775808) :
    _shmalloc n s =
      if n.free_offset + round8 s > (n._size : Int) then (0, n)
      else (vos_ptr n._base n.free_offset,
        n.set off_free_offset (n.free_offset + round8 s)) := by
  unfold _shmalloc
  have e1 : wrap32 (s + _ALIGNMENT_BYTE - 1) = s + 7 := by
    unfold _ALIGNMENT_BYTE
    rw [wrap32_of_range (by omega) (by omega)]; omega
  have e2 : mask_align (wrap32 (s + _ALIGNMENT_BYTE - 1)) = round8 s := by
    rw [e1]; unfold mask_align _ALIGNMENT_BYTE round8; rfl
  have hr1 := round8_ge s
  have hr2 := round8_lt s
  have e3 : to_size_t (wrap64 (n.free_offset + round8 s)) = n.free_offset + round8 s := by
    by_cases h : n.free_offset + round8 s < 9223372036854775808
    · rw [wrap64_of_range (by omega) h, to_size_t_of_range (by omega) (by omega)]
    · have e : wrap64 (n.free_offset + round8 s) =
          n.free_offset + round8 s - 18446744073709551616 := by
        unfold wrap64; omega
      rw [e]; unfold to_size_t; omega
  simp only [e2, e3]
  by_cases hfit : n.free_offset + round8 s > (n._size : Int)
  · simp only [if_pos hfit]
  · simp only [if_neg hfit]
    rw [wrap64_of_range (by omega) (by omega)]

theorem round8_seg {c : Int} (h : c % 16 = 0) : round8 (12 + c) = 16 + c := by
  unfold round8; omega

theorem IsClass.size_mod {head c : Int} (h : IsClass head c) : c % 16 = 0 := by
  rcases h with ⟨i, _, _, rfl⟩ | ⟨i, _, _, rfl⟩
  · omega
  · have e : (2048 : Int) * 2 ^ i = 16 * (128 * 2 ^ i) := by ring
    rw [e]; exact Int.mul_emod_right _ _

theorem carved_lt (c : Int) (hc : 0 < c) :
    ∀ (j : Nat) (fo x : Int), x ∈ carved c j fo → fo ≤ x := by
  intro j
  induction j with
  | zero => intro fo x hx; simp [carved] at hx
  | succ j ih =>
    intro fo x hx
    simp only [carved, List.mem_append, List.mem_singleton] at hx
    rcases hx with hx | hx
    · have := ih _ _ hx; omega
    · omega

/-- The refill loop: it cuts `j` segments, all `todo` of them when they fit
below the end of the region, and leaves them on the free list. -/
theorem refill_loop_spec {head c : Int} (hc : IsClass head c) (live : List Int) :
    ∀ (todo : Nat) (n : NShm) (L : Layout), Inv n._base n._size n.mem L live →
      ∃ (ok : Bool) (n1 : NShm) (L1 : Layout) (j : Nat),
        refill_loop head c todo n = some (ok, n1) ∧
        Inv n1._base n1._size n1.mem L1 live ∧ Frame n n1 L L1 head ∧
        j ≤ todo ∧ (ok = true ↔ j = todo) ∧
        n1.free_offset = n.free_offset + j * (16 + c) ∧
        (j < todo → (n._size : Int) < n.free_offset + (j + 1) * (16 + c)) ∧
        L1.fl head = carved c j n.free_offset ++ L.fl head ∧
        (∀ a, a < n.free_offset → a ≠ off_free_offset → a ≠ head → n1.mem a = n.mem a) := by
  intro todo
  induction todo with
  | zero =>
    intro n L I
    refine ⟨true, n, L, 0, rfl, I, ⟨rfl, rfl, rfl, le_refl _, fun _ _ _ _ => rfl,
      fun _ h => h, fun _ _ => rfl⟩, le_refl _, by simp, by simp, by simp, by simp [carved],
      fun _ _ _ _ => rfl⟩
  | succ todo ih =>
    intro n L I
    have hpos := hc.size_pos
    have hle := hc.size_le
    have hmod := hc.size_mod
    have hge := I.fo_ge
    have hfle := I.fo_le
    have hsz := I.size_lt
    have hh1 := hc.head_ge
    have hh2 := hc.head_lt
    have hbase := I.base_pos
    have ew : wrap32 (8 + 4 + c) = 12 + c := by
      rw [wrap32_of_range (by omega) (by omega)]; omega
    have esh := _shmalloc_eq (n := n) (s := 12 + c) (by omega) (by omega)
      (by unfold NShm.free_offset; simp only [sizeof_nshm_base_t] at hge; omega)
      (by unfold NShm.free_offset; exact hfle) hsz
    rw [round8_seg hmod, show n.free_offset + (16 + c) = n.free_offset + 16 + c by ring] at esh
    simp only [sizeof_nshm_base_t] at hge
    by_cases hfit : n.free_offset + 16 + c > (n._size : Int)
    · -- the region is exhausted: `goto finally`
      refine ⟨false, n, L, 0, ?_, I, ⟨rfl, rfl, rfl, le_refl _, fun _ _ _ _ => rfl,
        fun _ h => h, fun _ _ => rfl⟩, Nat.zero_le _, by simp, by simp, ?_, by simp [carved],
        fun _ _ _ _ => rfl⟩
      · simp only [refill_loop, ew, esh, if_pos hfit, if_true]
      · intro _; push_cast; omega
    · -- one more segment is cut and pushed
      set fo := n.free_offset with hfo
      have hfo' : n.mem off_free_offset = fo := rfl
      have hfo16 : n.mem 16 = fo := rfl
      have hfit' : fo + 16 + c ≤ (n._size : Int) := by omega
      have hptr : vos_ptr n._base fo = n._base + fo := vos_ptr_pos (by omega)
      let n1 : NShm := n.set off_free_offset (fo + 16 + c)
      let n2 : NShm := n1.set (fo + 8) c
      let n3 : NShm := n2.set fo (n2.mem head)
      let n4 : NShm := n3.set head fo
      have s2 : store n1 (n._base + fo + hdr_seg_siz) c = some n2 :=
        store_at c (by simp only [hdr_seg_siz]; show _ = n._base + _; omega) (by omega)
          (by show _ < (n._size : Int); omega)
      have s3 : store n2 (n._base + fo + hdr_next_offset) (n2.mem head) = some n3 :=
        store_at _ (by simp only [hdr_next_offset]; show _ = n._base + _; omega) (by omega)
          (by show _ < (n._size : Int); omega)
      have ev : vos_assign n3._base (n._base + fo) = fo :=
        show vos_assign n._base (n._base + fo) = fo from vos_assign_add (by omega)
      have hstep : refill_loop head c (todo + 1) n = refill_loop head c todo n4 := by
        have hne : n._base + fo ≠ 0 := by omega
        simp only [refill_loop, ew, esh, if_neg hfit, hptr, if_neg hne]
        rw [s2]; simp only [Option.bind_eq_bind, Option.some_bind]
        rw [s3]; simp only [Option.some_bind]
        rw [ev]
      -- the invariant after the iteration
      have Ic := I.carve hc (by rw [hfo']; exact hfit')
      rw [hfo'] at Ic
      have e2h : n2.mem head = n.mem head := by
        show upd (upd n.mem off_free_offset _) (fo + 8) c head = _
        rw [upd_other _ _ (by omega), upd_other _ _ (by simp only [off_free_offset]; omega)]
      have hnew : (fo, c) ∈ ((fo, c) :: L.segs) := by simp
      have hnf : fo ∉ L.fl head := by
        intro hm
        have := (I.seg_ok _ ((I.fl_ok head c hc).2.2 _ hm)).2.1
        rw [hfo'] at this; simp only at this; omega
      have hnl : n._base + fo + 16 ∉ live := by
        intro hp
        obtain ⟨hd, cc, g1, g2, g3⟩ := I.live_ok _ hp
        have g4 := (I.seg_ok _ g2).2.1
        have := g1.size_pos
        rw [hfo'] at g4; simp only at g4; omega
      have Ip := Ic.push (h := fo) hc hnew hnf hnl
      have em4 : n4.mem = upd (upd (upd (upd n.mem off_free_offset (fo + 16 + c)) (fo + 8) c)
          (fo + hdr_next_offset) (upd (upd n.mem off_free_offset (fo + 16 + c)) (fo + 8) c head))
          head fo := by
        show upd (upd (upd (upd n.mem off_free_offset (fo + 16 + c)) (fo + 8) c) fo
          (n2.mem head)) head fo = _
        simp only [hdr_next_offset, add_zero]
        rfl
      have I4 : Inv n4._base n4._size n4.mem
          ⟨(fo, c) :: L.segs, Function.update L.fl head (fo :: L.fl head)⟩ live := by
        rw [em4]; exact Ip
      have efo4 : n4.free_offset = fo + 16 + c := by
        show upd (upd (upd (upd n.mem off_free_offset (fo + 16 + c)) (fo + 8) c) fo
          (n2.mem head)) head fo off_free_offset = _
        simp only [off_free_offset]
        rw [upd_other _ _ (by omega), upd_other _ _ (by omega), upd_other _ _ (by omega),
          upd_same]
      obtain ⟨ok, n5, L5, j, r1, r2, r3, r4, r5, r6, r7, r8, r9⟩ := ih n4 _ I4
      refine ⟨ok, n5, L5, j + 1, by rw [hstep]; exact r1, r2, ?_, by omega, ?_, ?_, ?_, ?_, ?_⟩
      · refine ⟨r3.base_eq, r3.size_eq, r3.lock_eq, ?_, ?_, ?_, ?_⟩
        · have := r3.fo_le; rw [efo4] at this; omega
        · intro a h16 hhd hsg
          rw [r3.cells a h16 hhd hsg]
          have hin : (fo, c) ∈ L5.segs := r3.segs_sub _ (by simp)
          have := hsg _ hin
          simp only at this
          show upd (upd (upd (upd n.mem off_free_offset (fo + 16 + c)) (fo + 8) c) fo
            (n2.mem head)) head fo a = _
          rw [upd_other _ _ hhd, upd_other _ _ this.1, upd_other _ _ this.2,
            upd_other _ _ h16]
        · intro s hs; exact r3.segs_sub _ (List.mem_cons_of_mem _ hs)
        · intro hd hne
          rw [r3.fl_other hd hne]
          simp only [Function.update_noteq hne]
      · rw [r5]; omega
      · rw [r6, efo4]; push_cast; ring
      · intro hj
        have := r7 (by omega)
        rw [efo4] at this
        show (n._size : Int) < _
        have e : (n4._size : Int) = n._size := rfl
        rw [e] at this
        push_cast at this ⊢
        linarith
      · rw [r8, efo4]
        simp only [Function.update_same, carved]
        simp
      · intro a ha h16 hhd
        rw [r9 a (by rw [efo4]; omega) h16 hhd]
        show upd (upd (upd (upd n.mem off_free_offset (fo + 16 + c)) (fo + 8) c) fo
          (n2.mem head)) head fo a = _
        rw [upd_other _ _ hhd, upd_other _ _ (by omega), upd_other _ _ (by omega),
          upd_other _ _ h16]

theorem lock_eq {n : NShm} (hl : n.lock_point = false) :
    _lock_nshm n = some { n with lock_point := true } := by
  unfold _lock_nshm; rw [hl]; rfl

/-- The state of a handle whose lock word is set. -/
theorem Inv.head_eq {base : Int} {size : Nat} {m : Int → Int} {L : Layout} {live : List Int}
    (I : Inv base size m L live) {head c h : Int} {t : List Int} (hc : IsClass head c)
    (hl : L.fl head = h :: t) :
    m head = h ∧ (h, c) ∈ L.segs ∧ sizeof_nshm_base_t ≤ h ∧ h + 16 + c ≤ (size : Int) := by
  obtain ⟨f1, f2, f3⟩ := I.fl_ok head c hc
  rw [hl] at f1 f3
  have hs : (h, c) ∈ L.segs := f3 h (by simp)
  obtain ⟨g1, g2, g3, g4⟩ := I.seg_ok _ hs
  simp only [FreeList] at f1
  have := I.fo_le
  exact ⟨f1.1, hs, g1, by simp only at g2; omega⟩

theorem Inv.head_nil {base : Int} {size : Nat} {m : Int → Int} {L : Layout} {live : List Int}
    (I : Inv base size m L live) {head c : Int} (hc : IsClass head c)
    (hl : L.fl head = []) : m head = -1 := by
  obtain ⟨f1, f2, f3⟩ := I.fl_ok head c hc
  rw [hl] at f1
  simpa only [FreeList] using f1

/-- Popping the head of a free list that is not empty. -/
theorem pop_head_eq {n : NShm} {L : Layout} {live : List Int}
    (I : Inv n._base n._size n.mem L live) {head c h : Int} {t : List Int}
    (hc : IsClass head c) (hl : L.fl head = h :: t) :
    pop_head head n = some (n._base + h + 16,
      (n.set head (n.mem (h + hdr_next_offset))).set (h + hdr_next_offset) (-1)) := by
  obtain ⟨e1, e2, e3, e4⟩ := I.head_eq hc hl
  have hpos := hc.size_pos
  simp only [sizeof_nshm_base_t] at e3
  unfold pop_head
  rw [e1, vos_ptr_pos (by omega)]
  have l1 : load n (n._base + h + hdr_next_offset) = some (n.mem (h + hdr_next_offset)) :=
    load_at (by omega) (by simp only [hdr_next_offset]; omega)
      (by simp only [hdr_next_offset]; omega)
  have s1 : store (n.set head (n.mem (h + hdr_next_offset))) (n._base + h + hdr_next_offset)
      (-1) = some ((n.set head (n.mem (h + hdr_next_offset))).set (h + hdr_next_offset) (-1)) :=
    store_at _ (by show _ = n._base + _; omega) (by simp only [hdr_next_offset]; omega)
      (by show _ < (n._size : Int); simp only [hdr_next_offset]; omega)
  simp only [Option.bind_eq_bind, l1, Option.some_bind, s1, sizeof_shmem_hdr]

/-- `alloc_class` on a class whose free list is not empty: the head of the list
is handed out and the cursor stays. -/
theorem alloc_class_pop {n : NShm} {L : Layout} {live : List Int}
    (I : Inv n._base n._size n.mem L live) (hlk : n.lock_point = false) {head c h : Int}
    {t : List Int} (hc : IsClass head c) (hl : L.fl head = h :: t) (k : Nat) :
    ∃ n1, alloc_class n head c k = some (n._base + h + 16, n1) ∧
      Inv n1._base n1._size n1.mem ⟨L.segs, Function.update L.fl head t⟩
        ((n._base + h + 16) :: live) ∧
      Frame n n1 L ⟨L.segs, Function.update L.fl head t⟩ head ∧
      n1.free_offset = n.free_offset := by
  obtain ⟨e1, e2, e3, e4⟩ := I.head_eq hc hl
  have hh1 := hc.head_ge
  have hh2 := hc.head_lt
  simp only [sizeof_nshm_base_t] at e3
  let nl : NShm := { n with lock_point := true }
  have Il : Inv nl._base nl._size nl.mem L live := I
  have hp := pop_head_eq Il hc hl
  refine ⟨_unlock_nshm ((nl.set head (nl.mem (h + hdr_next_offset))).set
    (h + hdr_next_offset) (-1)), ?_, ?_, ?_, ?_⟩
  · unfold alloc_class
    rw [lock_eq hlk]
    simp only [Option.bind_eq_bind, Option.some_bind]
    have : ¬ (nl.mem head < 0) := by
      show ¬ (n.mem head < 0); rw [e1]; omega
    rw [if_neg this, hp]
    rfl
  · exact I.pop hc hl
  · refine ⟨rfl, rfl, hlk.symm ▸ rfl, ?_, ?_, fun _ h => h, ?_⟩
    · show n.mem off_free_offset ≤ upd (upd n.mem head _) (h + hdr_next_offset) (-1)
        off_free_offset
      simp only [off_free_offset, hdr_next_offset, add_zero]
      rw [upd_other _ _ (by omega), upd_other _ _ (by omega)]
    · intro a _ hhd hsg
      have := (hsg _ e2).1
      show upd (upd n.mem head _) (h + hdr_next_offset) (-1) a = _
      simp only [hdr_next_offset, add_zero]
      rw [upd_other _ _ this, upd_other _ _ hhd]
    · intro hd hne
      simp only [Function.update_noteq hne]
  · show upd (upd n.mem head _) (h + hdr_next_offset) (-1) off_free_offset = _
    simp only [off_free_offset, hdr_next_offset, add_zero]
    rw [upd_other _ _ (by omega), upd_other _ _ (by omega)]
    rfl

theorem carved_succ_ne_nil (c : Int) (j : Nat) (fo : Int) : carved c (j + 1) fo ≠ [] := by
  simp [carved]

/-- `alloc_class` on a class whose free list is empty: the refill loop runs;
the call returns a block exactly when all `k` segments fit in the region. -/
theorem alloc_class_refill {n : NShm} {L : Layout} {live : List Int}
    (I : Inv n._base n._size n.mem L live) (hlk : n.lock_point = false) {head c : Int}
    (hc : IsClass head c) (hl : L.fl head = []) {k : Nat} (hk : 0 < k) :
    ∃ p n1 L1 j, alloc_class n head c k = some (p, n1) ∧
      Inv n1._base n1._size n1.mem L1 (if p = 0 then live else p :: live) ∧
      Frame n n1 L L1 head ∧
      j ≤ k ∧ (p ≠ 0 ↔ j = k) ∧
      (p ≠ 0 ↔ n.free_offset + k * (16 + c) ≤ (n._size : Int)) ∧
      n1.free_offset = n.free_offset + j * (16 + c) ∧
      (j < k → (n._size : Int) < n.free_offset + (j + 1) * (16 + c)) ∧
      (p = 0 → L1.fl head = carved c j n.free_offset) ∧
      (p ≠ 0 → carved c j n.free_offset = (p - n._base - 16) :: L1.fl head ∧
        (p - n._base - 16, c) ∈ L1.segs) := by
  have hh1 := hc.head_ge
  have hh2 := hc.head_lt
  have hpos := hc.size_pos
  let nl : NShm := { n with lock_point := true }
  have Il : Inv nl._base nl._size nl.mem L live := I
  obtain ⟨ok, n2, L2, j, r1, r2, r3, r4, r5, r6, r7, r8, r9⟩ :=
    refill_loop_spec hc live k nl L Il
  have hneg : nl.mem head < 0 := by
    show n.mem head < 0; rw [I.head_nil hc hl]; omega
  have hstart : alloc_class n head c k =
      (if ok = true then
        (pop_head head n2).bind (fun x => some (x.1, _unlock_nshm x.2))
      else some (0, _unlock_nshm n2)) := by
    unfold alloc_class
    rw [lock_eq hlk]
    simp only [Option.bind_eq_bind, Option.some_bind]
    rw [if_pos hneg, r1]
    simp only [Option.some_bind]
  rw [hl, List.append_nil] at r8
  have hfo : nl.free_offset = n.free_offset := rfl
  have hsz : nl._size = n._size := rfl
  rw [hfo] at r6 r7 r8
  rw [hsz] at r7
  cases ok with
  | false =>
    have hj : j < k := by
      rcases Nat.lt_or_ge j k with h | h
      · exact h
      · have : j = k := by omega
        have := r5.mpr this
        simp at this
    refine ⟨0, _unlock_nshm n2, L2, j, by rw [hstart]; simp, ?_, ?_, r4, ?_, ?_, r6, r7,
      fun _ => r8, fun h => absurd rfl h⟩
    · simp only [if_true]; exact r2
    · exact ⟨r3.base_eq, r3.size_eq, by rw [hlk]; rfl, r3.fo_le, r3.cells, r3.segs_sub,
        r3.fl_other⟩
    · constructor
      · intro h; exact absurd rfl h
      · intro h; omega
    · constructor
      · intro h; exact absurd rfl h
      · intro h
        have h7 := r7 hj
        have : ((j : Int) + 1) * (16 + c) ≤ (k : Int) * (16 + c) := by
          have : (j : Int) + 1 ≤ k := by exact_mod_cast hj
          nlinarith
        omega
  | true =>
    have hj : j = k := r5.mp rfl
    subst hj
    obtain ⟨j0, rfl⟩ : ∃ j0, j = j0 + 1 := ⟨j - 1, by omega⟩
    -- the list is not empty after a full refill
    obtain ⟨h, t, hht⟩ : ∃ h t, L2.fl head = h :: t := by
      cases hq : L2.fl head with
      | nil => rw [hq] at r8; exact absurd r8.symm (carved_succ_ne_nil _ _ _)
      | cons h t => exact ⟨h, t, rfl⟩
    have hp := pop_head_eq r2 hc hht
    obtain ⟨e1, e2, e3, e4⟩ := r2.head_eq hc hht
    simp only [sizeof_nshm_base_t] at e3
    have hbase := I.base_pos
    have eb : n2._base = n._base := r3.base_eq
    have hpne : n2._base + h + 16 ≠ 0 := by rw [eb]; omega
    have Ipop := r2.pop hc hht
    refine ⟨n2._base + h + 16,
      _unlock_nshm ((n2.set head (n2.mem (h + hdr_next_offset))).set (h + hdr_next_offset) (-1)),
      ⟨L2.segs, Function.update L2.fl head t⟩, j0 + 1, ?_, ?_, ?_, le_refl _, ?_, ?_, ?_, ?_, ?_,
      ?_⟩
    · rw [hstart, if_pos rfl, hp]; rfl
    · rw [if_neg hpne]; exact Ipop
    · refine ⟨r3.base_eq, r3.size_eq, by rw [hlk]; rfl, ?_, ?_, r3.segs_sub, ?_⟩
      · show n.mem off_free_offset ≤ upd (upd n2.mem head _) (h + hdr_next_offset) (-1)
          off_free_offset
        simp only [off_free_offset, hdr_next_offset, add_zero]
        rw [upd_other _ _ (by omega), upd_other _ _ (by omega)]
        exact r3.fo_le
      · intro a h16 hhd hsg
        have := (hsg _ e2).1
        show upd (upd n2.mem head _) (h + hdr_next_offset) (-1) a = _
        simp only [hdr_next_offset, add_zero]
        rw [upd_other _ _ this, upd_other _ _ hhd]
        exact r3.cells a h16 hhd hsg
      · intro hd hne
        simp only [Function.update_noteq hne]
        exact r3.fl_other hd hne
    · exact ⟨fun _ => rfl, fun _ => hpne⟩
    · refine ⟨fun _ => ?_, fun _ => hpne⟩
      have := r2.fo_le
      have e : n2.mem off_free_offset = n2.free_offset := rfl
      rw [e, r6, r3.size_eq] at this
      show _ ≤ (n._size : Int)
      exact this
    · show upd (upd n2.mem head _) (h + hdr_next_offset) (-1) off_free_offset = _
      simp only [off_free_offset, hdr_next_offset, add_zero]
      rw [upd_other _ _ (by omega), upd_other _ _ (by omega)]
      exact r6
    · intro h; omega
    · intro h0; exact absurd h0 hpne
    · intro _
      have e : n2._base + h + 16 - n._base - 16 = h := by rw [eb]; omega
      rw [e]
      simp only [Function.update_same]
      exact ⟨by rw [← r8, hht], e2⟩

theorem Frame.refl (n : NShm) (L : Layout) (head : Int) : Frame n n L L head :=
  ⟨rfl, rfl, rfl, le_refl _, fun _ _ _ _ => rfl, fun _ h => h, fun _ _ => rfl⟩

/-- `alloc_class` in a state of the invariant: it returns; a block it returns
is a segment of the class that was free or has just been cut; it returns
`NULL` only when the list is empty and the batch does not fit. -/
theorem alloc_class_spec {n : NShm} {L : Layout} {live : List Int}
    (I : Inv n._base n._size n.mem L live) (hlk : n.lock_point = false) {head c : Int}
    (hc : IsClass head c) {k : Nat} (hk : 0 < k) :
    ∃ p n1 L1, alloc_class n head c k = some (p, n1) ∧
      Inv n1._base n1._size n1.mem L1 (if p = 0 then live else p :: live) ∧
      Frame n n1 L L1 head ∧
      (p ≠ 0 → (p - n._base - 16, c) ∈ L1.segs ∧ p ∉ live) ∧
      (p = 0 → L.fl head = [] ∧ (n._size : Int) < n.free_offset + k * (16 + c)) := by
  have hbase := I.base_pos
  cases hl : L.fl head with
  | nil =>
    obtain ⟨p, n1, L1, j, r1, r2, r3, r4, r5, r6, r7, r8, r9, r10⟩ :=
      alloc_class_refill I hlk hc hl hk
    refine ⟨p, n1, L1, r1, r2, r3, fun hp => ⟨(r10 hp).2, ?_⟩, fun hp => ⟨rfl, ?_⟩⟩
    · rw [if_neg hp] at r2
      exact (List.nodup_cons.mp r2.live_nodup).1
    · by_contra hcon
      exact (r6.mpr (by omega)) hp
  | cons h t =>
    obtain ⟨e1, e2, e3, e4⟩ := I.head_eq hc hl
    simp only [sizeof_nshm_base_t] at e3
    obtain ⟨n1, r1, r2, r3, r4⟩ := alloc_class_pop I hlk hc hl k
    have hpne : n._base + h + 16 ≠ 0 := by omega
    refine ⟨n._base + h + 16, n1, _, r1, by rw [if_neg hpne]; exact r2, r3,
      fun _ => ⟨?_, (List.nodup_cons.mp r2.live_nodup).1⟩, fun hp => absurd hp hpne⟩
    have e : n._base + h + 16 - n._base - 16 = h := by omega
    rw [e]; exact e2

/-- Pushing a segment that the caller holds back onto the free list of its
class. -/
theorem free_class_spec {n : NShm} {L : Layout} {live : List Int}
    (I : Inv n._base n._size n.mem L live) (hlk : n.lock_point = false) {head c h : Int}
    (hc : IsClass head c) (hs : (h, c) ∈ L.segs) (hfree : h ∉ L.fl head) :
    ∃ n1, free_class n head (n._base + h) = some n1 ∧
      Inv n1._base n1._size n1.mem ⟨L.segs, Function.update L.fl head (h :: L.fl head)⟩
        (live.erase (n._base + h + 16)) ∧
      Frame n n1 L ⟨L.segs, Function.update L.fl head (h :: L.fl head)⟩ head ∧
      n1.free_offset = n.free_offset := by
  have hh1 := hc.head_ge
  have hh2 := hc.head_lt
  have hpos := hc.size_pos
  have hbase := I.base_pos
  obtain ⟨g1, g2, g3, g4⟩ := I.seg_ok _ hs
  have hfle := I.fo_le
  simp only [sizeof_nshm_base_t] at g1 g2
  let nl : NShm := { n with lock_point := true }
  have s1 : store nl (n._base + h + hdr_next_offset) (nl.mem head) =
      some (nl.set (h + hdr_next_offset) (nl.mem head)) :=
    store_at _ (by show _ = n._base + _; omega) (by simp only [hdr_next_offset]; omega)
      (by show _ < (n._size : Int); simp only [hdr_next_offset]; omega)
  have ev : vos_assign n._base (n._base + h) = h := vos_assign_add (by omega)
  have I1 : Inv n._base n._size n.mem L (live.erase (n._base + h + 16)) :=
    I.live_sub (List.erase_sublist _ _)
  have hnl : n._base + h + 16 ∉ live.erase (n._base + h + 16) := by
    intro hm
    exact (List.Nodup.mem_erase_iff I.live_nodup).mp hm |>.1 rfl
  have Ip := I1.push hc hs hfree hnl
  refine ⟨_unlock_nshm ((nl.set (h + hdr_next_offset) (nl.mem head)).set head h), ?_, Ip, ?_, ?_⟩
  · unfold free_class
    rw [lock_eq hlk]
    simp only [Option.bind_eq_bind, Option.some_bind]
    rw [s1]
    simp only [Option.some_bind]
    have : vos_assign (nl.set (h + hdr_next_offset) (nl.mem head))._base (n._base + h) = h := ev
    rw [this]
  · refine ⟨rfl, rfl, by rw [hlk]; rfl, ?_, ?_, fun _ h => h, ?_⟩
    · show n.mem off_free_offset ≤ upd (upd n.mem (h + hdr_next_offset) _) head h off_free_offset
      simp only [off_free_offset, hdr_next_offset, add_zero]
      rw [upd_other _ _ (by omega), upd_other _ _ (by omega)]
    · intro a _ hhd hsg
      have := (hsg _ hs).1
      show upd (upd n.mem (h + hdr_next_offset) _) head h a = _
      simp only [hdr_next_offset, add_zero]
      rw [upd_other _ _ hhd, upd_other _ _ this]
    · intro hd hne
      simp only [Function.update_noteq hne]
  · show upd (upd n.mem (h + hdr_next_offset) _) head h off_free_offset = _
    simp only [off_free_offset, hdr_next_offset, add_zero]
    rw [upd_other _ _ (by omega), upd_other _ _ (by omega)]
    rfl

/-! ## Size classes of requests and of stored sizes -/

theorem class_of_small {head c : Int} (hc : IsClass head c) (h : c ≤ 1024) :
    off_small_msegs + 8 * get_smallseg_index c = head := by
  rcases hc with ⟨i, hi, rfl, rfl⟩ | ⟨i, hi, rfl, rfl⟩
  · rw [get_smallseg_index_eq (by omega) (by omega)]; omega
  · have := two_pow_pos i
    have h1 : (1 : Int) ≤ 2 ^ i := by omega
    omega

theorem class_of_big {head c : Int} (hc : IsClass head c) (h : 1024 < c) :
    ∃ i : Nat, get_bigseg_index c = some (i : Int) ∧ off_big_msegs + 8 * (i : Int) = head := by
  rcases hc with ⟨i, hi, rfl, rfl⟩ | ⟨i, hi, rfl, rfl⟩
  · omega
  · have := two_pow_pos i
    exact ⟨i, get_bigseg_index_eq hi (by omega) (le_refl _), rfl⟩

theorem big_class_exists {s : Int} (h1 : 1024 < s) :
    ∀ k : Nat, s ≤ 2048 * 2 ^ k → ∃ j : Nat, j ≤ k ∧ 1024 * 2 ^ j < s ∧ s ≤ 2048 * 2 ^ j := by
  intro k
  induction k with
  | zero => intro h; exact ⟨0, le_refl _, by simpa using h1, h⟩
  | succ k ih =>
    intro h
    by_cases hk : s ≤ 2048 * 2 ^ k
    · obtain ⟨j, hj, hj1, hj2⟩ := ih hk
      exact ⟨j, by omega, hj1, hj2⟩
    · refine ⟨k + 1, le_refl _, ?_, h⟩
      have e2 : (2 : Int) ^ (k + 1) = 2 ^ k * 2 := pow_succ 2 k
      rw [e2]; omega

/-- The class `nshm_memalloc` serves a request from. -/
theorem nshm_memalloc_class (n : NShm) {s : Int} (h1 : 0 < s) (h2 : s ≤ 1073741824) :
    ∃ head c k, IsClass head c ∧ 0 < k ∧ s ≤ c ∧ nshm_memalloc n s = alloc_class n head c k ∧
      (s ≤ 1024 → head = off_small_msegs + 8 * ((s - 1) / 16) ∧ c = 16 * ((s - 1) / 16 + 1) ∧
        k = 8) ∧
      (1024 < s → ∃ j : Nat, j < 20 ∧ head = off_big_msegs + 8 * (j : Int) ∧ c = 2048 * 2 ^ j ∧
        1024 * 2 ^ j < s ∧ k = 4) := by
  by_cases hs : s ≤ 1024
  · have ei := get_smallseg_index_eq h1 hs
    have es := get_smallseg_size_eq (i := (s - 1) / 16) (by omega) (by omega)
    refine ⟨off_small_msegs + 8 * ((s - 1) / 16), 16 * ((s - 1) / 16 + 1), 8, ?_, by norm_num,
      by omega, ?_, fun _ => ⟨rfl, rfl, rfl⟩, fun h => by omega⟩
    · left
      refine ⟨((s - 1) / 16).toNat, by omega, ?_, ?_⟩
      · rw [Int.toNat_of_nonneg (by omega)]
      · rw [Int.toNat_of_nonneg (by omega)]
    · unfold nshm_memalloc _alloc_small_shmem
      rw [if_neg (by omega), if_pos (by unfold _SEGSIZE_THRESHOLD; exact hs)]
      simp only [ei, es, _SMALL_MSEG_NMEMB]
  · have hs' : 1024 < s := by omega
    obtain ⟨j, hj, hj1, hj2⟩ := big_class_exists hs' 19 (by norm_num; omega)
    have hj' : j < 20 := by omega
    have ei := get_bigseg_index_eq hj' hj1 hj2
    have es := get_bigseg_size_eq hj'
    refine ⟨off_big_msegs + 8 * (j : Int), 2048 * 2 ^ j, 4, ?_, by norm_num, hj2, ?_,
      fun h => by omega, fun _ => ⟨j, hj', rfl, rfl, hj1, rfl⟩⟩
    · right; exact ⟨j, hj', rfl, rfl⟩
    · unfold nshm_memalloc _alloc_big_shmem
      rw [if_neg (by omega), if_neg (by unfold _SEGSIZE_THRESHOLD; omega),
        if_pos (by unfold _MAX_ALLOCSIZE; omega)]
      simp only [ei, Option.bind_eq_bind, Option.some_bind, es, _BIG_MSEG_NMEMB]

theorem nshm_memalloc_reject (n : NShm) {s : Int} (h : s ≤ 0 ∨ 1073741824 < s) :
    nshm_memalloc n s = some (0, n) := by
  unfold nshm_memalloc
  rcases h with h | h
  · rw [if_pos h]
  · rw [if_neg (by omega), if_neg (by unfold _SEGSIZE_THRESHOLD; omega),
      if_neg (by unfold _MAX_ALLOCSIZE; omega)]

/-- `nshm_memalloc` in a state of the invariant. -/
theorem nshm_memalloc_spec {n : NShm} {L : Layout} {live : List Int}
    (I : Inv n._base n._size n.mem L live) (hlk : n.lock_point = false) (s : Int) :
    ∃ p n1 L1 head, nshm_memalloc n s = some (p, n1) ∧
      Inv n1._base n1._size n1.mem L1 (if p = 0 then live else p :: live) ∧
      Frame n n1 L L1 head ∧ 24 ≤ head ∧ head < 696 ∧
      (p ≠ 0 → ∃ c, IsClass head c ∧ s ≤ c ∧ (p - n._base - 16, c) ∈ L1.segs ∧ p ∉ live) := by
  by_cases hs : s ≤ 0 ∨ 1073741824 < s
  · refine ⟨0, n, L, 24, nshm_memalloc_reject n hs, by rw [if_pos rfl]; exact I,
      Frame.refl _ _ _, le_refl _, by norm_num, fun h => absurd rfl h⟩
  · obtain ⟨head, c, k, hc, hk, hsc, e, _, _⟩ :=
      nshm_memalloc_class n (s := s) (by omega) (by omega)
    obtain ⟨p, n1, L1, r1, r2, r3, r4, r5⟩ := alloc_class_spec I hlk hc hk
    exact ⟨p, n1, L1, head, by rw [e]; exact r1, r2, r3, hc.head_ge, hc.head_lt,
      fun hp => ⟨c, hc, hsc, (r4 hp).1, (r4 hp).2⟩⟩

/-- `nshm_memfree` of a block the caller holds: the segment goes back to the
head of the free list of its class. -/
theorem nshm_memfree_spec {n : NShm} {L : Layout} {live : List Int}
    (I : Inv n._base n._size n.mem L live) (hlk : n.lock_point = false) {p : Int}
    (hp : p ∈ live) :
    ∃ n1 head c, IsClass head c ∧ (p - n._base - 16, c) ∈ L.segs ∧
      nshm_memfree n p = some n1 ∧
      Inv n1._base n1._size n1.mem
        ⟨L.segs, Function.update L.fl head ((p - n._base - 16) :: L.fl head)⟩ (live.erase p) ∧
      Frame n n1 L ⟨L.segs, Function.update L.fl head ((p - n._base - 16) :: L.fl head)⟩ head ∧
      n1.free_offset = n.free_offset := by
  obtain ⟨head, c, hc, hs, hfree⟩ := I.live_ok p hp
  obtain ⟨g1, g2, g3, g4⟩ := I.seg_ok _ hs
  have hfle := I.fo_le
  have hbase := I.base_pos
  have hpos := hc.size_pos
  have hle := hc.size_le
  simp only [sizeof_nshm_base_t, hdr_seg_siz] at g1 g2 g3
  set h := p - n._base - 16 with hh
  have ep : p = n._base + h + 16 := by omega
  obtain ⟨n1, r1, r2, r3, r4⟩ := free_class_spec I hlk hc hs hfree
  rw [← ep] at r2
  have l1 : load n (p - sizeof_shmem_hdr + hdr_seg_siz) = some c := by
    rw [← g3]
    exact load_at (by simp only [sizeof_shmem_hdr, hdr_seg_siz]; omega) (by omega) (by omega)
  have ehdr : p - sizeof_shmem_hdr = n._base + h := by simp only [sizeof_shmem_hdr]; omega
  refine ⟨n1, head, c, hc, hs, ?_, r2, r3, r4⟩
  unfold nshm_memfree
  rw [if_neg (by omega)]
  simp only [Option.bind_eq_bind, l1, Option.some_bind]
  rw [if_neg (by omega)]
  by_cases hsm : c ≤ 1024
  · rw [if_pos (by unfold _SEGSIZE_THRESHOLD; exact hsm)]
    unfold _free_small_shmem
    simp only [Option.bind_eq_bind, l1, Option.some_bind]
    rw [class_of_small hc hsm, ehdr]
    exact r1
  · rw [if_neg (by unfold _SEGSIZE_THRESHOLD; exact hsm),
      if_pos (by unfold _MAX_ALLOCSIZE; omega)]
    obtain ⟨i, hi1, hi2⟩ := class_of_big hc (by omega)
    unfold _free_big_shmem
    simp only [Option.bind_eq_bind, l1, Option.some_bind, hi1]
    rw [hi2, ehdr]
    exact r1

/-! ## Writes into blocks and buckets -/

/-- Writing into the block of a segment keeps the invariant. -/
theorem Inv.payload_write {base : Int} {size : Nat} {m : Int → Int} {L : Layout}
    {live : List Int} (I : Inv base size m L live) {h c a : Int} (v : Int)
    (hs : (h, c) ∈ L.segs) (h1 : h + 16 ≤ a) (h2 : a < h + 16 + c) :
    Inv base size (upd m a v) L live := by
  have g := (I.seg_ok _ hs).1
  simp only [sizeof_nshm_base_t] at g
  refine I.frame v (by simp only [off_free_offset]; omega) (by omega) ?_
  intro s hs1
  obtain ⟨hd, hcs⟩ := (I.seg_ok s hs1).2.2.2
  have := hcs.size_pos
  rcases I.seg_disj _ hs _ hs1 with e | e | e
  · rw [← e]; simp only; omega
  · simp only at e; omega
  · simp only at e; omega

/-- Writing a cell of the bucket table keeps the invariant. -/
theorem Inv.bucket_write {base : Int} {size : Nat} {m : Int → Int} {L : Layout}
    {live : List Int} (I : Inv base size m L live) {a : Int} (v : Int)
    (h1 : 696 ≤ a) (h2 : a < 8904) : Inv base size (upd m a v) L live := by
  refine I.frame v (by simp only [off_free_offset]; omega) (by omega) ?_
  intro s hs1
  have g := (I.seg_ok s hs1).1
  simp only [sizeof_nshm_base_t] at g
  omega

theorem write_bytes_other :
    ∀ (key : List Nat) (m : Int → Int) (a x : Int), x < a ∨ a + key.length ≤ x →
      write_bytes key m a x = m x := by
  intro key
  induction key with
  | nil => intro m a x _; rfl
  | cons b bs ih =>
    intro m a x hx
    simp only [write_bytes, List.length_cons, Nat.cast_add, Nat.cast_one] at hx ⊢
    rw [ih _ _ _ (by omega), upd_other _ _ (by omega)]

theorem write_bytes_get :
    ∀ (key : List Nat) (m : Int → Int) (a : Int) (i : Nat) (hi : i < key.length),
      write_bytes key m a (a + i) = (key[i] : Int) := by
  intro key
  induction key with
  | nil => intro m a i hi; simp at hi
  | cons b bs ih =>
    intro m a i hi
    simp only [write_bytes]
    cases i with
    | zero =>
      simp only [Nat.cast_zero, add_zero, List.getElem_cons_zero]
      rw [write_bytes_other _ _ _ _ (by omega), upd_same]
    | succ i =>
      simp only [List.length_cons, Nat.add_lt_add_iff_right] at hi
      have := ih (upd m a b) (a + 1) i hi
      simp only [List.getElem_cons_succ]
      rw [← this]
      congr 1
      push_cast; ring

theorem Inv.write_bytes {base : Int} {size : Nat} {L : Layout} {live : List Int} {h c : Int}
    (hs : (h, c) ∈ L.segs) :
    ∀ (key : List Nat) (m : Int → Int) (a : Int), Inv base size m L live → h + 16 ≤ a →
      a + key.length ≤ h + 16 + c → Inv base size (Nshm.write_bytes key m a) L live := by
  intro key
  induction key with
  | nil => intro m a I _ _; exact I
  | cons b bs ih =>
    intro m a I h1 h2
    simp only [List.length_cons, Nat.cast_add, Nat.cast_one] at h2
    exact ih _ _ (I.payload_write _ hs h1 (by omega)) (by omega) (by omega)

theorem store_bytes_eq :
    ∀ (key : List Nat) (n : NShm) (a : Int), 0 ≤ a → a + key.length ≤ (n._size : Int) →
      ∃ n1, store_bytes key n (n._base + a) = some n1 ∧ n1._base = n._base ∧
        n1._size = n._size ∧ n1.lock_point = n.lock_point ∧
        n1.mem = write_bytes key n.mem a := by
  intro key
  induction key with
  | nil => intro n a _ _; exact ⟨n, rfl, rfl, rfl, rfl, rfl⟩
  | cons b bs ih =>
    intro n a h1 h2
    simp only [List.length_cons, Nat.cast_add, Nat.cast_one] at h2
    obtain ⟨n1, r1, r2, r3, r4, r5⟩ := ih (n.set a b) (a + 1) (by omega)
      (by show _ ≤ (n._size : Int); omega)
    refine ⟨n1, ?_, r2, r3, r4, r5⟩
    simp only [store_bytes, Option.bind_eq_bind]
    rw [store_eq _ h1 (by omega)]
    simp only [Option.some_bind]
    have e : n._base + a + 1 = (n.set a b)._base + (a + 1) := by
      show _ = n._base + (a + 1); omega
    rw [e]; exact r1

theorem load_bytes_eq :
    ∀ (key : List Nat) (n : NShm) (a : Int), 0 ≤ a → a + key.length ≤ (n._size : Int) →
      (∀ (i : Nat) (hi : i < key.length), n.mem (a + i) = (key[i] : Int)) →
      load_bytes n key.length (n._base + a) = some (key.map (fun (b : Nat) => (b : Int))) := by
  intro key
  induction key with
  | nil => intro n a _ _ _; rfl
  | cons b bs ih =>
    intro n a h1 h2 h3
    simp only [List.length_cons, Nat.cast_add, Nat.cast_one] at h2
    have h0 := h3 0 (by simp)
    simp only [Nat.cast_zero, add_zero, List.getElem_cons_zero] at h0
    have ih1 := ih n (a + 1) (by omega) (by omega) (by
      intro i hi
      have := h3 (i + 1) (by simp only [List.length_cons]; omega)
      simp only [List.getElem_cons_succ] at this
      rw [← this]; congr 1; push_cast; ring)
    simp only [List.length_cons, load_bytes, Option.bind_eq_bind, List.map_cons]
    rw [load_eq h1 (by omega)]
    simp only [Option.some_bind]
    have e : n._base + a + 1 = n._base + (a + 1) := by omega
    rw [e, ih1, h0]
    rfl

/-- The hash of a good key is a bucket index. -/
theorem GoodKey.lt {key : List Nat} (_ : GoodKey key) : _get_key_hash key < 1024 := by
  unfold _get_key_hash _DATA_HASH_SIZ
  exact Int.tmod_lt_of_pos _ (by norm_num)

/-! ## `shmalloc` -/

theorem shmalloc_spec {n : NShm} {L : Layout} {live : List Int}
    (I : Inv n._base n._size n.mem L live) (hlk : n.lock_point = false) {s : Int}
    (hs : s ≤ 2147483640) :
    ∃ p n1, shmalloc n s = some (p, n1) ∧ Inv n1._base n1._size n1.mem L live ∧
      n1.lock_point = false ∧ n1._base = n._base ∧ n1._size = n._size ∧
      n.free_offset ≤ n1.free_offset ∧
      (p = 0 → n1.mem = n.mem) ∧
      (p ≠ 0 → p = n._base + n.free_offset ∧ n1.free_offset = n.free_offset + round8 s) ∧
      (p = 0 ↔ s ≤ 0 ∨ (n._size : Int) < n.free_offset + round8 s) ∧
      (∀ a, a ≠ off_free_offset → n1.mem a = n.mem a) := by
  have hge : sizeof_nshm_base_t ≤ n.free_offset := I.fo_ge
  have hfle : n.free_offset ≤ (n._size : Int) := I.fo_le
  have hbase := I.base_pos
  simp only [sizeof_nshm_base_t] at hge
  by_cases h0 : s ≤ 0
  · refine ⟨0, n, by unfold shmalloc; rw [if_pos h0], I, hlk, rfl, rfl, le_refl _,
      fun _ => rfl, fun h => absurd rfl h, ⟨fun _ => Or.inl h0, fun _ => rfl⟩,
      fun _ _ => rfl⟩
  · let nl : NShm := { n with lock_point := true }
    have esh := _shmalloc_eq (n := nl) (s := s) (by omega) hs
      (by show 0 ≤ n.free_offset; omega) hfle I.size_lt
    have hr := round8_ge s
    have hstart : shmalloc n s = some ((_shmalloc nl s).1, _unlock_nshm (_shmalloc nl s).2) := by
      unfold shmalloc
      rw [if_neg h0, lock_eq hlk]
      rfl
    have efo : nl.free_offset = n.free_offset := rfl
    have esz : nl._size = n._size := rfl
    rw [efo, esz] at esh
    by_cases hfit : n.free_offset + round8 s > (n._size : Int)
    · rw [if_pos hfit] at esh
      refine ⟨0, _unlock_nshm nl, by rw [hstart, esh], I, rfl, rfl, rfl, le_refl _,
        fun _ => rfl, fun h => absurd rfl h, ⟨fun _ => Or.inr hfit, fun _ => rfl⟩,
        fun _ _ => rfl⟩
    · rw [if_neg hfit] at esh
      have hptr : vos_ptr nl._base n.free_offset = n._base + n.free_offset :=
        vos_ptr_pos (by omega)
      rw [hptr] at esh
      have hne : n._base + n.free_offset ≠ 0 := by omega
      have enew : (_unlock_nshm (nl.set off_free_offset (n.free_offset + round8 s))).free_offset
          = n.free_offset + round8 s := by
        simp only [NShm.free_offset, _unlock_nshm, set_mem, upd_same]
      refine ⟨n._base + n.free_offset,
        _unlock_nshm (nl.set off_free_offset (n.free_offset + round8 s)),
        by rw [hstart, esh], ?_, rfl, rfl, rfl, ?_, fun h => absurd h hne,
        fun _ => ⟨rfl, enew⟩, ?_, ?_⟩
      · exact I.bump (show n.free_offset ≤ _ by omega) (by omega)
      · rw [enew]; omega
      · constructor
        · intro h; exact absurd h hne
        · intro h; rcases h with h | h
          · exact absurd h h0
          · exact absurd h (by omega)
      · intro a ha
        show upd n.mem off_free_offset _ a = n.mem a
        exact upd_other _ _ ha

/-! ## `nshm_set` -/

/-- A cell from the bucket table on that is no cell of a segment header is
kept by an allocator call. -/
theorem Frame.keep {n n1 : NShm} {L L1 : Layout} {head : Int} (F : Frame n n1 L L1 head)
    (hh : head < 696) {a : Int} (ha : 696 ≤ a) (hs : ∀ s ∈ L1.segs, a ≠ s.1 ∧ a ≠ s.1 + 8) :
    n1.mem a = n.mem a :=
  F.cells a (by simp only [off_free_offset]; omega) (by omega) hs

/-- `nshm_set` of a key that `nshm_get` does not find, in a state of the
invariant: the call returns -1 after an allocation failed, or 1 with the new
entry linked. -/
theorem nshm_set_spec {n : NShm} {L : Layout} {live : List Int}
    (I : Inv n._base n._size n.mem L live) (hlk : n.lock_point = false) {key : List Nat}
    (hk : GoodKey key) (hlen : 0 < key.length) (hg : nshm_get n key = some 0) (val : Int) :
    ∃ r n1 L1, nshm_set n key val = some (r, n1) ∧ n1.lock_point = false ∧
      n1._base = n._base ∧ n1._size = n._size ∧ n.free_offset ≤ n1.free_offset ∧
      (∀ s ∈ L.segs, s ∈ L1.segs) ∧
      ((r = -1 ∧ Inv n1._base n1._size n1.mem L1 live ∧
          ∀ a, 696 ≤ a → (∀ s ∈ L1.segs, a ≠ s.1 ∧ a ≠ s.1 + 8) → n1.mem a = n.mem a) ∨
        (r = 1 ∧ ∃ tk kv, Inv n1._base n1._size n1.mem L1 (kv :: tk :: live) ∧
          Inserted n n1 L1 key val (tk - n._base) (kv - n._base))) := by
  have hbase := I.base_pos
  have hlen' : ¬ ((key.length : Int) ≤ 0) := by omega
  have hh0 : 0 ≤ _get_key_hash key := hk
  have hh1 := hk.lt
  -- the entry node
  obtain ⟨tk, n1, L1, hd1, a1, I1, F1, hd1a, hd1b, P1⟩ :=
    nshm_memalloc_spec I hlk sizeof_tokarr_t
  have lk1 : n1.lock_point = false := by rw [F1.lock_eq]; exact hlk
  have hstart : nshm_set n key val =
      (if tk = 0 then some (-1, n1)
       else (nshm_memalloc n1 (key.length : Int)).bind (fun x =>
        if x.1 = 0 then (nshm_memfree x.2 tk).bind (fun n3 => some (-1, n3))
        else (store_bytes key x.2 x.1).bind (fun n3 =>
          (store n3 (tk + tok_key_offset) (vos_assign n3._base x.1)).bind (fun n4 =>
          (store n4 (tk + tok_klen) (key.length : Int)).bind (fun n5 =>
          (store n5 (tk + tok_val_offset) (vos_assign n5._base val)).bind (fun n6 =>
          (_lock_nshm n6).bind (fun n7 =>
          (load n7 (n7._base + off_data + 8 * _get_key_hash key)).bind (fun head =>
          (store n7 (tk + tok_next_offset) head).bind (fun n8 =>
          (store n8 (n8._base + off_data + 8 * _get_key_hash key)
            (vos_assign n8._base tk)).bind (fun n9 =>
          some (1, _unlock_nshm n9))))))))))) := by
    simp only [nshm_set, if_neg hlen', hg, Option.bind_eq_bind, Option.some_bind, ne_eq,
      not_true_eq_false, if_false, a1]
  by_cases htk : tk = 0
  · -- no node: error
    subst htk
    rw [if_pos rfl] at I1
    refine ⟨-1, n1, L1, by rw [hstart, if_pos rfl], lk1, F1.base_eq, F1.size_eq, F1.fo_le,
      F1.segs_sub, Or.inl ⟨rfl, I1, fun a ha hs => F1.keep hd1b ha hs⟩⟩
  rw [if_neg htk] at I1 hstart
  obtain ⟨c1, hc1, hsz1, hseg1, hnl1⟩ := P1 htk
  -- the key buffer
  obtain ⟨kv, n2, L2, hd2, a2, I2, F2, hd2a, hd2b, P2⟩ :=
    nshm_memalloc_spec I1 lk1 (key.length : Int)
  have lk2 : n2.lock_point = false := by rw [F2.lock_eq]; exact lk1
  have eb2 : n2._base = n._base := by rw [F2.base_eq, F1.base_eq]
  have es2 : n2._size = n._size := by rw [F2.size_eq, F1.size_eq]
  rw [a2] at hstart
  simp only [Option.some_bind] at hstart
  by_cases hkv : kv = 0
  · -- no key buffer: the node is freed, error
    subst hkv
    rw [if_pos rfl] at I2 hstart
    obtain ⟨n3, hd3, c3, hc3, hs3, a3, I3, F3, e3⟩ :=
      nshm_memfree_spec I2 lk2 (p := tk) (by simp)
    rw [a3] at hstart
    simp only [Option.some_bind] at hstart
    have el : (tk :: live).erase tk = live := by simp
    rw [el] at I3
    refine ⟨-1, n3, _, hstart, by rw [F3.lock_eq]; exact lk2, by rw [F3.base_eq]; exact eb2,
      by rw [F3.size_eq]; exact es2, ?_, ?_, Or.inl ⟨rfl, I3, ?_⟩⟩
    · have := F1.fo_le; have := F2.fo_le; have := F3.fo_le; omega
    · intro s hs; exact F3.segs_sub _ (F2.segs_sub _ (F1.segs_sub _ hs))
    · intro a ha hs
      rw [F3.keep hc3.head_lt ha hs, F2.keep hd2b ha hs,
        F1.keep hd1b ha (fun s hs1 => hs s (F2.segs_sub s hs1))]
  rw [if_neg hkv] at I2 hstart
  obtain ⟨c2, hc2, hsz2, hseg2, hnl2⟩ := P2 hkv
  have hseg1' : (tk - n._base - 16, c1) ∈ L2.segs := F2.segs_sub _ hseg1
  rw [F1.base_eq] at hseg2
  -- where the two blocks are
  obtain ⟨g1, g2, g3, g4⟩ := I2.seg_ok _ hseg1'
  obtain ⟨k1, k2, k3, k4⟩ := I2.seg_ok _ hseg2
  have hfle := I2.fo_le
  rw [es2] at hfle
  simp only [sizeof_nshm_base_t, sizeof_tokarr_t] at g1 g2 k1 k2 hsz1
  set t := tk - n._base with ht
  set k := kv - n._base with hkdef
  have etk : tk = n._base + t := by omega
  have ekv : kv = n._base + k := by omega
  have hneq : kv ≠ tk := fun e => hnl2 (by rw [e]; simp)
  have hapart : t + c1 ≤ k - 16 ∨ k + c2 ≤ t - 16 := by
    rcases I2.seg_disj _ hseg1' _ hseg2 with e | e | e
    · exfalso; apply hneq
      have := (Prod.mk.inj e).1
      omega
    · left; simp only at e; omega
    · right; simp only at e; omega
  -- the byte copy
  obtain ⟨n3, b1, b2, b3, b4, b5⟩ := store_bytes_eq key n2 k (by omega) (by rw [es2]; omega)
  rw [eb2, ← ekv] at b1
  have b2' : n3._base = n._base := by rw [b2, eb2]
  have b3' : n3._size = n._size := by rw [b3, es2]
  have I3 : Inv n3._base n3._size n3.mem L2 (kv :: tk :: live) := by
    rw [b2, b3, b5]
    exact Inv.write_bytes hseg2 key _ _ I2 (by omega) (by omega)
  -- the node fields
  let n4 : NShm := n3.set (t + tok_key_offset) k
  let n5 : NShm := n4.set (t + tok_klen) (key.length : Int)
  let n6 : NShm := n5.set (t + tok_val_offset) (vos_assign n._base val)
  let n7 : NShm := { n6 with lock_point := true }
  let b : Int := off_data + 8 * _get_key_hash key
  let n8 : NShm := n7.set (t + tok_next_offset) (n7.mem b)
  let n9 : NShm := n8.set b t
  have s4 : store n3 (tk + tok_key_offset) (vos_assign n3._base kv) = some n4 := by
    have ev : vos_assign n3._base kv = k := by
      rw [b2', ekv]; exact vos_assign_add (by omega)
    rw [ev]
    exact store_at _ (by rw [b2', etk]; ring) (by simp only [tok_key_offset]; omega)
      (by rw [b3']; simp only [tok_key_offset]; omega)
  have s5 : store n4 (tk + tok_klen) (key.length : Int) = some n5 :=
    store_at _ (by show _ = n3._base + _; rw [b2', etk]; ring) (by simp only [tok_klen]; omega)
      (by show _ < (n3._size : Int); rw [b3']; simp only [tok_klen]; omega)
  have s6 : store n5 (tk + tok_val_offset) (vos_assign n5._base val) = some n6 := by
    have ev : vos_assign n5._base val = vos_assign n._base val := by
      show vos_assign n3._base val = _; rw [b2']
    rw [ev]
    exact store_at _ (by show _ = n3._base + _; rw [b2', etk]; ring)
      (by simp only [tok_val_offset]; omega)
      (by show _ < (n3._size : Int); rw [b3']; simp only [tok_val_offset]; omega)
  have lk6 : n6.lock_point = false := by show n3.lock_point = false; rw [b4]; exact lk2
  have s7 : _lock_nshm n6 = some n7 := lock_eq lk6
  have l7 : load n7 (n7._base + off_data + 8 * _get_key_hash key) = some (n7.mem b) :=
    load_at (by show n3._base + off_data + 8 * _get_key_hash key = n3._base + b
                simp only [b, off_data]; ring)
      (by simp only [b, off_data]; omega)
      (by show _ < (n3._size : Int); rw [b3']; simp only [b, off_data]; omega)
  have s8 : store n7 (tk + tok_next_offset) (n7.mem b) = some n8 :=
    store_at _ (by show _ = n3._base + _; rw [b2', etk]; ring)
      (by simp only [tok_next_offset]; omega)
      (by show _ < (n3._size : Int); rw [b3']; simp only [tok_next_offset]; omega)
  have s9 : store n8 (n8._base + off_data + 8 * _get_key_hash key) (vos_assign n8._base tk)
      = some n9 := by
    have ev : vos_assign n8._base tk = t := by
      show vos_assign n3._base tk = t
      rw [b2', etk]; exact vos_assign_add (by omega)
    rw [ev]
    exact store_at _ (by show n3._base + off_data + 8 * _get_key_hash key = n3._base + b
                         simp only [b, off_data]; ring)
      (by simp only [b, off_data]; omega)
      (by show _ < (n3._size : Int); rw [b3']; simp only [b, off_data]; omega)
  have hfin : nshm_set n key val = some (1, _unlock_nshm n9) := by
    rw [hstart, b1]
    simp only [Option.some_bind, s4, s5, s6, s7, l7, s8, s9]
  -- the invariant after the writes
  have I4 : Inv n3._base n3._size n4.mem L2 (kv :: tk :: live) :=
    I3.payload_write _ hseg1' (by simp only [tok_key_offset]; omega)
      (by simp only [tok_key_offset]; omega)
  have I5 : Inv n3._base n3._size n5.mem L2 (kv :: tk :: live) :=
    I4.payload_write _ hseg1' (by simp only [tok_klen]; omega)
      (by simp only [tok_klen]; omega)
  have I6 : Inv n3._base n3._size n6.mem L2 (kv :: tk :: live) :=
    I5.payload_write _ hseg1' (by simp only [tok_val_offset]; omega)
      (by simp only [tok_val_offset]; omega)
  have I8 : Inv n3._base n3._size n8.mem L2 (kv :: tk :: live) :=
    I6.payload_write _ hseg1' (by simp only [tok_next_offset]; omega)
      (by simp only [tok_next_offset]; omega)
  have I9 : Inv n3._base n3._size n9.mem L2 (kv :: tk :: live) :=
    I8.bucket_write _ (by simp only [b, off_data]; omega) (by simp only [b, off_data]; omega)
  -- the cells of the final state
  have hb : 696 ≤ b ∧ b < 8904 := by simp only [b, off_data]; omega
  have em9 : n9.mem = upd (upd (upd (upd (upd (write_bytes key n2.mem k) (t + tok_key_offset) k)
      (t + tok_klen) (key.length : Int)) (t + tok_val_offset) (vos_assign n._base val))
      (t + tok_next_offset) (n7.mem b)) b t := by
    show upd (upd (upd (upd (upd n3.mem _ _) _ _) _ _) _ _) _ _ = _
    rw [b5]
  have e7b : n7.mem b = n.mem b := by
    show upd (upd (upd n3.mem _ _) _ _) _ _ b = _
    simp only [tok_key_offset, tok_klen, tok_val_offset]
    rw [upd_other _ _ (by omega), upd_other _ _ (by omega), upd_other _ _ (by omega), b5,
      write_bytes_other _ _ _ _ (by omega)]
    have hsb : ∀ s ∈ L2.segs, b ≠ s.1 ∧ b ≠ s.1 + 8 := by
      intro s hs
      have := (I2.seg_ok s hs).1
      simp only [sizeof_nshm_base_t] at this
      omega
    rw [F2.keep hd2b hb.1 hsb, F1.keep hd1b hb.1 (fun s hs => hsb s (F2.segs_sub s hs))]
  refine ⟨1, _unlock_nshm n9, L2, hfin, rfl, b2', b3', ?_, ?_, Or.inr ⟨rfl, tk, kv, ?_, ?_⟩⟩
  · have h1 := F1.fo_le
    have h2 := F2.fo_le
    have h3 : n9.free_offset = n2.free_offset := by
      show n9.mem off_free_offset = n2.mem off_free_offset
      rw [em9]
      simp only [tok_key_offset, tok_klen, tok_val_offset, tok_next_offset, off_free_offset]
      rw [upd_other _ _ (by omega), upd_other _ _ (by omega), upd_other _ _ (by omega),
        upd_other _ _ (by omega), upd_other _ _ (by omega),
        write_bytes_other _ _ _ _ (by omega)]
    show n.free_offset ≤ n9.free_offset
    omega
  · intro s hs; exact F2.segs_sub _ (F1.segs_sub _ hs)
  · show Inv n3._base n3._size n9.mem L2 (kv :: tk :: live)
    exact I9
  · have hm : (_unlock_nshm n9).mem = n9.mem := rfl
    refine ⟨by simp only [sizeof_nshm_base_t]; omega, by simp only [sizeof_tokarr_t]; omega,
      by simp only [sizeof_nshm_base_t]; omega, by omega,
      by simp only [sizeof_tokarr_t]; omega, ?_, ?_, ?_, ?_, ?_, ?_, ?_,
      ⟨c1, hseg1', by simp only [sizeof_tokarr_t]; exact hsz1⟩, ⟨c2, hseg2, hsz2⟩⟩
    · rw [hm, em9]; exact upd_same _ _ _
    · rw [hm, em9]
      simp only [tok_key_offset, tok_klen, tok_val_offset, tok_next_offset]
      rw [upd_other _ _ (by omega), upd_other _ _ (by omega), upd_other _ _ (by omega),
        upd_other _ _ (by omega), upd_same]
    · rw [hm, em9]
      simp only [tok_key_offset, tok_klen, tok_val_offset, tok_next_offset]
      rw [upd_other _ _ (by omega), upd_other _ _ (by omega), upd_other _ _ (by omega),
        upd_same]
    · rw [hm, em9]
      simp only [tok_key_offset, tok_klen, tok_val_offset, tok_next_offset]
      rw [upd_other _ _ (by omega), upd_other _ _ (by omega), upd_same]
    · rw [hm, em9]
      simp only [tok_key_offset, tok_klen, tok_val_offset, tok_next_offset]
      rw [upd_other _ _ (by omega), upd_same]
      exact e7b
    · intro i hi
      rw [hm, em9]
      simp only [tok_key_offset, tok_klen, tok_val_offset, tok_next_offset]
      have hi' : (i : Int) < key.length := by exact_mod_cast hi
      rw [upd_other _ _ (by omega), upd_other _ _ (by omega), upd_other _ _ (by omega),
        upd_other _ _ (by omega), upd_other _ _ (by omega)]
      exact write_bytes_get key _ _ i hi
    · intro a ha hab hsg hnt hnk
      rw [hm, em9]
      simp only [tok_key_offset, tok_klen, tok_val_offset, tok_next_offset, sizeof_tokarr_t]
        at hnt ⊢
      rw [upd_other _ _ hab, upd_other _ _ (by omega), upd_other _ _ (by omega),
        upd_other _ _ (by omega), upd_other _ _ (by omega),
        write_bytes_other _ _ _ _ (by omega)]
      rw [F2.keep hd2b ha hsg, F1.keep hd1b ha (fun s hs => hsg s (F2.segs_sub s hs))]

/-! ## Reachable states satisfy the invariant -/

/-- The invariant depends on the set of held blocks only. -/
theorem Inv.live_perm {base : Int} {size : Nat} {m : Int → Int} {L : Layout}
    {live live1 : List Int} (I : Inv base size m L live) (hs : ∀ p ∈ live1, p ∈ live)
    (hn : live1.Nodup) : Inv base size m L live1 :=
  ⟨I.base_pos, I.size_lt, I.fo_ge, I.fo_le, I.seg_disj, I.seg_ok, I.fl_ok,
    fun p hp => I.live_ok p (hs p hp), hn⟩

theorem init_mem_head {head c : Int} (hc : IsClass head c) : init_mem head = -1 := by
  have h1 := hc.head_ge
  have h2 := hc.head_lt
  have h8 : (head - 24) % 8 = 0 := by
    rcases hc with ⟨i, _, hh, _⟩ | ⟨i, _, hh, _⟩ <;>
      simp only [off_small_msegs, off_big_msegs] at hh <;> omega
  unfold init_mem
  simp only [off_small_msegs, off_big_msegs, off_data, off_version, off_free_offset]
  by_cases hsmall : head < 536
  · repeat rw [if_neg (by omega)]
    rw [if_pos (by omega)]
  · repeat rw [if_neg (by omega)]
    rw [if_pos (by omega)]

theorem init_mem_cursor : init_mem off_free_offset = sizeof_nshm_base_t := by
  unfold init_mem
  simp only [off_free_offset, off_version]
  norm_num

/-- The state `nshm_create` returns satisfies the invariant, with nothing
carved and nothing held. -/
theorem nshm_create_inv {size : Nat} {base : Int} {n : NShm} (hm : MapOk size base)
    (h : nshm_create size base = some n) :
    n.lock_point = false ∧ n._size = size ∧ n._base = base ∧ n.mem = init_mem ∧
      Inv n._base n._size n.mem ⟨[], fun _ => []⟩ [] := by
  unfold nshm_create at h
  by_cases hs : (size : Int) ≤ sizeof_nshm_base_t
  · rw [if_pos hs] at h; exact absurd h (by simp)
  · rw [if_neg hs] at h
    have e := Option.some.inj h
    subst e
    refine ⟨rfl, rfl, rfl, rfl, hm.1, hm.2, ?_, ?_, ?_, ?_, ?_, ?_, List.nodup_nil⟩
    · show _ ≤ init_mem off_free_offset; rw [init_mem_cursor]
    · show init_mem off_free_offset ≤ (size : Int); rw [init_mem_cursor]; omega
    · intro a ha; simp at ha
    · intro a ha; simp at ha
    · intro head c hc
      refine ⟨?_, List.nodup_nil, fun h hh => by simp at hh⟩
      show FreeList init_mem (init_mem head) []
      rw [init_mem_head hc]; rfl
    · intro p hp; simp at hp

/-- The ways a call of `nshm_set` that returns can go. -/
theorem nshm_set_cases {n : NShm} {key : List Nat} {val r : Int} {n1 : NShm}
    (h : nshm_set n key val = some (r, n1)) :
    (key.length = 0 ∧ r = -1 ∧ n1 = n) ∨
    (0 < key.length ∧ ∃ found, found ≠ 0 ∧ nshm_get n key = some found ∧ r = 0 ∧ n1 = n) ∨
    (0 < key.length ∧ nshm_get n key = some 0) := by
  unfold nshm_set at h
  by_cases hlen : (key.length : Int) ≤ 0
  · rw [if_pos hlen] at h
    have e := Prod.mk.inj (Option.some.inj h)
    exact Or.inl ⟨by omega, e.1.symm, e.2.symm⟩
  · rw [if_neg hlen] at h
    have hpos : 0 < key.length := by omega
    cases hg : nshm_get n key with
    | none => rw [hg] at h; simp at h
    | some found =>
      rw [hg] at h
      simp only [Option.bind_eq_bind, Option.some_bind] at h
      by_cases hf : found = 0
      · subst hf; exact Or.inr (Or.inr ⟨hpos, rfl⟩)
      · rw [if_pos hf] at h
        have e := Prod.mk.inj (Option.some.inj h)
        exact Or.inr (Or.inl ⟨hpos, found, hf, rfl, e.1.symm, e.2.symm⟩)

/-- Every reachable state has its lock released and satisfies the allocator
invariant for some layout, the blocks the caller holds and the blocks the
index owns. -/
theorem Reach.inv {n : NShm} {live : List Int} {keys : List (List Nat)} (h : Reach n live keys) :
    n.lock_point = false ∧
      ∃ L owned, Inv n._base n._size n.mem L (live ++ owned) := by
  induction h with
  | create size base n hm hc =>
    obtain ⟨h1, _, _, _, h5⟩ := nshm_create_inv hm hc
    exact ⟨h1, _, [], by simpa using h5⟩
  | shmalloc n live keys size p n1 _ hs hc ih =>
    obtain ⟨hlk, L, owned, I⟩ := ih
    obtain ⟨p', n1', r1, r2, r3, _⟩ := shmalloc_spec I hlk hs
    rw [hc] at r1
    obtain ⟨rfl, rfl⟩ := Prod.mk.inj (Option.some.inj r1)
    exact ⟨r3, L, owned, r2⟩
  | memalloc n live keys size p n1 _ hc ih =>
    obtain ⟨hlk, L, owned, I⟩ := ih
    obtain ⟨p', n1', L1, head, r1, r2, r3, _⟩ := nshm_memalloc_spec I hlk size
    rw [hc] at r1
    obtain ⟨rfl, rfl⟩ := Prod.mk.inj (Option.some.inj r1)
    refine ⟨by rw [r3.lock_eq]; exact hlk, L1, owned, ?_⟩
    by_cases hp : p = 0
    · rw [if_pos hp] at r2 ⊢; exact r2
    · rw [if_neg hp] at r2 ⊢; exact r2
  | memfree n live keys p n1 _ hp hc ih =>
    obtain ⟨hlk, L, owned, I⟩ := ih
    obtain ⟨n1', head, c, _, _, r1, r2, r3, _⟩ :=
      nshm_memfree_spec I hlk (p := p) (List.mem_append_left _ hp)
    rw [hc] at r1
    have e := Option.some.inj r1
    subst e
    rw [List.erase_append_left _ hp] at r2
    exact ⟨by rw [r3.lock_eq]; exact hlk, _, owned, r2⟩
  | set n live keys key val r n1 _ hk hc ih =>
    obtain ⟨hlk, L, owned, I⟩ := ih
    rcases nshm_set_cases hc with ⟨_, _, rfl⟩ | ⟨_, _, _, _, _, rfl⟩ | ⟨hlen, hg⟩
    · exact ⟨hlk, L, owned, I⟩
    · exact ⟨hlk, L, owned, I⟩
    · obtain ⟨r', n1', L1, r1, r2, _, _, _, _, r7⟩ := nshm_set_spec I hlk hk hlen hg val
      rw [hc] at r1
      obtain ⟨rfl, rfl⟩ := Prod.mk.inj (Option.some.inj r1)
      refine ⟨r2, L1, ?_⟩
      rcases r7 with ⟨_, I1, _⟩ | ⟨_, tk, kv, I1, _⟩
      · exact ⟨owned, I1⟩
      · have hperm : (kv :: tk :: (live ++ owned)).Perm (live ++ kv :: tk :: owned) := by
          refine List.Perm.trans ?_ (List.perm_middle).symm
          exact List.Perm.cons _ (List.perm_middle).symm
        exact ⟨kv :: tk :: owned,
          I1.live_perm (fun p hp => hperm.mem_iff.mpr hp) (hperm.nodup_iff.mp I1.live_nodup)⟩

/-! ## `nshm_get` right after an insertion -/

theorem vos_roundtrip {base v : Int} (hb : 0 < base) (hv : base < v) :
    vos_ptr base (vos_assign base v) = v := by
  unfold vos_assign
  rw [if_pos (by omega)]
  unfold vos_ptr
  rw [if_pos (by omega)]
  omega

/-- After a call of `nshm_set` has linked an entry, `nshm_get` of the key finds
that entry first and returns its value offset as an address. -/
theorem nshm_get_inserted {n n1 : NShm} {L1 : Layout} {key : List Nat} {val t k : Int}
    (hb : n1._base = n._base) (hs : n1._size = n._size) (hk : GoodKey key)
    (hlen : 0 < key.length) (H : Inserted n n1 L1 key val t k) :
    nshm_get n1 key = some (vos_ptr n._base (vos_assign n._base val)) := by
  have hh0 : 0 ≤ _get_key_hash key := hk
  have hh1 := hk.lt
  have t1 := H.t_ge
  have t2 := H.t_le
  have k1 := H.k_ge
  have k2 := H.k_le
  simp only [sizeof_nshm_base_t, sizeof_tokarr_t] at t1 t2 k1 k2
  have hlen' : ¬ ((key.length : Int) ≤ 0) := by omega
  have l0 : load n1 (n1._base + off_data + 8 * _get_key_hash key) = some t := by
    rw [← H.bucket]
    exact load_at (by ring) (by simp only [off_data]; omega)
      (by rw [hs]; simp only [off_data]; omega)
  have l1 : load n1 (n._base + t + tok_klen) = some (key.length : Int) := by
    rw [← H.klen]
    exact load_at (by rw [hb]; ring) (by simp only [tok_klen]; omega)
      (by rw [hs]; simp only [tok_klen]; omega)
  have l2 : load n1 (n._base + t + tok_key_offset) = some k := by
    rw [← H.key_offset]
    exact load_at (by rw [hb]; ring) (by simp only [tok_key_offset]; omega)
      (by rw [hs]; simp only [tok_key_offset]; omega)
  have l3 : load n1 (n._base + t + tok_val_offset) = some (vos_assign n._base val) := by
    rw [← H.val_offset]
    exact load_at (by rw [hb]; ring) (by simp only [tok_val_offset]; omega)
      (by rw [hs]; simp only [tok_val_offset]; omega)
  have l4 : load_bytes n1 key.length (n._base + k) = some (key.map (fun (b : Nat) => (b : Int))) := by
    rw [← hb]
    exact load_bytes_eq key n1 k (by omega) (by rw [hs]; omega) H.bytes
  unfold nshm_get
  rw [if_neg hlen']
  simp only [Option.bind_eq_bind, l0, Option.some_bind]
  simp only [nshm_get_loop, hb]
  rw [if_pos (by omega), vos_ptr_pos (by omega)]
  simp only [Option.bind_eq_bind, l1, Option.some_bind, if_true, l2]
  rw [vos_ptr_pos (by omega), l4]
  simp only [Option.some_bind, if_true, l3]

/-- The addresses that `alloc_repeat` collects are added to the held blocks. -/
theorem alloc_repeat_reach (s : Int) :
    ∀ (k : Nat) (n : NShm) (live ps : List Int) (keys : List (List Nat)) (n1 : NShm),
      Reach n live keys → alloc_repeat s k n = some (ps, n1) → (∀ p ∈ ps, p ≠ 0) →
      Reach n1 (ps.reverse ++ live) keys := by
  intro k
  induction k with
  | zero =>
    intro n live ps keys n1 hr h _
    simp only [alloc_repeat] at h
    obtain ⟨rfl, rfl⟩ := Prod.mk.inj (Option.some.inj h)
    simpa using hr
  | succ k ih =>
    intro n live ps keys n1 hr h hne
    simp only [alloc_repeat, Option.bind_eq_bind] at h
    cases ha : nshm_memalloc n s with
    | none => rw [ha] at h; simp at h
    | some r =>
      obtain ⟨p, n2⟩ := r
      rw [ha] at h
      simp only [Option.some_bind] at h
      cases hb : alloc_repeat s k n2 with
      | none => rw [hb] at h; simp at h
      | some r2 =>
        obtain ⟨qs, n3⟩ := r2
        rw [hb] at h
        simp only [Option.some_bind] at h
        obtain ⟨rfl, rfl⟩ := Prod.mk.inj (Option.some.inj h)
        have hp : p ≠ 0 := hne p (by simp)
        have hr2 := Reach.memalloc n live keys s p n2 hr ha
        rw [if_neg hp] at hr2
        have := ih n2 (p :: live) qs keys n3 hr2 hb (fun q hq => hne q (by simp [hq]))
        simpa using this

/-! ## Helpers for the claims -/

/-- A block that `alloc_class` returns when the batch fits: its header carries
the class size. -/
theorem alloc_class_block {n : NShm} {L : Layout} {live : List Int}
    (I : Inv n._base n._size n.mem L live) (hlk : n.lock_point = false) {head c : Int}
    (hc : IsClass head c) {k : Nat} (hk : 0 < k)
    (hcap : n.free_offset + k * (16 + c) ≤ (n._size : Int)) :
    ∃ p n1, alloc_class n head c k = some (p, n1) ∧ p ≠ 0 ∧
      load n1 (p - sizeof_shmem_hdr + hdr_seg_siz) = some c := by
  obtain ⟨p, n1, L1, r1, r2, r3, r4, r5⟩ := alloc_class_spec I hlk hc hk
  have hp : p ≠ 0 := by
    intro h0
    have := (r5 h0).2
    omega
  rw [if_neg hp] at r2
  obtain ⟨g1, g2, g3, g4⟩ := r2.seg_ok _ (r4 hp).1
  have hpos := hc.size_pos
  have hfle := r2.fo_le
  simp only [sizeof_nshm_base_t, hdr_seg_siz] at g1 g2 g3
  refine ⟨p, n1, r1, hp, ?_⟩
  rw [← g3]
  exact load_at (by rw [r3.base_eq]; simp only [sizeof_shmem_hdr, hdr_seg_siz]; ring)
    (by omega) (by omega)

theorem reach_created_1MiB : Reach arena_1MiB [] [] :=
  Reach.create 1048576 4096 arena_1MiB ⟨by decide, by decide⟩ rfl

theorem reach_created_4GiB : Reach arena_4GiB [] [] :=
  Reach.create 4294967296 4096 arena_4GiB ⟨by decide, by decide⟩ rfl

theorem map_fst_some {α β : Type} {x : Option (α × β)} {a : α}
    (h : x.map Prod.fst = some a) : ∃ b, x = some (a, b) := by
  cases x with
  | none => simp at h
  | some v =>
    obtain ⟨a1, b1⟩ := v
    simp only [Option.map_some', Option.some.injEq] at h
    subst h
    exact ⟨b1, rfl⟩

theorem two_pow_lt_of_lt {a b : Nat} (h : (2 : Int) ^ a < 2 ^ b) : a < b := by
  by_contra hcon
  have := two_pow_le_of_le (Nat.le_of_not_lt hcon)
  omega

theorem reach_created_tiny : Reach arena_tiny [] [] :=
  Reach.create 8905 4096 arena_tiny ⟨by decide, by decide⟩ rfl

/-- In a reachable state, after `nshm_set` has inserted a key with a value
address above the mapping base, `nshm_get` returns that address. -/
theorem get_after_set {n : NShm} {live : List Int} {keys : List (List Nat)} {key : List Nat}
    {v : Int} {n1 : NShm}
    (hr : Reach n live keys) (hk : GoodKey key) (hv : n._base < v)
    (hs : nshm_set n key v = some (1, n1)) : nshm_get n1 key = some v := by
  obtain ⟨hlk, L, owned, I⟩ := hr.inv
  rcases nshm_set_cases hs with ⟨_, h, _⟩ | ⟨_, _, _, _, h, _⟩ | ⟨hlen, hg⟩
  · omega
  · omega
  · obtain ⟨r', n1', L1, r1, _, r3, r4, _, _, r7⟩ := nshm_set_spec I hlk hk hlen hg v
    rw [hs] at r1
    obtain ⟨rfl, rfl⟩ := Prod.mk.inj (Option.some.inj r1)
    rcases r7 with ⟨h, _⟩ | ⟨_, tk, kv, _, H⟩
    · omega
    · rw [nshm_get_inserted r3 r4 hk hlen H, vos_roundtrip I.base_pos hv]

/-- The cursor of a reachable state lies between the end of the arena header
and the end of the region. -/
theorem reach_cursor_bounds {n : NShm} {live : List Int} {keys : List (List Nat)} (hr : Reach n live keys) :
    sizeof_nshm_base_t ≤ n.free_offset ∧ n.free_offset ≤ (n._size : Int) := by
  obtain ⟨_, L, owned, I⟩ := hr.inv
  exact ⟨I.fo_ge, I.fo_le⟩

theorem key_sum_foldl :
    ∀ (key : List Nat) (acc : Int), (∀ b ∈ key, b < 128) → 0 ≤ acc →
      acc + 127 * (key.length : Int) < 2147483648 →
      key.foldl (fun rc b => wrap32 (rc + char_of_byte b)) acc = acc + ((key.sum : Nat) : Int) := by
  intro key
  induction key with
  | nil => intro acc _ _ _; simp
  | cons b bs ih =>
    intro acc hb h0 hlt
    have hb0 : b < 128 := hb b (by simp)
    simp only [List.length_cons, Nat.cast_add, Nat.cast_one] at hlt
    have hc : char_of_byte b = (b : Int) := by unfold char_of_byte; rw [if_pos hb0]
    simp only [List.foldl_cons, List.sum_cons, hc]
    rw [wrap32_of_range (by omega) (by omega),
      ih _ (fun x hx => hb x (List.mem_cons_of_mem _ hx)) (by omega) (by omega)]
    push_cast; ring

/-- For a key of bytes below 128 (ASCII) and fewer than `2^24` bytes,
`_get_key_hash` is the byte sum modulo 1024, a bucket index. -/
theorem get_key_hash_ascii (key : List Nat) (hb : ∀ b ∈ key, b < 128)
    (hl : key.length < 16777216) :
    _get_key_hash key = ((key.sum : Nat) : Int) % 1024 ∧ GoodKey key ∧
      _get_key_hash key < 1024 := by
  have e := key_sum_foldl key 0 hb (le_refl _) (by omega)
  have h : _get_key_hash key = ((key.sum : Nat) : Int) % 1024 := by
    unfold _get_key_hash _DATA_HASH_SIZ
    rw [e, zero_add, Int.tmod_eq_emod (by omega) (by norm_num)]
  refine ⟨h, ?_, ?_⟩
  · unfold GoodKey; rw [h]; omega
  · rw [h]; omega

/-- From a reachable state, no call within the preconditions of `Reach` moves
the cursor back. -/
theorem cursor_monotone {n : NShm} {live : List Int} {keys : List (List Nat)} (hr : Reach n live keys) :
    (∀ s p n1, s ≤ 2147483640 → shmalloc n s = some (p, n1) →
      n.free_offset ≤ n1.free_offset) ∧
    (∀ s p n1, nshm_memalloc n s = some (p, n1) → n.free_offset ≤ n1.free_offset) ∧
    (∀ p n1, p ∈ live → nshm_memfree n p = some n1 → n.free_offset ≤ n1.free_offset) ∧
    (∀ key v r n1, GoodKey key → nshm_set n key v = some (r, n1) →
      n.free_offset ≤ n1.free_offset) := by
  obtain ⟨hlk, L, owned, I⟩ := hr.inv
  refine ⟨?_, ?_, ?_, ?_⟩
  · intro s p n1 hs h
    obtain ⟨p', n1', r1, _, _, _, _, r6, _⟩ := shmalloc_spec I hlk hs
    rw [h] at r1
    obtain ⟨rfl, rfl⟩ := Prod.mk.inj (Option.some.inj r1)
    exact r6
  · intro s p n1 h
    obtain ⟨p', n1', L1, head, r1, _, r3, _⟩ := nshm_memalloc_spec I hlk s
    rw [h] at r1
    obtain ⟨rfl, rfl⟩ := Prod.mk.inj (Option.some.inj r1)
    exact r3.fo_le
  · intro p n1 hp h
    obtain ⟨n1', head, c, _, _, r1, _, r3, _⟩ :=
      nshm_memfree_spec I hlk (p := p) (List.mem_append_left _ hp)
    rw [h] at r1
    have e := Option.some.inj r1
    subst e
    exact r3.fo_le
  · intro key v r n1 hk h
    rcases nshm_set_cases h with ⟨_, _, rfl⟩ | ⟨_, _, _, _, _, rfl⟩ | ⟨hlen, hg⟩
    · exact le_refl _
    · exact le_refl _
    · obtain ⟨r', n1', L1, r1, _, _, _, r5, _⟩ := nshm_set_spec I hlk hk hlen hg v
      rw [h] at r1
      obtain ⟨rfl, rfl⟩ := Prod.mk.inj (Option.some.inj r1)
      exact r5

/-! ## The index invariant -/

/-- A cell inside the block of a segment is no cell of a segment header. -/
theorem Inv.payload_cell {base : Int} {size : Nat} {m : Int → Int} {L : Layout}
    {live : List Int} (I : Inv base size m L live) {h c a : Int}
    (hs : (h, c) ∈ L.segs) (h1 : h + 16 ≤ a) (h2 : a < h + 16 + c) :
    696 ≤ a ∧ a < (size : Int) ∧ ∀ s ∈ L.segs, a ≠ s.1 ∧ a ≠ s.1 + 8 := by
  obtain ⟨g1, g2, _, _⟩ := I.seg_ok _ hs
  have hfle := I.fo_le
  simp only [sizeof_nshm_base_t] at g1 g2
  refine ⟨by omega, by omega, ?_⟩
  intro s hs1
  obtain ⟨hd, hcs⟩ := (I.seg_ok s hs1).2.2.2
  have := hcs.size_pos
  rcases I.seg_disj _ hs _ hs1 with e | e | e
  · rw [← e]; simp only; omega
  · simp only at e; omega
  · simp only at e; omega

/-- A chain is kept when the cells of its entries are. -/
theorem Chain.preserved {m m1 : Int → Int} :
    ∀ (es : List Entry) (head : Int), Chain m head es →
      (∀ e ∈ es, (∀ d, 0 ≤ d → d < 32 → m1 (e.t + d) = m (e.t + d)) ∧
        ∀ (i : Nat), i < e.key.length → m1 (e.k + (i : Int)) = m (e.k + (i : Int))) →
      Chain m1 head es := by
  intro es
  induction es with
  | nil => intro head h _; exact h
  | cons e es ih =>
    intro head h hk
    obtain ⟨h1, h2, h3, h4, h5, h6⟩ := h
    obtain ⟨k1, k2⟩ := hk e (by simp)
    refine ⟨h1, ?_, ?_, ?_, ?_, ?_⟩
    · rw [k1 _ (by simp only [tok_key_offset]; omega) (by simp only [tok_key_offset]; omega)]
      exact h2
    · rw [k1 _ (by simp only [tok_klen]; omega) (by simp only [tok_klen]; omega)]
      exact h3
    · rw [k1 _ (by simp only [tok_val_offset]; omega) (by simp only [tok_val_offset]; omega)]
      exact h4
    · intro i hi
      rw [k2 i hi]; exact h5 i hi
    · rw [k1 _ (by simp only [tok_next_offset]; omega)
        (by simp only [tok_next_offset]; omega)]
      exact ih _ h6 (fun x hx => hk x (List.mem_cons_of_mem _ hx))

/-- The cells of an entry lie in blocks of segments of the layout. -/
theorem KV.entry_cells {base : Int} {size : Nat} {m : Int → Int} {L : Layout}
    {live owned : List Int} {ch : Int → List Entry} (K : KV base m L owned ch)
    (I : Inv base size m L live) {b : Int} (hb0 : 0 ≤ b) (hb1 : b < 1024) {e : Entry}
    (he : e ∈ ch b) :
    (∀ d, 0 ≤ d → d < 32 →
      696 ≤ e.t + d ∧ e.t + d < (size : Int) ∧ ∀ s ∈ L.segs, e.t + d ≠ s.1 ∧ e.t + d ≠ s.1 + 8) ∧
    (∀ (i : Nat), i < e.key.length →
      696 ≤ e.k + (i : Int) ∧ e.k + (i : Int) < (size : Int) ∧
        ∀ s ∈ L.segs, e.k + (i : Int) ≠ s.1 ∧ e.k + (i : Int) ≠ s.1 + 8) := by
  obtain ⟨_, _, _, _, ⟨c1, s1, z1⟩, ⟨c2, s2, z2⟩⟩ := K.entry b hb0 hb1 e he
  simp only [sizeof_tokarr_t] at z1
  constructor
  · intro d hd0 hd1
    exact I.payload_cell s1 (by omega) (by omega)
  · intro i hi
    have : (i : Int) < e.key.length := by exact_mod_cast hi
    exact I.payload_cell s2 (by omega) (by omega)

/-- The index invariant is kept by a step that keeps every cell from the
bucket table on that is no cell of a segment header, and that only adds
segments. -/
theorem KV.preserved_by {base : Int} {size : Nat} {m m1 : Int → Int} {L L1 : Layout}
    {live1 owned : List Int} {ch : Int → List Entry} (K : KV base m L owned ch)
    (I1 : Inv base size m1 L1 live1) (hsub : ∀ s ∈ L.segs, s ∈ L1.segs)
    (hcells : ∀ a, 696 ≤ a → (∀ s ∈ L1.segs, a ≠ s.1 ∧ a ≠ s.1 + 8) → m1 a = m a) :
    KV base m1 L1 owned ch := by
  have K1 : ∀ b, 0 ≤ b → b < 1024 → ∀ e ∈ ch b,
      _get_key_hash e.key = b ∧ 0 < e.key.length ∧ base + e.t ∈ owned ∧ base + e.k ∈ owned ∧
        (∃ c, (e.t - 16, c) ∈ L1.segs ∧ sizeof_tokarr_t ≤ c) ∧
        (∃ c, (e.k - 16, c) ∈ L1.segs ∧ (e.key.length : Int) ≤ c) := by
    intro b hb0 hb1 e he
    obtain ⟨x1, x2, x3, x4, ⟨c1, s1, z1⟩, ⟨c2, s2, z2⟩⟩ := K.entry b hb0 hb1 e he
    exact ⟨x1, x2, x3, x4, ⟨c1, hsub _ s1, z1⟩, ⟨c2, hsub _ s2, z2⟩⟩
  refine ⟨?_, K.nodup, K1⟩
  intro b hb0 hb1
  have hbucket : m1 (off_data + 8 * b) = m (off_data + 8 * b) := by
    refine hcells _ (by simp only [off_data]; omega) ?_
    intro s hs
    have := (I1.seg_ok s hs).1
    simp only [sizeof_nshm_base_t] at this
    simp only [off_data]; omega
  rw [hbucket]
  refine Chain.preserved _ _ (K.chain b hb0 hb1) ?_
  intro e he
  obtain ⟨_, _, _, _, ⟨c1, s1, z1⟩, ⟨c2, s2, z2⟩⟩ := K1 b hb0 hb1 e he
  simp only [sizeof_tokarr_t] at z1
  constructor
  · intro d hd0 hd1
    obtain ⟨y1, _, y3⟩ := I1.payload_cell s1 (a := e.t + d) (by omega) (by omega)
    exact hcells _ y1 y3
  · intro i hi
    have : (i : Int) < e.key.length := by exact_mod_cast hi
    obtain ⟨y1, _, y3⟩ := I1.payload_cell s2 (a := e.k + (i : Int)) (by omega) (by omega)
    exact hcells _ y1 y3

/-- The index invariant does not depend on blocks the index gets to own in
addition. -/
theorem KV.owned_sub {base : Int} {m : Int → Int} {L : Layout} {owned owned1 : List Int}
    {ch : Int → List Entry} (K : KV base m L owned ch) (h : ∀ p ∈ owned, p ∈ owned1) :
    KV base m L owned1 ch := by
  refine ⟨K.chain, K.nodup, ?_⟩
  intro b hb0 hb1 e he
  obtain ⟨x1, x2, x3, x4, x5, x6⟩ := K.entry b hb0 hb1 e he
  exact ⟨x1, x2, h _ x3, h _ x4, x5, x6⟩

/-- A cell of one segment is no cell of another segment. -/
theorem Inv.blocks_apart {base : Int} {size : Nat} {m : Int → Int} {L : Layout}
    {live : List Int} (I : Inv base size m L live) {h1 c1 h2 c2 a : Int}
    (s1 : (h1, c1) ∈ L.segs) (s2 : (h2, c2) ∈ L.segs) (hne : h1 ≠ h2)
    (ha1 : h1 ≤ a) (ha2 : a < h1 + 16 + c1) : ¬ (h2 ≤ a ∧ a < h2 + 16 + c2) := by
  rcases I.seg_disj _ s1 _ s2 with e | e | e
  · exact absurd (Prod.mk.inj e).1 hne
  · simp only at e; omega
  · simp only at e; omega

/-- The index invariant after `nshm_set` has linked a new entry: the entry is
the new head of the bucket of its key. -/
theorem KV.insert {n n1 : NShm} {L L1 : Layout} {all owned : List Int}
    {ch : Int → List Entry} {key : List Nat} {val tk kv : Int}
    (K : KV n._base n.mem L owned ch) (hown : ∀ p ∈ owned, p ∈ all)
    (hb : n1._base = n._base)
    (I1 : Inv n1._base n1._size n1.mem L1 (kv :: tk :: all))
    (hsub : ∀ s ∈ L.segs, s ∈ L1.segs) (hk : GoodKey key) (hlen : 0 < key.length)
    (H : Inserted n n1 L1 key val (tk - n._base) (kv - n._base)) :
    KV n1._base n1.mem L1 (kv :: tk :: owned)
      (Function.update ch (_get_key_hash key)
        (⟨tk - n._base, kv - n._base, key, vos_assign n._base val⟩ ::
          ch (_get_key_hash key))) := by
  have hh0 : 0 ≤ _get_key_hash key := hk
  have hh1 := hk.lt
  obtain ⟨ct, st, zt⟩ := H.t_seg
  obtain ⟨ck, sk, zk⟩ := H.k_seg
  simp only [sizeof_tokarr_t] at zt
  have hnd := I1.live_nodup
  have hkv : kv ∉ owned := fun h =>
    (List.nodup_cons.mp hnd).1 (List.mem_cons_of_mem _ (hown _ h))
  have htk : tk ∉ owned := fun h =>
    (List.nodup_cons.mp (List.nodup_cons.mp hnd).2).1 (hown _ h)
  set t := tk - n._base with ht
  set k := kv - n._base with hkd
  -- the cells of the entries already linked are kept
  have hold : ∀ b, 0 ≤ b → b < 1024 → ∀ e ∈ ch b,
      (∀ d, 0 ≤ d → d < 32 → n1.mem (e.t + d) = n.mem (e.t + d)) ∧
        ∀ (i : Nat), i < e.key.length → n1.mem (e.k + (i : Int)) = n.mem (e.k + (i : Int)) := by
    intro b hb0 hb1 e he
    obtain ⟨_, _, x3, x4, ⟨c1, s1, z1⟩, ⟨c2, s2, z2⟩⟩ := K.entry b hb0 hb1 e he
    simp only [sizeof_tokarr_t] at z1
    have s1' := hsub _ s1
    have s2' := hsub _ s2
    have ne1 : e.t - 16 ≠ t - 16 := fun h => htk (by
      have : tk = n._base + e.t := by omega
      rw [this]; exact x3)
    have ne2 : e.t - 16 ≠ k - 16 := fun h => hkv (by
      have : kv = n._base + e.t := by omega
      rw [this]; exact x3)
    have ne3 : e.k - 16 ≠ t - 16 := fun h => htk (by
      have : tk = n._base + e.k := by omega
      rw [this]; exact x4)
    have ne4 : e.k - 16 ≠ k - 16 := fun h => hkv (by
      have : kv = n._base + e.k := by omega
      rw [this]; exact x4)
    constructor
    · intro d hd0 hd1
      obtain ⟨y1, _, y3⟩ := I1.payload_cell s1' (a := e.t + d) (by omega) (by omega)
      have a1 := I1.blocks_apart s1' st ne1 (a := e.t + d) (by omega) (by omega)
      have a2 := I1.blocks_apart s1' sk ne2 (a := e.t + d) (by omega) (by omega)
      refine H.others _ y1 (by simp only [off_data]; have := (I1.seg_ok _ s1').1
                               simp only [sizeof_nshm_base_t] at this; omega) y3 ?_ ?_
      · simp only [sizeof_tokarr_t]; omega
      · omega
    · intro i hi
      have hi' : (i : Int) < e.key.length := by exact_mod_cast hi
      obtain ⟨y1, _, y3⟩ := I1.payload_cell s2' (a := e.k + (i : Int)) (by omega) (by omega)
      have a1 := I1.blocks_apart s2' st ne3 (a := e.k + (i : Int)) (by omega) (by omega)
      have a2 := I1.blocks_apart s2' sk ne4 (a := e.k + (i : Int)) (by omega) (by omega)
      refine H.others _ y1 (by simp only [off_data]; have := (I1.seg_ok _ s2').1
                               simp only [sizeof_nshm_base_t] at this; omega) y3 ?_ ?_
      · simp only [sizeof_tokarr_t]; omega
      · omega
  have hchain : ∀ b, 0 ≤ b → b < 1024 → ∀ head, Chain n.mem head (ch b) →
      Chain n1.mem head (ch b) := fun b hb0 hb1 head h =>
    Chain.preserved _ _ h (hold b hb0 hb1)
  have t1 := H.t_ge
  have k1 := H.k_ge
  simp only [sizeof_nshm_base_t] at t1 k1
  rw [hb]
  refine ⟨?_, ?_, ?_⟩
  · intro b hb0 hb1
    by_cases e : b = _get_key_hash key
    · subst e
      simp only [Function.update_same]
      refine ⟨H.bucket, H.key_offset, H.klen, H.val_offset, H.bytes, ?_⟩
      show Chain n1.mem (n1.mem (t + tok_next_offset)) _
      rw [H.next_offset]
      exact hchain _ hb0 hb1 _ (K.chain _ hb0 hb1)
    · simp only [Function.update_noteq e]
      have hcell : n1.mem (off_data + 8 * b) = n.mem (off_data + 8 * b) := by
        refine H.others _ (by simp only [off_data]; omega) (by omega) ?_ ?_ ?_
        · intro s hs
          have := (I1.seg_ok s hs).1
          simp only [sizeof_nshm_base_t] at this
          simp only [off_data]; omega
        · simp only [off_data, sizeof_tokarr_t]; omega
        · simp only [off_data]; omega
      rw [hcell]
      exact hchain _ hb0 hb1 _ (K.chain _ hb0 hb1)
  · intro b hb0 hb1
    by_cases e : b = _get_key_hash key
    · subst e
      simp only [Function.update_same, List.map_cons, List.nodup_cons]
      refine ⟨?_, K.nodup _ hb0 hb1⟩
      intro hm
      obtain ⟨e1, he1, het⟩ := List.mem_map.mp hm
      obtain ⟨_, _, x3, _⟩ := K.entry _ hb0 hb1 e1 he1
      apply htk
      have : tk = n._base + e1.t := by rw [het]; omega
      rw [this]; exact x3
    · simp only [Function.update_noteq e]
      exact K.nodup _ hb0 hb1
  · intro b hb0 hb1 e he
    have hkeep : ∀ e ∈ ch b,
        _get_key_hash e.key = b ∧ 0 < e.key.length ∧ n._base + e.t ∈ kv :: tk :: owned ∧
          n._base + e.k ∈ kv :: tk :: owned ∧
          (∃ c, (e.t - 16, c) ∈ L1.segs ∧ sizeof_tokarr_t ≤ c) ∧
          (∃ c, (e.k - 16, c) ∈ L1.segs ∧ (e.key.length : Int) ≤ c) := by
      intro e he
      obtain ⟨x1, x2, x3, x4, ⟨c1, s1, z1⟩, ⟨c2, s2, z2⟩⟩ := K.entry b hb0 hb1 e he
      exact ⟨x1, x2, by simp [x3], by simp [x4], ⟨c1, hsub _ s1, z1⟩, ⟨c2, hsub _ s2, z2⟩⟩
    by_cases eb : b = _get_key_hash key
    · subst eb
      simp only [Function.update_same, List.mem_cons] at he
      rcases he with rfl | he
      · refine ⟨rfl, hlen, ?_, ?_, ⟨ct, st, by simp only [sizeof_tokarr_t]; exact zt⟩,
          ⟨ck, sk, zk⟩⟩
        · have : n._base + t = tk := by omega
          simp [this]
        · have : n._base + k = kv := by omega
          simp [this]
      · exact hkeep e he
    · simp only [Function.update_noteq eb] at he
      exact hkeep e he

/-! ## `nshm_get` walks the chain of the bucket -/

theorem nodup_bounded_length (l : List Int) (n : Nat) (hn : l.Nodup)
    (hb : ∀ x ∈ l, 0 ≤ x ∧ x < (n : Int)) : l.length ≤ n := by
  have h1 : (l.map Int.toNat).Nodup := by
    refine List.Nodup.map_on ?_ hn
    intro x hx y hy hxy
    have := hb x hx
    have := hb y hy
    omega
  have h2 : l.map Int.toNat ⊆ List.range n := by
    intro x hx
    obtain ⟨y, hy, rfl⟩ := List.mem_map.mp hx
    have := hb y hy
    exact List.mem_range.mpr (by omega)
  have := (List.Nodup.subperm h1 h2).length_le
  simpa using this

/-- The loop of `nshm_get` over a chain of entries inside the region, with
more fuel than entries: it returns what `lookup` says. -/
theorem nshm_get_loop_chain (n : NShm) (key : List Nat) :
    ∀ (es : List Entry) (head : Int) (fuel : Nat), Chain n.mem head es →
      (∀ e ∈ es, 0 < e.t ∧ e.t + 32 ≤ (n._size : Int) ∧ 0 < e.k ∧
        e.k + (e.key.length : Int) ≤ (n._size : Int)) →
      es.length < fuel → nshm_get_loop n key fuel head = some (lookup n._base key es) := by
  intro es
  induction es with
  | nil =>
    intro head fuel h _ hf
    obtain ⟨f, rfl⟩ : ∃ f, fuel = f + 1 := ⟨fuel - 1, by simp at hf; omega⟩
    simp only [Chain] at h
    subst h
    simp [nshm_get_loop, lookup]
  | cons e es ih =>
    intro head fuel h hbd hf
    obtain ⟨f, rfl⟩ : ∃ f, fuel = f + 1 := ⟨fuel - 1, by simp at hf; omega⟩
    obtain ⟨h1, h2, h3, h4, h5, h6⟩ := h
    obtain ⟨b1, b2, b3, b4⟩ := hbd e (by simp)
    subst h1
    have ihe := ih _ f h6 (fun x hx => hbd x (List.mem_cons_of_mem _ hx))
      (by simp only [List.length_cons] at hf; omega)
    have l1 : load n (n._base + e.t + tok_klen) = some (e.key.length : Int) := by
      rw [← h3]
      exact load_at (by ring) (by simp only [tok_klen]; omega) (by simp only [tok_klen]; omega)
    have l2 : load n (n._base + e.t + tok_key_offset) = some e.k := by
      rw [← h2]
      exact load_at (by ring) (by simp only [tok_key_offset]; omega)
        (by simp only [tok_key_offset]; omega)
    have l3 : load n (n._base + e.t + tok_val_offset) = some e.vo := by
      rw [← h4]
      exact load_at (by ring) (by simp only [tok_val_offset]; omega)
        (by simp only [tok_val_offset]; omega)
    have l4 : load n (n._base + e.t + tok_next_offset) =
        some (n.mem (e.t + tok_next_offset)) :=
      load_at (by ring) (by simp only [tok_next_offset]; omega)
        (by simp only [tok_next_offset]; omega)
    have l5 : load_bytes n e.key.length (n._base + e.k) =
        some (e.key.map (fun (b : Nat) => (b : Int))) :=
      load_bytes_eq e.key n e.k (by omega) b4 h5
    simp only [nshm_get_loop]
    rw [if_pos (by omega), vos_ptr_pos b1]
    simp only [Option.bind_eq_bind, l1, Option.some_bind]
    by_cases hl : (e.key.length : Int) = (key.length : Int)
    · rw [if_pos hl]
      simp only [l2, Option.some_bind]
      have hl' : key.length = e.key.length := by omega
      rw [vos_ptr_pos b3, hl', l5]
      simp only [Option.some_bind]
      by_cases hk : e.key = key
      · subst hk
        simp only [if_true, l3, Option.some_bind, lookup]
      · have hne : ¬ (e.key.map (fun (b : Nat) => (b : Int)) = key.map (fun (b : Nat) => (b : Int))) := by
          intro h
          exact hk (List.map_injective_iff.mpr Nat.cast_injective h)
        rw [if_neg hne]
        simp only [l4, Option.some_bind, lookup, if_neg hk]
        exact ihe
    · rw [if_neg hl]
      have hk : e.key ≠ key := by
        intro h; apply hl; rw [h]
      simp only [l4, Option.some_bind, lookup, if_neg hk]
      exact ihe

/-- In a state of the two invariants `nshm_get` of a key whose hash is a
bucket index returns, and returns the value of the first entry with that key
on the chain of its bucket, or `NULL`. -/
theorem nshm_get_spec {n : NShm} {L : Layout} {live owned : List Int}
    {ch : Int → List Entry} (I : Inv n._base n._size n.mem L live)
    (K : KV n._base n.mem L owned ch) {key : List Nat} (hk : GoodKey key) :
    nshm_get n key = some (if key.length = 0 then 0
      else lookup n._base key (ch (_get_key_hash key))) := by
  have hh0 : 0 ≤ _get_key_hash key := hk
  have hh1 := hk.lt
  have hge := I.fo_ge
  have hfle := I.fo_le
  simp only [sizeof_nshm_base_t] at hge
  unfold nshm_get
  by_cases hlen : key.length = 0
  · rw [if_pos (by omega), if_pos hlen]
  · rw [if_neg (by omega), if_neg hlen]
    have l0 : load n (n._base + off_data + 8 * _get_key_hash key) =
        some (n.mem (off_data + 8 * _get_key_hash key)) :=
      load_at (by ring) (by simp only [off_data]; omega) (by simp only [off_data]; omega)
    simp only [Option.bind_eq_bind, l0, Option.some_bind]
    have hbd : ∀ e ∈ ch (_get_key_hash key), 0 < e.t ∧ e.t + 32 ≤ (n._size : Int) ∧ 0 < e.k ∧
        e.k + (e.key.length : Int) ≤ (n._size : Int) := by
      intro e he
      obtain ⟨_, _, _, _, ⟨c1, s1, z1⟩, ⟨c2, s2, z2⟩⟩ := K.entry _ hh0 hh1 e he
      simp only [sizeof_tokarr_t] at z1
      obtain ⟨g1, g2, _, _⟩ := I.seg_ok _ s1
      obtain ⟨g3, g4, _, _⟩ := I.seg_ok _ s2
      simp only [sizeof_nshm_base_t] at g1 g2 g3 g4
      exact ⟨by omega, by omega, by omega, by omega⟩
    refine nshm_get_loop_chain n key _ _ _ (K.chain _ hh0 hh1) hbd ?_
    have := nodup_bounded_length _ n._size (K.nodup _ hh0 hh1) (by
      intro x hx
      obtain ⟨e, he, rfl⟩ := List.mem_map.mp hx
      have := hbd e he
      omega)
    simp only [List.length_map] at this
    omega

/-! ## Reachable states satisfy both invariants -/

theorem init_mem_bucket {b : Int} (h0 : 0 ≤ b) (h1 : b < 1024) :
    init_mem (off_data + 8 * b) = -1 := by
  unfold init_mem
  simp only [off_small_msegs, off_big_msegs, off_data, off_version, off_free_offset]
  repeat rw [if_neg (by omega)]
  rw [if_pos (by omega)]

/-- Every reachable state has its lock released and satisfies the allocator
invariant and the index invariant, for some layout, some set of blocks owned
by the index and some chains of entries, all of keys that `nshm_set` has
inserted. -/
theorem Reach.full {n : NShm} {live : List Int} {keys : List (List Nat)}
    (h : Reach n live keys) :
    n.lock_point = false ∧
      ∃ L owned ch, Inv n._base n._size n.mem L (live ++ owned) ∧
        KV n._base n.mem L owned ch ∧ ∀ b e, e ∈ ch b → e.key ∈ keys := by
  induction h with
  | create size base n hm hc =>
    obtain ⟨h1, _, _, h4, h5⟩ := nshm_create_inv hm hc
    refine ⟨h1, _, [], fun _ => [], by simpa using h5, ⟨?_, ?_, ?_⟩, ?_⟩
    · intro b hb0 hb1
      show n.mem (off_data + 8 * b) = -1
      rw [h4]; exact init_mem_bucket hb0 hb1
    · intro b _ _; exact List.nodup_nil
    · intro b _ _ e he; simp at he
    · intro b e he; simp at he
  | shmalloc n live keys size p n1 _ hs hc ih =>
    obtain ⟨hlk, L, owned, ch, I, K, hkeys⟩ := ih
    obtain ⟨p', n1', r1, r2, r3, r4, r5, _, _, _, _, r10⟩ := shmalloc_spec I hlk hs
    rw [hc] at r1
    obtain ⟨rfl, rfl⟩ := Prod.mk.inj (Option.some.inj r1)
    refine ⟨r3, L, owned, ch, r2, ?_, hkeys⟩
    rw [r4]
    rw [r4, r5] at r2
    exact K.preserved_by r2 (fun _ h => h)
      (fun a ha _ => r10 a (by simp only [off_free_offset]; omega))
  | memalloc n live keys size p n1 _ hc ih =>
    obtain ⟨hlk, L, owned, ch, I, K, hkeys⟩ := ih
    obtain ⟨p', n1', L1, head, r1, r2, r3, r4, r5, _⟩ := nshm_memalloc_spec I hlk size
    rw [hc] at r1
    obtain ⟨rfl, rfl⟩ := Prod.mk.inj (Option.some.inj r1)
    have K1 : KV n1._base n1.mem L1 owned ch := by
      rw [r3.base_eq]
      have r2' := r2
      rw [r3.base_eq, r3.size_eq] at r2'
      exact K.preserved_by r2' r3.segs_sub (fun a ha hs => r3.keep r5 ha hs)
    refine ⟨by rw [r3.lock_eq]; exact hlk, L1, owned, ch, ?_, K1, hkeys⟩
    by_cases hp : p = 0
    · rw [if_pos hp] at r2 ⊢; exact r2
    · rw [if_neg hp] at r2 ⊢; exact r2
  | memfree n live keys p n1 _ hp hc ih =>
    obtain ⟨hlk, L, owned, ch, I, K, hkeys⟩ := ih
    obtain ⟨n1', head, c, hcl, _, r1, r2, r3, _⟩ :=
      nshm_memfree_spec I hlk (p := p) (List.mem_append_left _ hp)
    rw [hc] at r1
    have e := Option.some.inj r1
    subst e
    have K1 := K.preserved_by (by
      have r2' := r2
      rw [r3.base_eq, r3.size_eq] at r2'
      exact r2') r3.segs_sub (fun a ha hs => r3.keep hcl.head_lt ha hs)
    rw [List.erase_append_left _ hp] at r2
    exact ⟨by rw [r3.lock_eq]; exact hlk, _, owned, ch, r2, by rw [r3.base_eq]; exact K1,
      hkeys⟩
  | set n live keys key val r n1 _ hk hc ih =>
    obtain ⟨hlk, L, owned, ch, I, K, hkeys⟩ := ih
    have hkeys1 : ∀ b e, e ∈ ch b → e.key ∈ (if r = 1 then key :: keys else keys) := by
      intro b e he
      by_cases hr1 : r = 1
      · rw [if_pos hr1]; exact List.mem_cons_of_mem _ (hkeys b e he)
      · rw [if_neg hr1]; exact hkeys b e he
    rcases nshm_set_cases hc with ⟨_, _, rfl⟩ | ⟨_, _, _, _, _, rfl⟩ | ⟨hlen, hg⟩
    · exact ⟨hlk, L, owned, ch, I, K, hkeys1⟩
    · exact ⟨hlk, L, owned, ch, I, K, hkeys1⟩
    · obtain ⟨r', n1', L1, r1, r2, r3, r4, _, r6, r7⟩ := nshm_set_spec I hlk hk hlen hg val
      rw [hc] at r1
      obtain ⟨rfl, rfl⟩ := Prod.mk.inj (Option.some.inj r1)
      refine ⟨r2, L1, ?_⟩
      rcases r7 with ⟨_, I1, hcells⟩ | ⟨hr1, tk, kv, I1, H⟩
      · refine ⟨owned, ch, I1, ?_, hkeys1⟩
        rw [r3]
        have I1' := I1
        rw [r3, r4] at I1'
        exact K.preserved_by I1' r6 hcells
      · have hperm : (kv :: tk :: (live ++ owned)).Perm (live ++ kv :: tk :: owned) := by
          refine List.Perm.trans ?_ (List.perm_middle).symm
          exact List.Perm.cons _ (List.perm_middle).symm
        refine ⟨kv :: tk :: owned, _,
          I1.live_perm (fun p hp => hperm.mem_iff.mpr hp) (hperm.nodup_iff.mp I1.live_nodup),
          K.insert (fun p hp => List.mem_append_right _ hp) r3 I1 r6 hk hlen H, ?_⟩
        intro b e he
        rw [if_pos hr1]
        by_cases eb : b = _get_key_hash key
        · subst eb
          simp only [Function.update_same, List.mem_cons] at he
          rcases he with rfl | he
          · exact List.mem_cons_self _ _
          · exact List.mem_cons_of_mem _ (hkeys _ e he)
        · simp only [Function.update_noteq eb] at he
          exact List.mem_cons_of_mem _ (hkeys b e he)

/-- In a reachable state `nshm_get` of a key whose hash is a bucket index
returns. -/
theorem nshm_get_returns {n : NShm} {live : List Int} {keys : List (List Nat)} (hr : Reach n live keys) {key : List Nat}
    (hk : GoodKey key) : ∃ r, nshm_get n key = some r := by
  obtain ⟨_, L, owned, ch, I, K, _⟩ := hr.full
  exact ⟨_, nshm_get_spec I K hk⟩

/-- In a reachable state `nshm_set` of a key whose hash is a bucket index
returns, with result -1, 0 or 1. -/
theorem nshm_set_returns {n : NShm} {live : List Int} {keys : List (List Nat)} (hr : Reach n live keys) {key : List Nat}
    (hk : GoodKey key) (val : Int) :
    ∃ r n1, nshm_set n key val = some (r, n1) ∧ (r = -1 ∨ r = 0 ∨ r = 1) := by
  obtain ⟨hlk, L, owned, ch, I, K, _⟩ := hr.full
  obtain ⟨g, hg⟩ := nshm_get_returns hr hk
  by_cases hlen : (key.length : Int) ≤ 0
  · exact ⟨-1, n, by unfold nshm_set; rw [if_pos hlen], Or.inl rfl⟩
  · by_cases hg0 : g = 0
    · subst hg0
      obtain ⟨r, n1, L1, r1, _, _, _, _, _, r7⟩ :=
        nshm_set_spec I hlk hk (by omega) hg val
      refine ⟨r, n1, r1, ?_⟩
      rcases r7 with ⟨h, _⟩ | ⟨h, _⟩
      · exact Or.inl h
      · exact Or.inr (Or.inr h)
    · refine ⟨0, n, ?_, Or.inr (Or.inl rfl)⟩
      unfold nshm_set
      rw [if_neg hlen, hg]
      simp only [Option.bind_eq_bind, Option.some_bind]
      rw [if_pos hg0]

theorem lookup_absent (base : Int) (key : List Nat) :
    ∀ es : List Entry, (∀ e ∈ es, e.key ≠ key) → lookup base key es = 0 := by
  intro es
  induction es with
  | nil => intro _; rfl
  | cons e es ih =>
    intro h
    simp only [lookup]
    rw [if_neg (h e (by simp))]
    exact ih (fun x hx => h x (List.mem_cons_of_mem _ hx))

/-- In a reachable state `nshm_get` returns not-found for every key whose hash
is a bucket index and for which `nshm_set` has not returned 1, the empty key
included. -/
theorem nshm_get_absent {n : NShm} {live : List Int} {keys : List (List Nat)}
    (hr : Reach n live keys) {key : List Nat} (hk : GoodKey key) (hnot : key ∉ keys) :
    nshm_get n key = some 0 := by
  obtain ⟨_, L, owned, ch, I, K, hkeys⟩ := hr.full
  rw [nshm_get_spec I K hk]
  by_cases hlen : key.length = 0
  · rw [if_pos hlen]
  · rw [if_neg hlen, lookup_absent]
    intro e he hek
    exact hnot (hek ▸ hkeys _ e he)

/-! ## The lookup does not depend on the mapping base -/

theorem at_base_base (n : NShm) (b : Int) : (n.at_base b)._base = b := rfl

theorem load_at_base (n : NShm) (b a : Int) :
    load (n.at_base b) (b + a) = load n (n._base + a) := by
  unfold load NShm.mapped NShm.at_base
  by_cases h : 0 ≤ a ∧ a < (n._size : Int)
  · rw [if_pos (by constructor <;> simp <;> omega), if_pos (by constructor <;> omega)]
    simp
  · rw [if_neg (by simp; omega), if_neg (by omega)]

theorem load_below_base (n : NShm) (d : Int) (h : d < n._base) : load n d = none := by
  unfold load NShm.mapped
  rw [if_neg (by omega)]

theorem load_bytes_at_base (n : NShm) (b : Int) :
    ∀ (k : Nat) (a : Int),
      load_bytes (n.at_base b) k (b + a) = load_bytes n k (n._base + a) := by
  intro k
  induction k with
  | zero => intro a; rfl
  | succ k ih =>
    intro a
    simp only [load_bytes]
    rw [load_at_base, add_assoc, add_assoc, ih]

theorem load_bytes_vos (n : NShm) (b : Int) (h1 : 0 < n._base) (h2 : 0 < b) (k : Nat)
    (ko : Int) :
    load_bytes (n.at_base b) k (vos_ptr b ko) = load_bytes n k (vos_ptr n._base ko) := by
  by_cases hko : 0 < ko
  · rw [vos_ptr_pos hko, vos_ptr_pos hko, load_bytes_at_base]
  · have e1 : vos_ptr b ko = 0 := by unfold vos_ptr; rw [if_neg (by omega)]
    have e2 : vos_ptr n._base ko = 0 := by unfold vos_ptr; rw [if_neg (by omega)]
    rw [e1, e2]
    cases k with
    | zero => rfl
    | succ k =>
      simp only [load_bytes]
      rw [load_below_base n 0 h1, load_below_base (n.at_base b) 0 (by rw [at_base_base]; exact h2)]
      rfl

theorem nshm_get_loop_at_base (n : NShm) (b2 : Int) (key : List Nat) (h1 : 8 < n._base)
    (h2 : 8 < b2) :
    ∀ (fuel : Nat) (off : Int), ∃ o : Option Int,
      nshm_get_loop n key fuel off = o.map (vos_ptr n._base) ∧
      nshm_get_loop (n.at_base b2) key fuel off = o.map (vos_ptr b2) := by
  intro fuel
  induction fuel with
  | zero => intro off; exact ⟨none, rfl, rfl⟩
  | succ fuel ih =>
    intro off
    simp only [nshm_get_loop, at_base_base]
    by_cases hneg : off ≥ 0
    · rw [if_pos hneg, if_pos hneg]
      by_cases h0 : off = 0
      · subst h0
        have e1 : vos_ptr n._base 0 + tok_klen = 8 := by simp [vos_ptr, tok_klen]
        have e2 : vos_ptr b2 0 + tok_klen = 8 := by simp [vos_ptr, tok_klen]
        refine ⟨none, ?_, ?_⟩
        · rw [e1, load_below_base n 8 h1]; rfl
        · rw [e2, load_below_base (n.at_base b2) 8 (by rw [at_base_base]; exact h2)]; rfl
      · have hpos : 0 < off := by omega
        rw [vos_ptr_pos hpos, vos_ptr_pos hpos]
        simp only [add_assoc, load_at_base, load_bytes_vos n b2 (by omega) (by omega),
          Option.bind_eq_bind]
        obtain ⟨onx, hn1, hn2⟩ : ∃ o : Option Int,
            (load n (n._base + (off + tok_next_offset))).bind
                (fun next => nshm_get_loop n key fuel next) = o.map (vos_ptr n._base) ∧
              (load n (n._base + (off + tok_next_offset))).bind
                (fun next => nshm_get_loop (n.at_base b2) key fuel next) =
                o.map (vos_ptr b2) := by
          cases load n (n._base + (off + tok_next_offset)) with
          | none => exact ⟨none, rfl, rfl⟩
          | some next => exact ih next
        rw [hn1, hn2]
        cases load n (n._base + (off + tok_klen)) with
        | none => exact ⟨none, rfl, rfl⟩
        | some klen =>
          simp only [Option.some_bind]
          by_cases hkl : klen = (key.length : Int)
          · rw [if_pos hkl, if_pos hkl]
            cases load n (n._base + (off + tok_key_offset)) with
            | none => exact ⟨none, rfl, rfl⟩
            | some ko =>
              simp only [Option.some_bind]
              cases load_bytes n key.length (vos_ptr n._base ko) with
              | none => exact ⟨none, rfl, rfl⟩
              | some bytes =>
                simp only [Option.some_bind]
                by_cases hby : bytes = key.map (fun (b : Nat) => (b : Int))
                · rw [if_pos hby, if_pos hby]
                  cases load n (n._base + (off + tok_val_offset)) with
                  | none => exact ⟨none, rfl, rfl⟩
                  | some vo => exact ⟨some vo, rfl, rfl⟩
                · rw [if_neg hby, if_neg hby]
                  exact ⟨onx, rfl, rfl⟩
          · rw [if_neg hkl, if_neg hkl]
            exact ⟨onx, rfl, rfl⟩
    · rw [if_neg hneg, if_neg hneg]
      exact ⟨some (-1), by simp [vos_ptr], by simp [vos_ptr]⟩

theorem nshm_get_at_base (n : NShm) (b2 : Int) (key : List Nat) (h1 : 8 < n._base)
    (h2 : 8 < b2) :
    ∃ o : Option Int, nshm_get n key = o.map (vos_ptr n._base) ∧
      nshm_get (n.at_base b2) key = o.map (vos_ptr b2) := by
  unfold nshm_get
  by_cases hl : (key.length : Int) ≤ 0
  · rw [if_pos hl, if_pos hl]
    exact ⟨some (-1), by simp [vos_ptr], by simp [vos_ptr]⟩
  · rw [if_neg hl, if_neg hl]
    simp only [at_base_base, add_assoc, load_at_base, Option.bind_eq_bind]
    cases load n (n._base + (off_data + 8 * _get_key_hash key)) with
    | none => exact ⟨none, rfl, rfl⟩
    | some off => exact nshm_get_loop_at_base n b2 key h1 h2 _ off

theorem map_pair_some {α β γ : Type} {x : Option (α × β)} {f : β → γ} {a : α} {c : γ}
    (h : x.map (fun r => (r.1, f r.2)) = some (a, c)) : ∃ b, x = some (a, b) ∧ f b = c := by
  cases x with
  | none => simp at h
  | some r =>
    obtain ⟨r1, r2⟩ := r
    simp only [Option.map_some', Option.some.injEq, Prod.mk.injEq] at h
    exact ⟨r2, by rw [h.1], h.2⟩

/-! ## `nshm_memfree` on an arbitrary state -/

theorem free_class_eq {n : NShm} (hlk : n.lock_point = false) {head h : Int} (h0 : 0 ≤ h)
    (h1 : h < (n._size : Int)) (hne : n._base + h ≠ 0) :
    free_class n head (n._base + h) =
      some (_unlock_nshm
        ((({ n with lock_point := true } : NShm).set (h + hdr_next_offset) (n.mem head)).set
          head h)) := by
  let nl : NShm := { n with lock_point := true }
  have s1 : store nl (n._base + h + hdr_next_offset) (nl.mem head) =
      some (nl.set (h + hdr_next_offset) (nl.mem head)) :=
    store_at _ (by show _ = n._base + _; omega) (by simp only [hdr_next_offset]; omega)
      (by show _ < (n._size : Int); simp only [hdr_next_offset]; omega)
  have ev : vos_assign n._base (n._base + h) = h := vos_assign_add hne
  unfold free_class
  rw [lock_eq hlk]
  simp only [Option.bind_eq_bind, Option.some_bind]
  rw [s1]
  simp only [Option.some_bind]
  have : vos_assign (nl.set (h + hdr_next_offset) (nl.mem head))._base (n._base + h) = h := ev
  rw [this]

theorem nshm_memfree_eq {n : NShm} (hlk : n.lock_point = false) {p head c : Int}
    (hb : 0 < n._base) (hp1 : 16 ≤ p - n._base) (hp2 : p - n._base ≤ (n._size : Int))
    (hc : block_size n p = c) (hcl : IsClass head c) :
    nshm_memfree n p =
      some (_unlock_nshm
        ((({ n with lock_point := true } : NShm).set (p - n._base - 16 + hdr_next_offset)
          (n.mem head)).set head (p - n._base - 16))) := by
  have hpos := hcl.size_pos
  have hle := hcl.size_le
  have l1 : load n (p - sizeof_shmem_hdr + hdr_seg_siz) = some c := by
    rw [← hc]
    unfold block_size
    exact load_at (by simp only [sizeof_shmem_hdr, hdr_seg_siz]; omega)
      (by simp only [sizeof_shmem_hdr, hdr_seg_siz]; omega)
      (by simp only [sizeof_shmem_hdr, hdr_seg_siz]; omega)
  have ehdr : p - sizeof_shmem_hdr = n._base + (p - n._base - 16) := by
    simp only [sizeof_shmem_hdr]; omega
  have r1 := @free_class_eq n hlk head (p - n._base - 16) (by omega) (by omega) (by omega)
  unfold nshm_memfree
  rw [if_neg (by omega)]
  simp only [Option.bind_eq_bind, l1, Option.some_bind]
  rw [if_neg (by omega)]
  by_cases hsm : c ≤ 1024
  · rw [if_pos (by unfold _SEGSIZE_THRESHOLD; exact hsm)]
    unfold _free_small_shmem
    simp only [Option.bind_eq_bind, l1, Option.some_bind]
    rw [class_of_small hcl hsm, ehdr]
    exact r1
  · rw [if_neg (by unfold _SEGSIZE_THRESHOLD; exact hsm),
      if_pos (by unfold _MAX_ALLOCSIZE; omega)]
    obtain ⟨i, hi1, hi2⟩ := class_of_big hcl (by omega)
    unfold _free_big_shmem
    simp only [Option.bind_eq_bind, l1, Option.some_bind, hi1]
    rw [hi2, ehdr]
    exact r1

theorem nshm_memfree_noop {n : NShm} {p c : Int} (hp1 : 16 ≤ p - n._base)
    (hp2 : p - n._base ≤ (n._size : Int)) (hc : block_size n p = c) (h0 : c ≤ 0) :
    nshm_memfree n p = some n := by
  have l1 : load n (p - sizeof_shmem_hdr + hdr_seg_siz) = some c := by
    rw [← hc]
    unfold block_size
    exact load_at (by simp only [sizeof_shmem_hdr, hdr_seg_siz]; omega)
      (by simp only [sizeof_shmem_hdr, hdr_seg_siz]; omega)
      (by simp only [sizeof_shmem_hdr, hdr_seg_siz]; omega)
  unfold nshm_memfree
  by_cases hp : p = 0
  · rw [if_pos hp]
  · rw [if_neg hp]
    simp only [Option.bind_eq_bind, l1, Option.some_bind]
    rw [if_pos h0]

/-! ## Refill and the allocations that follow it -/

theorem request_class_spec (n : NShm) {s head c : Int} {k : Nat}
    (h : request_class s = some (head, c, k)) :
    IsClass head c ∧ 0 < k ∧ 0 < s ∧ s ≤ c ∧ nshm_memalloc n s = alloc_class n head c k ∧
      (s ≤ 1024 → k = 8 ∧ c = 16 * ((s - 1) / 16 + 1)) ∧
      (1024 < s → k = 4 ∧ ∃ j : Nat, j < 20 ∧ c = 2048 * 2 ^ j ∧ 1024 * 2 ^ j < s) := by
  unfold request_class at h
  by_cases h0 : s ≤ 0
  · rw [if_pos h0] at h; exact absurd h (by simp)
  · rw [if_neg h0] at h
    by_cases hs : s ≤ 1024
    · rw [if_pos (by unfold _SEGSIZE_THRESHOLD; exact hs)] at h
      have ei := get_smallseg_index_eq (s := s) (by omega) hs
      have es := get_smallseg_size_eq (i := (s - 1) / 16) (by omega) (by omega)
      rw [ei, es] at h
      simp only [Option.some.injEq, Prod.mk.injEq, _SMALL_MSEG_NMEMB] at h
      obtain ⟨rfl, rfl, rfl⟩ := h
      refine ⟨?_, by norm_num, by omega, by omega, ?_, fun _ => ⟨rfl, rfl⟩, fun h => by omega⟩
      · left
        refine ⟨((s - 1) / 16).toNat, by omega, ?_, ?_⟩
        · rw [Int.toNat_of_nonneg (by omega)]
        · rw [Int.toNat_of_nonneg (by omega)]
      · unfold nshm_memalloc _alloc_small_shmem
        rw [if_neg (by omega), if_pos (by unfold _SEGSIZE_THRESHOLD; exact hs)]
        simp only [ei, es, _SMALL_MSEG_NMEMB]
    · rw [if_neg (by unfold _SEGSIZE_THRESHOLD; exact hs)] at h
      by_cases hm : s ≤ 1073741824
      · rw [if_pos (by unfold _MAX_ALLOCSIZE; omega)] at h
        obtain ⟨j, hj, hj1, hj2⟩ := big_class_exists (s := s) (by omega) 19 (by norm_num; omega)
        have hj' : j < 20 := by omega
        have ei := get_bigseg_index_eq hj' hj1 hj2
        have es := get_bigseg_size_eq hj'
        rw [ei] at h
        simp only [Option.map_some', es, Option.some.injEq, Prod.mk.injEq,
          _BIG_MSEG_NMEMB] at h
        obtain ⟨rfl, rfl, rfl⟩ := h
        refine ⟨?_, by norm_num, by omega, hj2, ?_, fun h => by omega,
          fun _ => ⟨rfl, j, hj', rfl, hj1⟩⟩
        · right; exact ⟨j, hj', rfl, rfl⟩
        · unfold nshm_memalloc _alloc_big_shmem
          rw [if_neg (by omega), if_neg (by unfold _SEGSIZE_THRESHOLD; omega),
            if_pos (by unfold _MAX_ALLOCSIZE; omega)]
          simp only [ei, Option.bind_eq_bind, Option.some_bind, es, _BIG_MSEG_NMEMB]
      · rw [if_neg (by unfold _MAX_ALLOCSIZE; omega)] at h; exact absurd h (by simp)

theorem carved_length (c : Int) : ∀ (j : Nat) (fo : Int), (carved c j fo).length = j := by
  intro j
  induction j with
  | zero => intro fo; rfl
  | succ j ih => intro fo; simp only [carved, List.length_append, ih, List.length_singleton]

theorem Inv.empty_of_neg {base : Int} {size : Nat} {m : Int → Int} {L : Layout}
    {live : List Int} (I : Inv base size m L live) {head c : Int} (hc : IsClass head c)
    (hneg : m head < 0) : L.fl head = [] := by
  cases hl : L.fl head with
  | nil => rfl
  | cons h t =>
    obtain ⟨e, _, g, _⟩ := I.head_eq hc hl
    simp only [sizeof_nshm_base_t] at g
    omega
theorem alloc_list_pops {head c : Int} {k : Nat} (hc : IsClass head c) :
    ∀ (ss : List Int) (n : NShm) (L : Layout) (live : List Int),
      Inv n._base n._size n.mem L live → n.lock_point = false →
      (∀ s ∈ ss, request_class s = some (head, c, k)) →
      ss.length ≤ (L.fl head).length →
      ∃ ps n1 L1, alloc_list ss n = some (ps, n1) ∧
        ps = ((L.fl head).take ss.length).map (fun h => n._base + h + 16) ∧
        Inv n1._base n1._size n1.mem L1 (ps.reverse ++ live) ∧ n1.lock_point = false ∧
        n1.free_offset = n.free_offset ∧ n1._base = n._base ∧ n1._size = n._size ∧
        L1.fl head = (L.fl head).drop ss.length := by
  intro ss
  induction ss with
  | nil =>
    intro n L live I hlk _ _
    exact ⟨[], n, L, rfl, by simp, by simpa using I, hlk, rfl, rfl, rfl, by simp⟩
  | cons s ss ih =>
    intro n L live I hlk hss hlen
    cases hl : L.fl head with
    | nil => rw [hl] at hlen; simp at hlen
    | cons h t =>
      obtain ⟨_, _, _, _, e, _⟩ := request_class_spec n (hss s (List.mem_cons_self _ _))
      obtain ⟨n1, r1, r2, r3, r4⟩ := alloc_class_pop I hlk hc hl k
      have hlk1 : n1.lock_point = false := by rw [r3.lock_eq]; exact hlk
      have hfl : (⟨L.segs, Function.update L.fl head t⟩ : Layout).fl head = t := by
        simp only [Function.update_same]
      obtain ⟨ps, n2, L2, q1, q2, q3, q4, q5, q6, q7, q8⟩ :=
        ih n1 ⟨L.segs, Function.update L.fl head t⟩ _ r2 hlk1
          (fun s1 hs1 => hss s1 (List.mem_cons_of_mem _ hs1))
          (by rw [hfl]; rw [hl] at hlen; simpa using hlen)
      refine ⟨(n._base + h + 16) :: ps, n2, L2, ?_, ?_, ?_, q4, by rw [q5, r4],
        by rw [q6, r3.base_eq], by rw [q7, r3.size_eq], ?_⟩
      · simp only [alloc_list, Option.bind_eq_bind]
        rw [e, r1]
        simp only [Option.some_bind, q1]
      · rw [q2, hfl, r3.base_eq]
        simp only [List.length_cons, List.take_succ_cons, List.map_cons]
      · simpa using q3
      · rw [q8, hfl]
        simp only [List.length_cons, List.drop_succ_cons]

theorem Inv.free_list {base : Int} {size : Nat} {m : Int → Int} {L : Layout}
    {live : List Int} (I : Inv base size m L live) {head c : Int} (hc : IsClass head c) :
    FreeList m (m head) (L.fl head) ∧ (L.fl head).Nodup ∧
      ∀ h ∈ L.fl head, sizeof_nshm_base_t ≤ h ∧ h + 16 + c ≤ (size : Int) ∧
        m (h + hdr_seg_siz) = c := by
  obtain ⟨f1, f2, f3⟩ := I.fl_ok head c hc
  refine ⟨f1, f2, ?_⟩
  intro h hh
  obtain ⟨g1, g2, g3, _⟩ := I.seg_ok _ (f3 h hh)
  have := I.fo_le
  exact ⟨g1, by simp only at g2; omega, g3⟩

theorem reach_created_9388 : Reach arena_9388 [] [] :=
  Reach.create 9388 4096 arena_9388 ⟨by decide, by decide⟩ rfl

theorem class_alloc_siz {head c : Int} (hc : IsClass head c) :
    mask_align (wrap32 (wrap32 (8 + 4 + c) + _ALIGNMENT_BYTE - 1)) = 16 + c := by
  have h1 := hc.size_pos
  have h2 := hc.size_le
  have h3 := hc.size_mod
  have e1 : wrap32 (8 + 4 + c) = 12 + c := by
    rw [wrap32_of_range (by omega) (by omega)]; omega
  have e2 : wrap32 (12 + c + 8 - 1) = 19 + c := by
    rw [wrap32_of_range (by omega) (by omega)]; omega
  unfold _ALIGNMENT_BYTE
  rw [e1, e2]
  unfold mask_align _ALIGNMENT_BYTE
  omega

/-! ## Calls under observation: the flag stays down -/

theorem write_w_locked (n : NShm) (u : Bool) (a v : Int) (hl : n.lock_point = true) :
    Watched.write ⟨n, u⟩ a v = ⟨n.set a v, u⟩ := by
  simp only [Watched.write, hl, Bool.not_true, Bool.and_false, Bool.or_false]

theorem write_w_free (n : NShm) (u : Bool) (a v : Int) (hp : ¬ Protected a) :
    Watched.write ⟨n, u⟩ a v = ⟨n.set a v, u⟩ := by
  simp only [Watched.write, hp, decide_False, Bool.false_and, Bool.or_false]

theorem store_w_locked (n : NShm) (u : Bool) (p v : Int) (hl : n.lock_point = true) :
    Watched.store ⟨n, u⟩ p v = (store n p v).map (fun s => ⟨s, u⟩) := by
  unfold Watched.store store
  by_cases h : n.mapped p
  · rw [if_pos h, if_pos h, write_w_locked _ _ _ _ hl]; rfl
  · rw [if_neg h, if_neg h]; rfl

theorem store_w_free (n : NShm) (u : Bool) (p v : Int) (hp : ¬ Protected (p - n._base)) :
    Watched.store ⟨n, u⟩ p v = (store n p v).map (fun s => ⟨s, u⟩) := by
  unfold Watched.store store
  by_cases h : n.mapped p
  · rw [if_pos h, if_pos h, write_w_free _ _ _ _ hp]; rfl
  · rw [if_neg h, if_neg h]; rfl

theorem store_keeps {n n1 : NShm} {p v : Int} (h : store n p v = some n1) :
    n1.lock_point = n.lock_point ∧ n1._base = n._base ∧ n1._size = n._size := by
  unfold store at h
  by_cases hm : n.mapped p
  · rw [if_pos hm] at h
    cases Option.some.inj h
    exact ⟨rfl, rfl, rfl⟩
  · rw [if_neg hm] at h; exact absurd h (by simp)

theorem _shmalloc_keeps (n : NShm) (s : Int) :
    (_shmalloc n s).2.lock_point = n.lock_point ∧ (_shmalloc n s).2._base = n._base ∧
      (_shmalloc n s).2._size = n._size := by
  unfold _shmalloc
  simp only
  split <;> exact ⟨rfl, rfl, rfl⟩

theorem _shmalloc_w_eq (n : NShm) (u : Bool) (s : Int) (hl : n.lock_point = true) :
    _shmalloc_w ⟨n, u⟩ s = ((_shmalloc n s).1, ⟨(_shmalloc n s).2, u⟩) := by
  unfold _shmalloc_w _shmalloc
  simp only
  split
  · rfl
  · rw [write_w_locked _ _ _ _ hl]

theorem lock_w_eq (n : NShm) (u : Bool) :
    Watched.lock ⟨n, u⟩ = (_lock_nshm n).map (fun s => ⟨s, u⟩) := rfl

theorem unlock_w_eq (n : NShm) (u : Bool) : Watched.unlock ⟨n, u⟩ = ⟨_unlock_nshm n, u⟩ := rfl

theorem lock_held {n n1 : NShm} (h : _lock_nshm n = some n1) :
    n1.lock_point = true ∧ n1._base = n._base ∧ n1._size = n._size ∧ n1.mem = n.mem := by
  unfold _lock_nshm at h
  by_cases hl : n.lock_point = true
  · rw [if_pos hl] at h; exact absurd h (by simp)
  · rw [if_neg hl] at h
    cases Option.some.inj h
    exact ⟨rfl, rfl, rfl, rfl⟩

theorem shmalloc_w_eq (n : NShm) (u : Bool) (s : Int) :
    shmalloc_w ⟨n, u⟩ s = (shmalloc n s).map (fun r => (r.1, ⟨r.2, u⟩)) := by
  unfold shmalloc_w shmalloc
  by_cases hs : s ≤ 0
  · rw [if_pos hs, if_pos hs]; rfl
  · rw [if_neg hs, if_neg hs, lock_w_eq]
    cases h : _lock_nshm n with
    | none => rfl
    | some n1 =>
      simp only [Option.map_some', Option.bind_eq_bind, Option.some_bind]
      rw [_shmalloc_w_eq _ _ _ (lock_held h).1, unlock_w_eq]
theorem refill_loop_w_eq (head c : Int) :
    ∀ (todo : Nat) (n : NShm) (u : Bool), n.lock_point = true →
      refill_loop_w head c todo ⟨n, u⟩ =
        (refill_loop head c todo n).map (fun r => (r.1, ⟨r.2, u⟩)) := by
  intro todo
  induction todo with
  | zero => intro n u _; rfl
  | succ todo ih =>
    intro n u hl
    simp only [refill_loop_w, refill_loop]
    rw [_shmalloc_w_eq _ _ _ hl]
    have hk := (_shmalloc_keeps n (wrap32 (8 + 4 + c))).1
    rw [hl] at hk
    generalize (_shmalloc n (wrap32 (8 + 4 + c))).2 = n1 at hk
    generalize (_shmalloc n (wrap32 (8 + 4 + c))).1 = ptr
    simp only
    by_cases hp : ptr = 0
    · rw [if_pos hp, if_pos hp]; rfl
    · rw [if_neg hp, if_neg hp, store_w_locked _ _ _ _ hk]
      simp only [Option.bind_eq_bind]
      cases h2 : store n1 (ptr + hdr_seg_siz) c with
      | none => rfl
      | some n2 =>
        have hk2 : n2.lock_point = true := by rw [(store_keeps h2).1]; exact hk
        simp only [Option.map_some', Option.some_bind]
        rw [store_w_locked _ _ _ _ hk2]
        cases h3 : store n2 (ptr + hdr_next_offset) (n2.mem head) with
        | none => rfl
        | some n3 =>
          have hk3 : n3.lock_point = true := by rw [(store_keeps h3).1]; exact hk2
          simp only [Option.map_some', Option.some_bind]
          rw [write_w_locked _ _ _ _ hk3]
          exact ih _ u hk3

theorem refill_loop_keeps (head c : Int) :
    ∀ (todo : Nat) (n : NShm) (ok : Bool) (n1 : NShm),
      refill_loop head c todo n = some (ok, n1) → n1.lock_point = n.lock_point := by
  intro todo
  induction todo with
  | zero =>
    intro n ok n1 h
    simp only [refill_loop, Option.some.injEq, Prod.mk.injEq] at h
    rw [← h.2]
  | succ todo ih =>
    intro n ok n1 h
    simp only [refill_loop] at h
    have hk := (_shmalloc_keeps n (wrap32 (8 + 4 + c))).1
    generalize (_shmalloc n (wrap32 (8 + 4 + c))).2 = m1 at hk h
    generalize (_shmalloc n (wrap32 (8 + 4 + c))).1 = ptr at h
    by_cases hp : ptr = 0
    · rw [if_pos hp] at h
      simp only [Option.some.injEq, Prod.mk.injEq] at h
      rw [← h.2, hk]
    · rw [if_neg hp] at h
      simp only [Option.bind_eq_bind] at h
      cases h2 : store m1 (ptr + hdr_seg_siz) c with
      | none => rw [h2] at h; exact absurd h (by simp)
      | some n2 =>
        rw [h2] at h
        simp only [Option.some_bind] at h
        cases h3 : store n2 (ptr + hdr_next_offset) (n2.mem head) with
        | none => rw [h3] at h; exact absurd h (by simp)
        | some n3 =>
          rw [h3] at h
          simp only [Option.some_bind] at h
          have := ih _ _ _ h
          rw [this]
          show n3.lock_point = _
          rw [(store_keeps h3).1, (store_keeps h2).1, hk]

theorem pop_head_w_eq (head : Int) (n : NShm) (u : Bool) (hl : n.lock_point = true) :
    pop_head_w head ⟨n, u⟩ = (pop_head head n).map (fun r => (r.1, ⟨r.2, u⟩)) := by
  unfold pop_head_w pop_head
  simp only [Option.bind_eq_bind]
  cases load n (vos_ptr n._base (n.mem head) + hdr_next_offset) with
  | none => rfl
  | some next =>
    simp only [Option.some_bind]
    rw [write_w_locked _ _ _ _ hl, store_w_locked _ _ _ _ (by exact hl)]
    cases store (n.set head next) (vos_ptr n._base (n.mem head) + hdr_next_offset) (-1) with
    | none => rfl
    | some n2 => rfl

theorem alloc_class_w_eq (n : NShm) (u : Bool) (head c : Int) (k : Nat) :
    alloc_class_w ⟨n, u⟩ head c k =
      (alloc_class n head c k).map (fun r => (r.1, ⟨r.2, u⟩)) := by
  unfold alloc_class_w alloc_class
  rw [lock_w_eq]
  cases h : _lock_nshm n with
  | none => rfl
  | some n1 =>
    have hl := (lock_held h).1
    simp only [Option.map_some', Option.bind_eq_bind, Option.some_bind]
    by_cases hneg : n1.mem head < 0
    · rw [if_pos hneg, if_pos hneg, refill_loop_w_eq _ _ _ _ _ hl]
      cases h2 : refill_loop head c k n1 with
      | none => rfl
      | some r =>
        obtain ⟨ok, n2⟩ := r
        have hl2 : n2.lock_point = true := by rw [refill_loop_keeps _ _ _ _ _ _ h2]; exact hl
        simp only [Option.map_some', Option.some_bind]
        cases ok with
        | true =>
          simp only [if_true]
          rw [pop_head_w_eq _ _ _ hl2]
          cases pop_head head n2 with
          | none => rfl
          | some r => rfl
        | false => rfl
    · rw [if_neg hneg, if_neg hneg, pop_head_w_eq _ _ _ hl]
      cases pop_head head n1 with
      | none => rfl
      | some r => rfl
theorem nshm_memalloc_w_eq (n : NShm) (u : Bool) (s : Int) :
    nshm_memalloc_w ⟨n, u⟩ s = (nshm_memalloc n s).map (fun r => (r.1, ⟨r.2, u⟩)) := by
  unfold nshm_memalloc_w nshm_memalloc
  by_cases h0 : s ≤ 0
  · rw [if_pos h0, if_pos h0]; rfl
  · rw [if_neg h0, if_neg h0]
    by_cases h1 : s ≤ _SEGSIZE_THRESHOLD
    · rw [if_pos h1, if_pos h1]
      unfold _alloc_small_shmem_w _alloc_small_shmem
      exact alloc_class_w_eq _ _ _ _ _
    · rw [if_neg h1, if_neg h1]
      by_cases h2 : s ≤ _MAX_ALLOCSIZE
      · rw [if_pos h2, if_pos h2]
        unfold _alloc_big_shmem_w _alloc_big_shmem
        simp only [Option.bind_eq_bind]
        cases get_bigseg_index s with
        | none => rfl
        | some index =>
          simp only [Option.some_bind]
          exact alloc_class_w_eq _ _ _ _ _
      · rw [if_neg h2, if_neg h2]; rfl

theorem free_class_w_eq (n : NShm) (u : Bool) (head hdr : Int) :
    free_class_w ⟨n, u⟩ head hdr = (free_class n head hdr).map (fun s => ⟨s, u⟩) := by
  unfold free_class_w free_class
  rw [lock_w_eq]
  cases h : _lock_nshm n with
  | none => rfl
  | some n1 =>
    have hl := (lock_held h).1
    simp only [Option.map_some', Option.bind_eq_bind, Option.some_bind]
    rw [store_w_locked _ _ _ _ hl]
    cases h2 : store n1 (hdr + hdr_next_offset) (n1.mem head) with
    | none => rfl
    | some n2 =>
      have hl2 : n2.lock_point = true := by rw [(store_keeps h2).1]; exact hl
      simp only [Option.map_some', Option.some_bind]
      rw [write_w_locked _ _ _ _ hl2, unlock_w_eq]

theorem nshm_memfree_w_eq (n : NShm) (u : Bool) (p : Int) :
    nshm_memfree_w ⟨n, u⟩ p = (nshm_memfree n p).map (fun s => ⟨s, u⟩) := by
  unfold nshm_memfree_w nshm_memfree
  by_cases h0 : p = 0
  · rw [if_pos h0, if_pos h0]; rfl
  · rw [if_neg h0, if_neg h0]
    simp only [Option.bind_eq_bind]
    cases h : load n (p - sizeof_shmem_hdr + hdr_seg_siz) with
    | none => rfl
    | some c =>
      simp only [Option.some_bind]
      by_cases h1 : c ≤ 0
      · rw [if_pos h1, if_pos h1]; rfl
      · rw [if_neg h1, if_neg h1]
        by_cases h2 : c ≤ _SEGSIZE_THRESHOLD
        · rw [if_pos h2, if_pos h2]
          unfold _free_small_shmem_w _free_small_shmem
          simp only [Option.bind_eq_bind, h, Option.some_bind]
          exact free_class_w_eq _ _ _ _
        · rw [if_neg h2, if_neg h2]
          by_cases h3 : c ≤ _MAX_ALLOCSIZE
          · rw [if_pos h3, if_pos h3]
            unfold _free_big_shmem_w _free_big_shmem
            simp only [Option.bind_eq_bind, h, Option.some_bind]
            cases get_bigseg_index c with
            | none => rfl
            | some index =>
              simp only [Option.some_bind]
              exact free_class_w_eq _ _ _ _
          · rw [if_neg h3, if_neg h3]; rfl

theorem store_bytes_w_eq :
    ∀ (key : List Nat) (n : NShm) (u : Bool) (a : Int), 8888 ≤ a →
      store_bytes_w key ⟨n, u⟩ (n._base + a) =
        (store_bytes key n (n._base + a)).map (fun s => ⟨s, u⟩) := by
  intro key
  induction key with
  | nil => intro n u a _; rfl
  | cons b bs ih =>
    intro n u a ha
    simp only [store_bytes_w, store_bytes, Option.bind_eq_bind]
    rw [store_w_free _ _ _ _ (by
      unfold Protected off_free_offset off_small_msegs off_big_msegs off_data
      omega)]
    cases h : store n (n._base + a) (b : Int) with
    | none => rfl
    | some n1 =>
      simp only [Option.map_some', Option.some_bind]
      have hb := (store_keeps h).2.1
      have := ih n1 u (a + 1) (by omega)
      rw [hb, ← add_assoc] at this
      exact this
theorem store_bytes_keeps :
    ∀ (key : List Nat) (n : NShm) (p : Int) (n1 : NShm), store_bytes key n p = some n1 →
      n1.lock_point = n.lock_point ∧ n1._base = n._base ∧ n1._size = n._size := by
  intro key
  induction key with
  | nil =>
    intro n p n1 h
    simp only [store_bytes, Option.some.injEq] at h
    rw [← h]; exact ⟨rfl, rfl, rfl⟩
  | cons b bs ih =>
    intro n p n1 h
    simp only [store_bytes, Option.bind_eq_bind] at h
    cases h1 : store n p (b : Int) with
    | none => rw [h1] at h; exact absurd h (by simp)
    | some m =>
      rw [h1] at h
      simp only [Option.some_bind] at h
      obtain ⟨a1, a2, a3⟩ := ih _ _ _ h
      obtain ⟨b1, b2, b3⟩ := store_keeps h1
      exact ⟨by rw [a1, b1], by rw [a2, b2], by rw [a3, b3]⟩

theorem not_protected {a : Int} (h : 8888 ≤ a) : ¬ Protected a := by
  unfold Protected off_free_offset off_small_msegs off_big_msegs off_data
  omega

theorem nshm_set_w_eq {n : NShm} {L : Layout} {live : List Int}
    (I : Inv n._base n._size n.mem L live) (hlk : n.lock_point = false)
    (u : Bool) (key : List Nat) (val : Int) :
    nshm_set_w ⟨n, u⟩ key val = (nshm_set n key val).map (fun r => (r.1, ⟨r.2, u⟩)) := by
  unfold nshm_set_w nshm_set
  by_cases hlen : (key.length : Int) ≤ 0
  · rw [if_pos hlen, if_pos hlen]; rfl
  rw [if_neg hlen, if_neg hlen]
  simp only [Option.bind_eq_bind]
  cases nshm_get n key with
  | none => rfl
  | some found =>
  simp only [Option.some_bind]
  by_cases hf : found ≠ 0
  · rw [if_pos hf, if_pos hf]; rfl
  rw [if_neg hf, if_neg hf, nshm_memalloc_w_eq]
  obtain ⟨t, n1, L1, hd1, e1, I1, F1, -, -, hp1⟩ := nshm_memalloc_spec I hlk sizeof_tokarr_t
  rw [e1]
  simp only [Option.map_some', Option.some_bind]
  by_cases ht : t = 0
  · rw [if_pos ht, if_pos ht]; rfl
  rw [if_neg ht, if_neg ht, nshm_memalloc_w_eq]
  rw [if_neg ht] at I1
  have hlk1 : n1.lock_point = false := by rw [F1.lock_eq]; exact hlk
  obtain ⟨k, n2, L2, hd2, e2, I2, F2, -, -, hp2⟩ := nshm_memalloc_spec I1 hlk1 (key.length : Int)
  rw [e2]
  simp only [Option.map_some', Option.some_bind]
  by_cases hk : k = 0
  · rw [if_pos hk, if_pos hk, nshm_memfree_w_eq]
    cases nshm_memfree n2 t with
    | none => rfl
    | some n3 => rfl
  rw [if_neg hk, if_neg hk]
  rw [if_neg hk] at I2
  obtain ⟨c1, -, -, hs1, -⟩ := hp1 ht
  obtain ⟨c2, -, -, hs2, -⟩ := hp2 hk
  have g1 := (I1.seg_ok _ hs1).1
  have g2 := (I2.seg_ok _ hs2).1
  simp only [sizeof_nshm_base_t] at g1 g2
  have hb1 := F1.base_eq
  have hb2 := F2.base_eq
  have ek : k = n2._base + (k - n2._base) := by omega
  rw [ek, store_bytes_w_eq key n2 u (k - n2._base) (by omega), ← ek]
  cases h3 : store_bytes key n2 k with
  | none => rfl
  | some n3 =>
  obtain ⟨l3, b3, -⟩ := store_bytes_keeps _ _ _ _ h3
  simp only [Option.map_some', Option.some_bind]
  rw [store_w_free _ _ _ _ (not_protected (by simp only [tok_key_offset]; omega))]
  cases h4 : store n3 (t + tok_key_offset) (vos_assign n3._base k) with
  | none => rfl
  | some n4 =>
  obtain ⟨l4, b4, -⟩ := store_keeps h4
  simp only [Option.map_some', Option.some_bind]
  rw [store_w_free _ _ _ _ (not_protected (by simp only [tok_klen]; omega))]
  cases h5 : store n4 (t + tok_klen) (key.length : Int) with
  | none => rfl
  | some n5 =>
  obtain ⟨l5, b5, -⟩ := store_keeps h5
  simp only [Option.map_some', Option.some_bind]
  rw [store_w_free _ _ _ _ (not_protected (by simp only [tok_val_offset]; omega))]
  cases h6 : store n5 (t + tok_val_offset) (vos_assign n5._base val) with
  | none => rfl
  | some n6 =>
  simp only [Option.map_some', Option.some_bind]
  rw [lock_w_eq]
  cases h7 : _lock_nshm n6 with
  | none => rfl
  | some n7 =>
  have l7 := (lock_held h7).1
  simp only [Option.map_some', Option.some_bind]
  cases load n7 (n7._base + off_data + 8 * _get_key_hash key) with
  | none => rfl
  | some head =>
  simp only [Option.some_bind]
  rw [store_w_locked _ _ _ _ l7]
  cases h8 : store n7 (t + tok_next_offset) head with
  | none => rfl
  | some n8 =>
  have l8 : n8.lock_point = true := by rw [(store_keeps h8).1]; exact l7
  simp only [Option.map_some', Option.some_bind]
  rw [store_w_locked _ _ _ _ l8]
  cases store n8 (n8._base + off_data + 8 * _get_key_hash key) (vos_assign n8._base t) with
  | none => rfl
  | some n9 => rfl
theorem shmalloc_returns (n : NShm) (s : Int) (hlk : n.lock_point = false) :
    ∃ p n1, shmalloc n s = some (p, n1) ∧ n1.lock_point = false := by
  unfold shmalloc
  by_cases hs : s ≤ 0
  · rw [if_pos hs]; exact ⟨0, n, rfl, hlk⟩
  · rw [if_neg hs, lock_eq hlk]
    exact ⟨_, _, rfl, rfl⟩

theorem free_class_unlocked {n n1 : NShm} {head hdr : Int}
    (h : free_class n head hdr = some n1) : n1.lock_point = false := by
  unfold free_class at h
  simp only [Option.bind_eq_bind] at h
  cases h1 : _lock_nshm n with
  | none => rw [h1] at h; exact absurd h (by simp)
  | some m1 =>
    rw [h1] at h
    simp only [Option.some_bind] at h
    cases h2 : store m1 (hdr + hdr_next_offset) (m1.mem head) with
    | none => rw [h2] at h; exact absurd h (by simp)
    | some m2 =>
      rw [h2] at h
      simp only [Option.some_bind, Option.some.injEq] at h
      rw [← h]; rfl

theorem nshm_memfree_unlocked {n n1 : NShm} {p : Int} (hlk : n.lock_point = false)
    (h : nshm_memfree n p = some n1) : n1.lock_point = false := by
  unfold nshm_memfree at h
  by_cases h0 : p = 0
  · rw [if_pos h0] at h; rw [← Option.some.inj h]; exact hlk
  rw [if_neg h0] at h
  simp only [Option.bind_eq_bind] at h
  cases hc : load n (p - sizeof_shmem_hdr + hdr_seg_siz) with
  | none => rw [hc] at h; exact absurd h (by simp)
  | some c =>
    rw [hc] at h
    simp only [Option.some_bind] at h
    by_cases h1 : c ≤ 0
    · rw [if_pos h1] at h; rw [← Option.some.inj h]; exact hlk
    rw [if_neg h1] at h
    by_cases h2 : c ≤ _SEGSIZE_THRESHOLD
    · rw [if_pos h2] at h
      unfold _free_small_shmem at h
      simp only [Option.bind_eq_bind, hc, Option.some_bind] at h
      exact free_class_unlocked h
    rw [if_neg h2] at h
    by_cases h3 : c ≤ _MAX_ALLOCSIZE
    · rw [if_pos h3] at h
      unfold _free_big_shmem at h
      simp only [Option.bind_eq_bind, hc, Option.some_bind] at h
      cases hi : get_bigseg_index c with
      | none => rw [hi] at h; exact absurd h (by simp)
      | some index =>
        rw [hi] at h
        simp only [Option.some_bind] at h
        exact free_class_unlocked h
    · rw [if_neg h3] at h; rw [← Option.some.inj h]; exact hlk

theorem nshm_set_unlocked {n : NShm} {L : Layout} {live : List Int}
    (I : Inv n._base n._size n.mem L live) (hlk : n.lock_point = false)
    {key : List Nat} {val r : Int} {n9 : NShm} (h : nshm_set n key val = some (r, n9)) :
    n9.lock_point = false := by
  unfold nshm_set at h
  by_cases hlen : (key.length : Int) ≤ 0
  · rw [if_pos hlen] at h
    simp only [Option.some.injEq, Prod.mk.injEq] at h
    rw [← h.2]; exact hlk
  rw [if_neg hlen] at h
  simp only [Option.bind_eq_bind] at h
  cases hg : nshm_get n key with
  | none => rw [hg] at h; exact absurd h (by simp)
  | some found =>
  rw [hg] at h
  simp only [Option.some_bind] at h
  by_cases hf : found ≠ 0
  · rw [if_pos hf] at h
    simp only [Option.some.injEq, Prod.mk.injEq] at h
    rw [← h.2]; exact hlk
  rw [if_neg hf] at h
  obtain ⟨t, n1, L1, hd1, e1, I1, F1, -, -, -⟩ := nshm_memalloc_spec I hlk sizeof_tokarr_t
  have hlk1 : n1.lock_point = false := by rw [F1.lock_eq]; exact hlk
  rw [e1] at h
  simp only [Option.some_bind] at h
  by_cases ht : t = 0
  · rw [if_pos ht] at h
    simp only [Option.some.injEq, Prod.mk.injEq] at h
    rw [← h.2]; exact hlk1
  rw [if_neg ht] at h
  obtain ⟨k, n2, L2, hd2, e2, I2, F2, -, -, -⟩ := nshm_memalloc_spec I1 hlk1 (key.length : Int)
  have hlk2 : n2.lock_point = false := by rw [F2.lock_eq]; exact hlk1
  rw [e2] at h
  simp only [Option.some_bind] at h
  by_cases hk : k = 0
  · rw [if_pos hk] at h
    cases hm : nshm_memfree n2 t with
    | none => rw [hm] at h; exact absurd h (by simp)
    | some n3 =>
      rw [hm] at h
      simp only [Option.some_bind, Option.some.injEq, Prod.mk.injEq] at h
      rw [← h.2]; exact nshm_memfree_unlocked hlk2 hm
  rw [if_neg hk] at h
  cases h3 : store_bytes key n2 k with
  | none => rw [h3] at h; exact absurd h (by simp)
  | some n3 =>
  rw [h3] at h
  simp only [Option.some_bind] at h
  cases h4 : store n3 (t + tok_key_offset) (vos_assign n3._base k) with
  | none => rw [h4] at h; exact absurd h (by simp)
  | some n4 =>
  rw [h4] at h
  simp only [Option.some_bind] at h
  cases h5 : store n4 (t + tok_klen) (key.length : Int) with
  | none => rw [h5] at h; exact absurd h (by simp)
  | some n5 =>
  rw [h5] at h
  simp only [Option.some_bind] at h
  cases h6 : store n5 (t + tok_val_offset) (vos_assign n5._base val) with
  | none => rw [h6] at h; exact absurd h (by simp)
  | some n6 =>
  rw [h6] at h
  simp only [Option.some_bind] at h
  cases h7 : _lock_nshm n6 with
  | none => rw [h7] at h; exact absurd h (by simp)
  | some n7 =>
  rw [h7] at h
  simp only [Option.some_bind] at h
  cases hl : load n7 (n7._base + off_data + 8 * _get_key_hash key) with
  | none => rw [hl] at h; exact absurd h (by simp)
  | some head =>
  rw [hl] at h
  simp only [Option.some_bind] at h
  cases h8 : store n7 (t + tok_next_offset) head with
  | none => rw [h8] at h; exact absurd h (by simp)
  | some n8 =>
  rw [h8] at h
  simp only [Option.some_bind] at h
  cases h9 : store n8 (n8._base + off_data + 8 * _get_key_hash key) (vos_assign n8._base t) with
  | none => rw [h9] at h; exact absurd h (by simp)
  | some m9 =>
  rw [h9] at h
  simp only [Option.some_bind, Option.some.injEq, Prod.mk.injEq] at h
  rw [← h.2]; rfl

/-! ## The error path of `nshm_set`, and the entries of other keys -/

theorem request_class_tokarr : request_class sizeof_tokarr_t = some (32, 32, 8) := by decide!

/-- `nshm_set` returning -1, for any key, in a state of the invariant: the
invariant holds after the call, every cell from the bucket table on that is no
cell of a segment header is as it was, and when the entry node had been
allocated, its segment is the head of the free list of the class of 32 bytes
(`small_msegs[1]`, the cell at offset 32). -/
theorem nshm_set_error_spec {n : NShm} {L : Layout} {live : List Int}
    (I : Inv n._base n._size n.mem L live) (hlk : n.lock_point = false)
    {key : List Nat} {val : Int} {n9 : NShm} (h : nshm_set n key val = some (-1, n9)) :
    n9._base = n._base ∧ n9._size = n._size ∧
      ∃ L9, Inv n9._base n9._size n9.mem L9 live ∧ (∀ s ∈ L.segs, s ∈ L9.segs) ∧
        (∀ a, 696 ≤ a → (∀ s ∈ L9.segs, a ≠ s.1 ∧ a ≠ s.1 + 8) → n9.mem a = n.mem a) ∧
        (∀ t n1, 0 < key.length → nshm_memalloc n sizeof_tokarr_t = some (t, n1) → t ≠ 0 →
          n9.mem 32 = t - n._base - 16) := by
  unfold nshm_set at h
  by_cases hlen : (key.length : Int) ≤ 0
  · rw [if_pos hlen] at h
    simp only [Option.some.injEq, Prod.mk.injEq, true_and] at h
    subst h
    exact ⟨rfl, rfl, L, I, fun _ hs => hs, fun _ _ _ => rfl, fun t n1 hl => by omega⟩
  rw [if_neg hlen] at h
  simp only [Option.bind_eq_bind] at h
  cases hg : nshm_get n key with
  | none => rw [hg] at h; exact absurd h (by simp)
  | some found =>
  rw [hg] at h
  simp only [Option.some_bind] at h
  by_cases hf : found ≠ 0
  · rw [if_pos hf] at h
    simp only [Option.some.injEq, Prod.mk.injEq] at h
    omega
  rw [if_neg hf] at h
  obtain ⟨hc, hk8, -, -, ecl, -, -⟩ := request_class_spec n request_class_tokarr
  obtain ⟨t, n1, L1, e1, I1, F1, P1, -⟩ := alloc_class_spec I hlk hc hk8
  rw [← ecl] at e1
  have hlk1 : n1.lock_point = false := by rw [F1.lock_eq]; exact hlk
  rw [e1] at h
  simp only [Option.some_bind] at h
  by_cases ht : t = 0
  · rw [if_pos ht] at h
    simp only [Option.some.injEq, Prod.mk.injEq, true_and] at h
    subst h
    rw [if_pos ht] at I1
    refine ⟨F1.base_eq, F1.size_eq, L1, I1, F1.segs_sub,
      fun a ha hs => F1.keep hc.head_lt ha hs, ?_⟩
    intro t1 m1 _ em hne
    rw [e1] at em
    simp only [Option.some.injEq, Prod.mk.injEq] at em
    exact absurd (em.1 ▸ ht) hne
  rw [if_neg ht] at h I1
  obtain ⟨hseg1, -⟩ := P1 ht
  obtain ⟨k, n2, L2, hd2, e2, I2, F2, -, hd2b, -⟩ :=
    nshm_memalloc_spec I1 hlk1 (key.length : Int)
  have hlk2 : n2.lock_point = false := by rw [F2.lock_eq]; exact hlk1
  rw [e2] at h
  simp only [Option.some_bind] at h
  by_cases hk : k = 0
  · rw [if_pos hk] at h I2
    obtain ⟨n3, hd3, c3, hc3, hs3, a3, I3, F3, -⟩ :=
      nshm_memfree_spec I2 hlk2 (p := t) (by simp)
    rw [a3] at h
    simp only [Option.some_bind, Option.some.injEq, Prod.mk.injEq, true_and] at h
    subst h
    have el : (t :: live).erase t = live := by simp
    rw [el] at I3
    have eb2 : n2._base = n._base := by rw [F2.base_eq, F1.base_eq]
    refine ⟨by rw [F3.base_eq, eb2], by rw [F3.size_eq, F2.size_eq, F1.size_eq], _, I3, ?_, ?_,
      ?_⟩
    · intro s hs; exact F3.segs_sub _ (F2.segs_sub _ (F1.segs_sub _ hs))
    · intro a ha hs
      rw [F3.keep hc3.head_lt ha hs, F2.keep hd2b ha hs,
        F1.keep hc.head_lt ha (fun s hs1 => hs s (F2.segs_sub s hs1))]
    · intro t1 m1 _ em hne
      rw [e1] at em
      simp only [Option.some.injEq, Prod.mk.injEq] at em
      obtain ⟨rfl, -⟩ := em
      rw [eb2] at hs3
      have ec : c3 = 32 := I2.seg_unique hs3 (F2.segs_sub _ hseg1)
      subst ec
      have eh : hd3 = 32 := hc3.head_unique hc
      subst eh
      have hl : (⟨L2.segs, Function.update L2.fl 32 ((t - n2._base - 16) :: L2.fl 32)⟩ :
          Layout).fl 32 = (t - n2._base - 16) :: L2.fl 32 := by
        simp only [Function.update_same]
      rw [(I3.head_eq hc hl).1, eb2]
  rw [if_neg hk] at h
  exfalso
  cases h3 : store_bytes key n2 k with
  | none => rw [h3] at h; exact absurd h (by simp)
  | some n3 =>
  rw [h3] at h
  simp only [Option.some_bind] at h
  cases h4 : store n3 (t + tok_key_offset) (vos_assign n3._base k) with
  | none => rw [h4] at h; exact absurd h (by simp)
  | some n4 =>
  rw [h4] at h
  simp only [Option.some_bind] at h
  cases h5 : store n4 (t + tok_klen) (key.length : Int) with
  | none => rw [h5] at h; exact absurd h (by simp)
  | some n5 =>
  rw [h5] at h
  simp only [Option.some_bind] at h
  cases h6 : store n5 (t + tok_val_offset) (vos_assign n5._base val) with
  | none => rw [h6] at h; exact absurd h (by simp)
  | some n6 =>
  rw [h6] at h
  simp only [Option.some_bind] at h
  cases h7 : _lock_nshm n6 with
  | none => rw [h7] at h; exact absurd h (by simp)
  | some n7 =>
  rw [h7] at h
  simp only [Option.some_bind] at h
  cases hl : load n7 (n7._base + off_data + 8 * _get_key_hash key) with
  | none => rw [hl] at h; exact absurd h (by simp)
  | some head =>
  rw [hl] at h
  simp only [Option.some_bind] at h
  cases h8 : store n7 (t + tok_next_offset) head with
  | none => rw [h8] at h; exact absurd h (by simp)
  | some n8 =>
  rw [h8] at h
  simp only [Option.some_bind] at h
  cases h9 : store n8 (n8._base + off_data + 8 * _get_key_hash key) (vos_assign n8._base t) with
  | none => rw [h9] at h; exact absurd h (by simp)
  | some m9 =>
  rw [h9] at h
  simp only [Option.some_bind, Option.some.injEq, Prod.mk.injEq] at h
  omega

/-! ## What `nshm_set` keeps, for keys whose hash is a bucket index -/

/-- In a reachable state a call of `nshm_set` that returns -1, for any key,
leaves every bucket head as it was and `nshm_get` returns what it returned
before for every key whose hash is a bucket index; the entry node, when it had
been allocated, is back at the head of the free list of its class. -/
theorem set_error_keeps_index {n : NShm} {live : List Int} {keys : List (List Nat)}
    (hr : Reach n live keys) {key : List Nat} {val : Int} {n9 : NShm}
    (h : nshm_set n key val = some (-1, n9)) :
    (∀ b, 0 ≤ b → b < 1024 → n9.mem (off_data + 8 * b) = n.mem (off_data + 8 * b)) ∧
      (∀ k1, GoodKey k1 → nshm_get n9 k1 = nshm_get n k1) ∧
      (∀ t n1, 0 < key.length → nshm_memalloc n sizeof_tokarr_t = some (t, n1) → t ≠ 0 →
        n9.mem 32 = t - n._base - 16) := by
  obtain ⟨hlk, L, owned, ch, I, K, -⟩ := hr.full
  obtain ⟨eb, es, L9, I9, hsub, hcells, hpush⟩ := nshm_set_error_spec I hlk h
  refine ⟨?_, ?_, hpush⟩
  · intro b hb0 hb1
    refine hcells _ (by simp only [off_data]; omega) ?_
    intro s hs
    have := (I9.seg_ok s hs).1
    simp only [sizeof_nshm_base_t, off_data] at this ⊢
    omega
  · intro k1 hk1
    have I9' := I9
    rw [eb, es] at I9'
    have K9 : KV n9._base n9.mem L9 owned ch := by
      rw [eb]; exact K.preserved_by I9' hsub hcells
    rw [nshm_get_spec I9 K9 hk1, nshm_get_spec I K hk1, eb]

/-- A call of `nshm_set` on a key whose hash is a bucket index, in a state of
the allocator invariant and the index invariant: both hold after the call, for
the same chains when the result is not 1, and with one entry for the key put in
front of the chain of its bucket when the result is 1. -/
theorem nshm_set_index {n : NShm} {L : Layout} {live owned : List Int}
    {ch : Int → List Entry} (I : Inv n._base n._size n.mem L (live ++ owned))
    (K : KV n._base n.mem L owned ch) (hlk : n.lock_point = false) {key : List Nat}
    (hk : GoodKey key) {val r : Int} {n1 : NShm} (hc : nshm_set n key val = some (r, n1)) :
    n1._base = n._base ∧
      ∃ L1 owned1 ch1, Inv n1._base n1._size n1.mem L1 (live ++ owned1) ∧
        KV n1._base n1.mem L1 owned1 ch1 ∧
        ((r ≠ 1 ∧ ch1 = ch) ∨
          (r = 1 ∧ ∃ e : Entry, e.key = key ∧ e.vo = vos_assign n._base val ∧
            ch1 = Function.update ch (_get_key_hash key) (e :: ch (_get_key_hash key)))) := by
  rcases nshm_set_cases hc with ⟨_, hr1, rfl⟩ | ⟨_, _, _, _, hr1, rfl⟩ | ⟨hlen, hg⟩
  · exact ⟨rfl, L, owned, ch, I, K, Or.inl ⟨by omega, rfl⟩⟩
  · exact ⟨rfl, L, owned, ch, I, K, Or.inl ⟨by omega, rfl⟩⟩
  · obtain ⟨r', n1', L1, r1, r2, r3, r4, _, r6, r7⟩ := nshm_set_spec I hlk hk hlen hg val
    rw [hc] at r1
    obtain ⟨rfl, rfl⟩ := Prod.mk.inj (Option.some.inj r1)
    refine ⟨r3, L1, ?_⟩
    rcases r7 with ⟨hr1, I1, hcells⟩ | ⟨hr1, tk, kv, I1, H⟩
    · refine ⟨owned, ch, I1, ?_, Or.inl ⟨by omega, rfl⟩⟩
      rw [r3]
      have I1' := I1
      rw [r3, r4] at I1'
      exact K.preserved_by I1' r6 hcells
    · have hperm : (kv :: tk :: (live ++ owned)).Perm (live ++ kv :: tk :: owned) := by
        refine List.Perm.trans ?_ (List.perm_middle).symm
        exact List.Perm.cons _ (List.perm_middle).symm
      exact ⟨kv :: tk :: owned, _,
        I1.live_perm (fun p hp => hperm.mem_iff.mpr hp) (hperm.nodup_iff.mp I1.live_nodup),
        K.insert (fun p hp => List.mem_append_right _ hp) r3 I1 r6 hk hlen H,
        Or.inr ⟨hr1, _, rfl, rfl, rfl⟩⟩

/-- In a reachable state, for two different keys whose hashes are bucket
indices (the same bucket or not), `nshm_set` of the one, whatever it returns,
does not change what `nshm_get` returns for the other. -/
theorem set_keeps_other_key {n : NShm} {live : List Int} {keys : List (List Nat)}
    (hr : Reach n live keys) {k1 k2 : List Nat} (h1 : GoodKey k1) (h2 : GoodKey k2)
    (hne : k1 ≠ k2) {v2 r : Int} {n1 : NShm} (hs : nshm_set n k2 v2 = some (r, n1)) :
    nshm_get n1 k1 = nshm_get n k1 := by
  obtain ⟨hlk, L, owned, ch, I, K, -⟩ := hr.full
  obtain ⟨eb, L1, owned1, ch1, I1, K1, hch⟩ := nshm_set_index I K hlk h2 hs
  rw [nshm_get_spec I1 K1 h1, nshm_get_spec I K h1, eb]
  by_cases hl : k1.length = 0
  · rw [if_pos hl, if_pos hl]
  rw [if_neg hl, if_neg hl]
  rcases hch with ⟨-, rfl⟩ | ⟨-, e, he, -, rfl⟩
  · rfl
  · by_cases hb : _get_key_hash k1 = _get_key_hash k2
    · rw [hb, Function.update_same]
      have hek : ¬ e.key = k1 := by rw [he]; exact fun h => hne h.symm
      simp only [lookup]
      rw [if_neg hek]
    · rw [Function.update_noteq hb]

/-- In a reachable state every free list is a chain of distinct segment
headers inside the region, each with the class size of the list in `seg_siz`,
and the chain ends in -1. -/
theorem free_lists_wellformed {n : NShm} {live : List Int} {keys : List (List Nat)}
    (hr : Reach n live keys) {head c : Int} (hc : IsClass head c) :
    ∃ fl : List Int, FreeList n.mem (n.mem head) fl ∧ fl.Nodup ∧
      ∀ h ∈ fl, sizeof_nshm_base_t ≤ h ∧ h + 16 + c ≤ (n._size : Int) ∧
        n.mem (h + hdr_seg_siz) = c := by
  obtain ⟨-, L, owned, I⟩ := hr.inv
  exact ⟨L.fl head, I.free_list hc⟩

/-- The scenario of the fresh region of 1 MiB: `ptrA = nshm_memalloc(4)` is
13240, `nshm_set("alpha", ptrA)` returns 1, `ptrB = nshm_memalloc(4)` is 13176,
`nshm_set("beta", ptrB)` returns 1; then `nshm_get("alpha")` is `ptrA`,
`nshm_get("beta")` is `ptrB` and `nshm_get("gamma")` is `NULL`. -/
theorem scenario_alpha_beta :
    (nshm_memalloc arena_1MiB 4).bind (fun a =>
      (nshm_set a.2 [97, 108, 112, 104, 97] a.1).bind (fun s1 =>
        (nshm_memalloc s1.2 4).bind (fun b =>
          (nshm_set b.2 [98, 101, 116, 97] b.1).bind (fun s2 =>
            (nshm_get s2.2 [97, 108, 112, 104, 97]).bind (fun g1 =>
              (nshm_get s2.2 [98, 101, 116, 97]).bind (fun g2 =>
                (nshm_get s2.2 [103, 97, 109, 109, 97]).map (fun g3 =>
                  [a.1, s1.1, b.1, s2.1, g1, g2, g3]))))))) =
      some [13240, 1, 13176, 1, 13240, 13176, 0] := by
  decide!

/-- An address that `nshm_get` returns at one base is returned shifted to the
other base when the same region content is mapped there. -/
theorem nshm_get_rebased (n : NShm) (b2 : Int) (key : List Nat) (h1 : 8 < n._base)
    (h2 : 8 < b2) {r : Int} (hg : nshm_get n key = some r) (hr : r ≠ 0) :
    nshm_get (n.at_base b2) key = some (b2 + (r - n._base)) := by
  obtain ⟨o, e1, e2⟩ := nshm_get_at_base n b2 key h1 h2
  rw [e2]
  rw [e1] at hg
  cases o with
  | none => simp at hg
  | some vo =>
    simp only [Option.map_some', Option.some.injEq] at hg ⊢
    by_cases hvo : 0 < vo
    · rw [vos_ptr_pos hvo] at hg ⊢
      omega
    · have e3 : vos_ptr n._base vo = 0 := by unfold vos_ptr; rw [if_neg hvo]
      rw [e3] at hg
      exact absurd hg.symm hr

/-- In a reachable state, an entry that `nshm_set` has inserted for a key whose
hash is a bucket index, with a value address above the base, is found again
when the region is mapped at another base: `nshm_get` returns the address that
is as far above the new base as the value was above the old one. -/
theorem get_after_reattach {n : NShm} {live : List Int} {keys : List (List Nat)}
    {key : List Nat} {v : Int} {n1 : NShm} (hr : Reach n live keys) (hk : GoodKey key)
    (hv : n._base < v) (hs : nshm_set n key v = some (1, n1)) (b2 : Int)
    (h1 : 8 < n._base) (h2 : 8 < b2) :
    nshm_get (n1.at_base b2) key = some (b2 + (v - n._base)) := by
  obtain ⟨hlk, L, owned, ch, I, K, -⟩ := hr.full
  obtain ⟨eb, -⟩ := nshm_set_index I K hlk hk hs
  have hg := get_after_set hr hk hv hs
  have := nshm_get_rebased n1 b2 key (by rw [eb]; exact h1) h2 hg (by omega)
  rw [eb] at this
  exact this

/-! ## The claims -/

/-- For a request `s` with `1 ≤ s ≤ 1024` in a reachable state whose region
has room for a batch of 8 segments, `nshm_memalloc` serves the request from the
small class of index `(s-1)/16 = ⌈s/16⌉ - 1`, which lies in `0..63`, and returns
a block whose header stores `seg_siz = 16*⌈s/16⌉`, so `s ≤ seg_siz < s + 16`. -/
theorem small_request_reachable (n : NShm) (live : List Int) (keys : List (List Nat)) (s : Int)
    (hr : Reach n live keys)
    (h1 : 1 ≤ s) (h2 : s ≤ 1024)
    (hcap : n.free_offset + 8 * (16 + 16 * ((s + 15) / 16)) ≤ (n._size : Int)) :
    get_smallseg_index s = (s - 1) / 16 ∧ (s - 1) / 16 = (s + 15) / 16 - 1 ∧
      0 ≤ get_smallseg_index s ∧ get_smallseg_index s ≤ 63 ∧
      nshm_memalloc n s = alloc_class n (off_small_msegs + 8 * get_smallseg_index s)
        (get_smallseg_size (get_smallseg_index s)) _SMALL_MSEG_NMEMB ∧
      get_smallseg_size (get_smallseg_index s) = 16 * ((s + 15) / 16) ∧
      ∃ p n1, nshm_memalloc n s = some (p, n1) ∧ p ≠ 0 ∧
        load n1 (p - sizeof_shmem_hdr + hdr_seg_siz) = some (16 * ((s + 15) / 16)) ∧
        s ≤ 16 * ((s + 15) / 16) ∧ 16 * ((s + 15) / 16) - s < 16 := by
  obtain ⟨hlk, L, owned, I⟩ := hr.inv
  have ei := get_smallseg_index_eq h1 h2
  have es := get_smallseg_size_eq (i := (s - 1) / 16) (by omega) (by omega)
  have ec : (16 : Int) * ((s - 1) / 16 + 1) = 16 * ((s + 15) / 16) := by omega
  have hdef : nshm_memalloc n s = alloc_class n (off_small_msegs + 8 * get_smallseg_index s)
      (get_smallseg_size (get_smallseg_index s)) _SMALL_MSEG_NMEMB := by
    unfold nshm_memalloc _alloc_small_shmem
    rw [if_neg (by omega), if_pos (by unfold _SEGSIZE_THRESHOLD; exact h2)]
  refine ⟨ei, by omega, by rw [ei]; omega, by rw [ei]; omega, hdef, by rw [ei, es, ec], ?_⟩
  have hc : IsClass (off_small_msegs + 8 * get_smallseg_index s) (16 * ((s + 15) / 16)) := by
    left
    refine ⟨((s - 1) / 16).toNat, by omega, ?_, ?_⟩
    · rw [ei, Int.toNat_of_nonneg (by omega)]
    · rw [Int.toNat_of_nonneg (by omega)]; omega
  obtain ⟨p, n1, r1, r2, r3⟩ := alloc_class_block I hlk hc (k := 8) (by norm_num)
    (by push_cast; omega)
  refine ⟨p, n1, ?_, r2, r3, by omega, by omega⟩
  have e3 : get_smallseg_size (get_smallseg_index s) = 16 * ((s + 15) / 16) := by
    rw [ei, es, ec]
  rw [hdef, e3]
  exact r1

/-- Example: a request of 4 bytes on the fresh region of 1 MiB. -/
theorem small_request_example :
    Reach arena_1MiB [] [] ∧ get_smallseg_index 4 = (4 - 1) / 16 ∧
      get_smallseg_size (get_smallseg_index 4) = 16 * ((4 + 15) / 16) ∧
      ∃ p n1, nshm_memalloc arena_1MiB 4 = some (p, n1) ∧ p ≠ 0 ∧
        load n1 (p - sizeof_shmem_hdr + hdr_seg_siz) = some (16 * ((4 + 15) / 16)) ∧
        (4 : Int) ≤ 16 * ((4 + 15) / 16) ∧ (16 : Int) * ((4 + 15) / 16) - 4 < 16 :=
  have h := small_request_reachable arena_1MiB [] [] 4 reach_created_1MiB (by decide) (by decide)
    (by decide!)
  ⟨reach_created_1MiB, h.1, h.2.2.2.2.2.1, h.2.2.2.2.2.2⟩

/-- For a request `s` with `1024 < s ≤ 2^30`, `get_bigseg_index` ends with an
index `k` in `0..19`, `get_bigseg_size k` is `2048*2^k` computed without leaving
`int32_t`, and that is the least `2048*2^j` that is `≥ s`; in a reachable state
whose region has room for a batch of 4 segments, `nshm_memalloc` returns a
block whose header stores that size. -/
theorem big_request_reachable (n : NShm) (live : List Int) (keys : List (List Nat)) (s : Int)
    (hr : Reach n live keys)
    (h1 : 1024 < s) (h2 : s ≤ 1073741824) :
    ∃ k : Nat, k < 20 ∧ get_bigseg_index s = some (k : Int) ∧
      get_bigseg_size (k : Int) = 2048 * 2 ^ k ∧ (2048 : Int) * 2 ^ k < 2147483648 ∧
      s ≤ 2048 * 2 ^ k ∧ (∀ j : Nat, s ≤ 2048 * 2 ^ j → (2048 : Int) * 2 ^ k ≤ 2048 * 2 ^ j) ∧
      (n.free_offset + 4 * (16 + 2048 * 2 ^ k) ≤ (n._size : Int) →
        ∃ p n1, nshm_memalloc n s = some (p, n1) ∧ p ≠ 0 ∧
          load n1 (p - sizeof_shmem_hdr + hdr_seg_siz) = some (2048 * 2 ^ k)) := by
  obtain ⟨hlk, L, owned, I⟩ := hr.inv
  obtain ⟨k, hk, hk1, hk2⟩ := big_class_exists h1 19 (by norm_num; omega)
  have hk' : k < 20 := by omega
  have ei := get_bigseg_index_eq hk' hk1 hk2
  have es := get_bigseg_size_eq hk'
  have h19 : (2 : Int) ^ k ≤ 2 ^ 19 := two_pow_le_of_le (by omega)
  norm_num at h19
  refine ⟨k, hk', ei, es, by omega, hk2, ?_, ?_⟩
  · intro j hj
    have hlt : (2 : Int) ^ k < 2 ^ (j + 1) := by
      have e2 : (2 : Int) ^ (j + 1) = 2 ^ j * 2 := pow_succ 2 j
      rw [e2]; omega
    have hkj : k ≤ j := by have := two_pow_lt_of_lt hlt; omega
    have := two_pow_le_of_le hkj
    omega
  · intro hcap
    have hc : IsClass (off_big_msegs + 8 * (k : Int)) (2048 * 2 ^ k) :=
      Or.inr ⟨k, hk', rfl, rfl⟩
    obtain ⟨p, n1, r1, r2, r3⟩ := alloc_class_block I hlk hc (k := 4) (by norm_num)
      (by push_cast; omega)
    refine ⟨p, n1, ?_, r2, r3⟩
    unfold nshm_memalloc _alloc_big_shmem
    rw [if_neg (by omega), if_neg (by unfold _SEGSIZE_THRESHOLD; omega),
      if_pos (by unfold _MAX_ALLOCSIZE; omega)]
    simp only [ei, Option.bind_eq_bind, Option.some_bind, es, _BIG_MSEG_NMEMB]
    exact r1

/-- Example: a request of 3000 bytes on the fresh region of 1 MiB is
served from big class 1 with blocks of 4096 bytes. -/
theorem big_request_example :
    Reach arena_1MiB [] [] ∧ get_bigseg_index 3000 = some 1 ∧ get_bigseg_size 1 = 4096 ∧
      ∃ k : Nat, k < 20 ∧ get_bigseg_index 3000 = some (k : Int) ∧
        get_bigseg_size (k : Int) = 2048 * 2 ^ k ∧ (2048 : Int) * 2 ^ k < 2147483648 ∧
        (3000 : Int) ≤ 2048 * 2 ^ k ∧
        (∀ j : Nat, (3000 : Int) ≤ 2048 * 2 ^ j → (2048 : Int) * 2 ^ k ≤ 2048 * 2 ^ j) ∧
        (arena_1MiB.free_offset + 4 * (16 + 2048 * 2 ^ k) ≤ (arena_1MiB._size : Int) →
          ∃ p n1, nshm_memalloc arena_1MiB 3000 = some (p, n1) ∧ p ≠ 0 ∧
            load n1 (p - sizeof_shmem_hdr + hdr_seg_siz) = some (2048 * 2 ^ k)) :=
  ⟨reach_created_1MiB, by decide!, by decide!,
    big_request_reachable arena_1MiB [] [] 3000 reach_created_1MiB (by decide) (by decide)⟩

/-- C3: in every state reached by `nshm_memalloc` / `nshm_memfree` calls (free
only of blocks that are held), the held blocks are pairwise distinct; each
block `[p, p + class size)` starts behind the arena header and its own segment
header and ends inside the region; the block of one held segment overlaps
neither the block nor the header of another held segment, nor any segment on a
free list; and the addresses that repeated `nshm_memalloc(s)` calls return are
pairwise distinct and distinct from every block already held. -/
theorem C3_live_blocks_apart (n : NShm) (live : List Int) (keys : List (List Nat))
    (hr : Reach n live keys) :
    live.Nodup ∧
      (∀ p ∈ live, load n (p - sizeof_shmem_hdr + hdr_seg_siz) = some (block_size n p) ∧
        0 < block_size n p ∧
        sizeof_nshm_base_t + sizeof_shmem_hdr ≤ p - n._base ∧
        p - n._base + block_size n p ≤ (n._size : Int)) ∧
      (∀ p ∈ live, ∀ q ∈ live, p ≠ q →
        p + block_size n p ≤ q - sizeof_shmem_hdr ∨ q + block_size n q ≤ p - sizeof_shmem_hdr) ∧
      (∀ head c h, IsClass head c → FreeReach n.mem (n.mem head) h → ∀ p ∈ live,
        h + sizeof_shmem_hdr + c ≤ p - n._base - sizeof_shmem_hdr ∨
          p - n._base + block_size n p ≤ h) ∧
      (∀ (s : Int) (k : Nat) (ps : List Int) (n1 : NShm),
        alloc_repeat s k n = some (ps, n1) → (∀ p ∈ ps, p ≠ 0) →
        ps.Nodup ∧ ∀ p ∈ ps, p ∉ live) := by
  obtain ⟨hlk, L, owned, I⟩ := hr.inv
  have hfle := I.fo_le
  -- every held block is the block of a segment of the layout
  have hseg : ∀ p ∈ live, ∃ head, IsClass head (block_size n p) ∧
      (p - n._base - 16, block_size n p) ∈ L.segs ∧ p - n._base - 16 ∉ L.fl head := by
    intro p hp
    obtain ⟨head, c, g1, g2, g3⟩ := I.live_ok p (List.mem_append_left _ hp)
    have := (I.seg_ok _ g2).2.2.1
    have e : block_size n p = c := by
      unfold block_size; simp only [sizeof_shmem_hdr]; exact this
    rw [e]; exact ⟨head, g1, g2, g3⟩
  refine ⟨(List.nodup_append.mp I.live_nodup).1, ?_, ?_, ?_, ?_⟩
  · intro p hp
    obtain ⟨head, hc, hs, _⟩ := hseg p hp
    obtain ⟨g1, g2, g3, g4⟩ := I.seg_ok _ hs
    have hpos := hc.size_pos
    simp only [sizeof_nshm_base_t, sizeof_shmem_hdr, hdr_seg_siz] at g1 g2 g3 ⊢
    refine ⟨?_, hpos, by omega, by omega⟩
    rw [← g3]
    exact load_at (by ring) (by omega) (by omega)
  · intro p hp q hq hne
    obtain ⟨hd1, hc1, hs1, _⟩ := hseg p hp
    obtain ⟨hd2, hc2, hs2, _⟩ := hseg q hq
    simp only [sizeof_shmem_hdr]
    rcases I.seg_disj _ hs1 _ hs2 with e | e | e
    · exfalso; apply hne
      have := (Prod.mk.inj e).1
      omega
    · left; simp only at e; omega
    · right; simp only at e; omega
  · intro head c h hc hreach p hp
    obtain ⟨hd1, hc1, hs1, hnf⟩ := hseg p hp
    obtain ⟨f1, f2, f3⟩ := I.fl_ok head c hc
    have hm : h ∈ L.fl head := FreeList.reach_mem hreach f1
    have hs2 := f3 h hm
    simp only [sizeof_shmem_hdr]
    rcases I.seg_disj _ hs1 _ hs2 with e | e | e
    · exfalso
      obtain ⟨e1, e2⟩ := Prod.mk.inj e
      rw [e2] at hc1
      have := hc1.head_unique hc
      subst this
      rw [e1] at hnf
      exact hnf hm
    · right; simp only at e; omega
    · left; simp only at e; omega
  · intro s k ps n1 ha hne
    have hr1 := alloc_repeat_reach s k n live ps keys n1 hr ha hne
    obtain ⟨_, L1, owned1, I1⟩ := hr1.inv
    have hn := (List.nodup_append.mp I1.live_nodup).1
    obtain ⟨h1, _, h3⟩ := List.nodup_append.mp hn
    refine ⟨List.nodup_reverse.mp h1, ?_⟩
    intro p hp hpl
    exact h3 (List.mem_reverse.mpr hp) hpl

/-- Witness of C3: the fresh region of 1 MiB; three `nshm_memalloc(1024)` calls
return three addresses. -/
theorem C3_live_blocks_apart_witness :
    Reach arena_1MiB [] [] ∧
      ∃ ps n1, alloc_repeat 1024 3 arena_1MiB = some (ps, n1) ∧
        ps = [20296, 19256, 18216] ∧ ps.Nodup := by
  have h : (alloc_repeat 1024 3 arena_1MiB).map Prod.fst = some [20296, 19256, 18216] := by
    decide!
  obtain ⟨n1, h1⟩ := map_fst_some h
  exact ⟨reach_created_1MiB, _, n1, h1, rfl,
    ((C3_live_blocks_apart arena_1MiB [] [] reach_created_1MiB).2.2.2.2 1024 3 _ n1 h1
      (by decide)).1⟩

/-- In a reachable state, when `nshm_memalloc(s)` with `1 ≤ s ≤ 2^30` has
returned a block `p`, `nshm_memfree(p)` followed by `nshm_memalloc(s1)` for a
request `s1` of the same size class returns `p` again, and the cursor after
the second allocation is the cursor before the free. -/
theorem free_then_alloc_reachable (n : NShm) (live : List Int) (keys : List (List Nat))
    (s s1 p : Int) (n1 : NShm)
    (hr : Reach n live keys) (hs1 : 1 ≤ s) (hs2 : s ≤ 1073741824) (ht1 : 1 ≤ s1)
    (ht2 : s1 ≤ 1073741824) (hsame : SameClass s s1)
    (ha : nshm_memalloc n s = some (p, n1)) (hp : p ≠ 0) :
    ∃ n2 n3, nshm_memfree n1 p = some n2 ∧ nshm_memalloc n2 s1 = some (p, n3) ∧
      n3.free_offset = n1.free_offset := by
  obtain ⟨hlk, L, owned, I⟩ := hr.inv
  -- the class of the two requests
  obtain ⟨head, c, k, hc, hk, hsc, e, hsm, hbg⟩ := nshm_memalloc_class n (s := s) hs1 hs2
  have hcls : ∀ m : NShm, nshm_memalloc m s1 = alloc_class m head c k := by
    intro m
    obtain ⟨head1, c1, k1, hc1, hk1, hsc1, e1, hsm1, hbg1⟩ :=
      nshm_memalloc_class m (s := s1) ht1 ht2
    rw [e1]
    unfold SameClass _SEGSIZE_THRESHOLD at hsame
    rcases hsame with ⟨a1, a2, a3⟩ | ⟨a1, a2, a3⟩
    · obtain ⟨x1, x2, x3⟩ := hsm a1
      obtain ⟨y1, y2, y3⟩ := hsm1 a2
      rw [get_smallseg_index_eq hs1 a1, get_smallseg_index_eq ht1 a2] at a3
      rw [x1, x2, x3, y1, y2, y3, a3]
    · obtain ⟨j, x0, x1, x2, x3, x4⟩ := hbg a1
      obtain ⟨j1, y0, y1, y2, y3, y4⟩ := hbg1 a2
      have z1 := get_bigseg_index_eq x0 x3 (by rw [← x2]; exact hsc)
      have z2 := get_bigseg_index_eq y0 y3 (by rw [← y2]; exact hsc1)
      rw [z1, z2] at a3
      have : j = j1 := by
        have := Option.some.inj a3
        exact_mod_cast this
      subst this
      rw [x1, x2, x4, y1, y2, y4]
  -- the first allocation
  obtain ⟨p', n1', L1, r1, r2, r3, r4, r5⟩ := alloc_class_spec I hlk hc hk
  rw [← e, ha] at r1
  obtain ⟨rfl, rfl⟩ := Prod.mk.inj (Option.some.inj r1)
  rw [if_neg hp] at r2
  have lk1 : n1.lock_point = false := by rw [r3.lock_eq]; exact hlk
  -- the free
  obtain ⟨n2, head2, c2, hc2, hs2', f1, f2, f3, f4⟩ :=
    nshm_memfree_spec r2 lk1 (p := p) (by simp)
  have ec : c2 = c := by
    have := (r4 hp).1
    rw [← r3.base_eq] at this
    exact r2.seg_unique hs2' this
  subst ec
  have eh : head2 = head := hc2.head_unique hc
  subst eh
  have lk2 : n2.lock_point = false := by rw [f3.lock_eq]; exact lk1
  -- the second allocation pops the block just pushed
  obtain ⟨n3, g1, g2, g3, g4⟩ := alloc_class_pop f2 lk2 hc2
    (h := p - n1._base - 16) (t := L1.fl head2) (by simp) k
  refine ⟨n2, n3, f1, ?_, by rw [g4, f4]⟩
  rw [hcls n2, g1]
  have : n2._base + (p - n1._base - 16) + 16 = p := by rw [f3.base_eq]; omega
  rw [this]

/-- Example: on the fresh region of 1 MiB a block of 4 bytes is
allocated, freed, and a request of 10 bytes gets the same block. -/
theorem free_then_alloc_example :
    Reach arena_1MiB [] [] ∧ SameClass 4 10 ∧
      ∃ p n1 n2 n3, nshm_memalloc arena_1MiB 4 = some (p, n1) ∧ p = 13240 ∧
        nshm_memfree n1 p = some n2 ∧ nshm_memalloc n2 10 = some (p, n3) ∧
        n3.free_offset = n1.free_offset := by
  have h : (nshm_memalloc arena_1MiB 4).map Prod.fst = some 13240 := by decide!
  have hsame : SameClass 4 10 := Or.inl (by decide!)
  obtain ⟨n1, h1⟩ := map_fst_some h
  obtain ⟨n2, n3, h2, h3, h4⟩ := free_then_alloc_reachable arena_1MiB [] [] 4 10 13240 n1
    reach_created_1MiB (by decide) (by decide) (by decide) (by decide) hsame h1 (by decide)
  exact ⟨reach_created_1MiB, hsame, 13240, n1, n2, n3, h1, rfl, h2, h3, h4⟩

/-- C5 (amended): in a reachable state, for a key whose hash is a bucket index
and a value address `v` strictly above the mapping base, when `nshm_set(k, v)`
returns 1 (inserted), `nshm_get(k)` returns exactly `v`. -/
theorem C5_get_returns_inserted (n : NShm) (live : List Int) (keys : List (List Nat))
    (key : List Nat) (v : Int)
    (n1 : NShm) (hr : Reach n live keys) (hk : GoodKey key) (hv : n._base < v)
    (hs : nshm_set n key v = some (1, n1)) : nshm_get n1 key = some v :=
  get_after_set hr hk hv hs

/-- Witness of C5: key "a" with the value address 5000 on the fresh region of
1 MiB mapped at 4096. -/
theorem C5_get_returns_inserted_witness :
    Reach arena_1MiB [] [] ∧ GoodKey [97] ∧ arena_1MiB._base < 5000 ∧
      ∃ n1, nshm_set arena_1MiB [97] 5000 = some (1, n1) ∧ nshm_get n1 [97] = some 5000 := by
  have h : (nshm_set arena_1MiB [97] 5000).map Prod.fst = some 1 := by decide!
  obtain ⟨n1, h1⟩ := map_fst_some h
  exact ⟨reach_created_1MiB, by decide, by decide, n1, h1,
    C5_get_returns_inserted arena_1MiB [] [] [97] 5000 n1 reach_created_1MiB (by decide)
      (by decide) h1⟩

/-- C5 fails as stated, on three inputs.  (a) The value address is the mapping
base itself (4096, inside the region): `nshm_set` returns 1 and `nshm_get`
returns `NULL`.  (b) The key is already present with value 5000: `nshm_set` of
6000 returns 0 and `nshm_get` returns 5000.  (c) The region is exhausted:
`nshm_set` returns -1 and `nshm_get` returns `NULL`. -/
theorem C5_counterexample :
    (Reach arena_1MiB [] [] ∧ arena_1MiB.mapped 4096 ∧
      (nshm_set arena_1MiB [97] 4096).bind
        (fun r => (nshm_get r.2 [97]).map (fun g => (r.1, g))) = some (1, 0)) ∧
    (arena_1MiB.mapped 6000 ∧
      (nshm_set arena_1MiB [97] 5000).bind (fun r1 =>
        (nshm_set r1.2 [97] 6000).bind (fun r2 =>
          (nshm_get r2.2 [97]).map (fun g => (r1.1, r2.1, g)))) = some (1, 0, 5000)) ∧
    (Reach arena_tiny [] [] ∧ arena_tiny.mapped 5000 ∧
      (nshm_set arena_tiny [97] 5000).bind
        (fun r => (nshm_get r.2 [97]).map (fun g => (r.1, g))) = some (-1, 0)) :=
  ⟨⟨reach_created_1MiB, by decide, by decide!⟩, ⟨by decide, by decide!⟩,
    ⟨reach_created_tiny, by decide, by decide!⟩⟩

/-- C6 (amended): in a reachable state, for a key whose hash is a bucket index
and a value address `v1` strictly above the mapping base, when `nshm_set(k, v1)`
returns 1 (inserted), a following `nshm_set(k, v2)` returns 0 and leaves the
state as it is (no node is added, nothing is allocated), and `nshm_get(k)`
returns `v1`. -/
theorem C6_first_write_wins (n : NShm) (live : List Int) (keys : List (List Nat))
    (key : List Nat) (v1 v2 : Int)
    (n1 : NShm) (hr : Reach n live keys) (hk : GoodKey key) (hv : n._base < v1)
    (hs : nshm_set n key v1 = some (1, n1)) :
    nshm_set n1 key v2 = some (0, n1) ∧ nshm_get n1 key = some v1 := by
  have hg := get_after_set hr hk hv hs
  refine ⟨?_, hg⟩
  obtain ⟨_, L, owned, I⟩ := hr.inv
  have hb := I.base_pos
  have hlen : ¬ ((key.length : Int) ≤ 0) := by
    rcases nshm_set_cases hs with ⟨_, h, _⟩ | ⟨h, _⟩ | ⟨h, _⟩ <;> omega
  unfold nshm_set
  rw [if_neg hlen, hg]
  simp only [Option.bind_eq_bind, Option.some_bind]
  rw [if_pos (by omega)]

/-- Witness of C6: key "a" set to 5000 and then to 6000 on the fresh region of
1 MiB mapped at 4096. -/
theorem C6_first_write_wins_witness :
    Reach arena_1MiB [] [] ∧ GoodKey [97] ∧ arena_1MiB._base < 5000 ∧
      ∃ n1, nshm_set arena_1MiB [97] 5000 = some (1, n1) ∧
        nshm_set n1 [97] 6000 = some (0, n1) ∧ nshm_get n1 [97] = some 5000 := by
  have h : (nshm_set arena_1MiB [97] 5000).map Prod.fst = some 1 := by decide!
  obtain ⟨n1, h1⟩ := map_fst_some h
  exact ⟨reach_created_1MiB, by decide, by decide, n1, h1,
    C6_first_write_wins arena_1MiB [] [] [97] 5000 6000 n1 reach_created_1MiB (by decide)
      (by decide) h1⟩

/-- C6 fails as stated, on three inputs.  (a) `v1` is the mapping base itself
(4096): the second `nshm_set` returns 1, a second node is linked (the head of
bucket 97 moves from offset 9256 to offset 9208), and `nshm_get` returns
`v2 = 6000`.  (b) The key is already present
with value 5000: `nshm_set` of `v1 = 6000` and of `v2 = 7000` both return 0 and
`nshm_get` returns 5000.  (c) The region is exhausted: both calls return -1
and `nshm_get` returns `NULL`. -/
theorem C6_counterexample :
    ((nshm_set arena_1MiB [97] 4096).bind (fun r1 =>
        (nshm_set r1.2 [97] 6000).bind (fun r2 =>
          (nshm_get r2.2 [97]).map (fun g =>
            (r1.1, r2.1, g, r1.2.mem (off_data + 8 * 97), r2.2.mem (off_data + 8 * 97))))) =
      some (1, 1, 6000, 9256, 9208)) ∧
    ((nshm_set arena_1MiB [97] 5000).bind (fun r0 =>
        (nshm_set r0.2 [97] 6000).bind (fun r1 =>
          (nshm_set r1.2 [97] 7000).bind (fun r2 =>
            (nshm_get r2.2 [97]).map (fun g => (r0.1, r1.1, r2.1, g))))) =
      some (1, 0, 0, 5000)) ∧
    ((nshm_set arena_tiny [97] 5000).bind (fun r1 =>
        (nshm_set r1.2 [97] 6000).bind (fun r2 =>
          (nshm_get r2.2 [97]).map (fun g => (r1.1, r2.1, g)))) = some (-1, -1, 0)) :=
  ⟨by decide!, by decide!, by decide!⟩

/-- C7: on the fresh region of 1 MiB, where no key has been inserted,
`nshm_get` of the one-byte key `0xAB` does not return not-found.  Its hash is
-85, `data[-85]` is the cursor (8904), the walk takes the zero-filled bytes at
the cursor for an entry whose `next_offset` is 0, and offset 0 is translated to
`NULL`, whose dereference faults. -/
theorem C7_get_faults :
    Reach arena_1MiB [] [] ∧
      load arena_1MiB (arena_1MiB._base + off_data + 8 * _get_key_hash [171]) = some 8904 ∧
      load arena_1MiB (vos_ptr arena_1MiB._base 8904 + tok_klen) = some 0 ∧
      load arena_1MiB (vos_ptr arena_1MiB._base 8904 + tok_next_offset) = some 0 ∧
      load arena_1MiB (vos_ptr arena_1MiB._base 0 + tok_klen) = none ∧
      nshm_get arena_1MiB [171] = none :=
  ⟨reach_created_1MiB, by decide!, by decide!, by decide!, by decide!, by decide!⟩

/-- C8: the hash of the one-byte key `0xAB` is -85, which is neither the byte
sum modulo 1024 (171) nor a bucket index; `data[-85]` is the cell of the
cursor. -/
theorem C8_hash_negative :
    _get_key_hash [171] = -85 ∧ _get_key_hash [171] ≠ (171 : Int) % 1024 ∧
      ¬ (0 ≤ _get_key_hash [171]) ∧
      off_data + 8 * _get_key_hash [171] = off_free_offset := by
  decide!

/-- C9: on the fresh region of 4 GiB, `shmalloc(2147483647)` returns `NULL` and
leaves the cursor at 8904, although the cursor plus the size rounded up to a
multiple of 8 (`2^31`) is not beyond the end of the region: `size + 7` leaves
`int32_t` and the rounded size becomes `-2^31`. -/
theorem C9_rounding_overflow :
    Reach arena_4GiB [] [] ∧ round8 2147483647 = 2147483648 ∧
      arena_4GiB.free_offset + round8 2147483647 ≤ (arena_4GiB._size : Int) ∧
      mask_align (wrap32 (2147483647 + _ALIGNMENT_BYTE - 1)) = -2147483648 ∧
      (shmalloc arena_4GiB 2147483647).map (fun r => (r.1, r.2.free_offset)) =
        some (0, 8904) :=
  ⟨reach_created_4GiB, by decide!, by decide!, by decide!, by decide!⟩

/-- C10: on the fresh region of 4 GiB, after two calls `shmalloc(2^30)` the
cursor is `8904 + 2^31`; the call `shmalloc(2147483647)` then returns a block
and sets the cursor back to 8904, so `nshm_get_restbyte` grows from 2147474744
to 4294958392. -/
theorem C10_cursor_moves_back :
    Reach arena_4GiB [] [] ∧
      (shmalloc arena_4GiB 1073741824).bind (fun r1 =>
        (shmalloc r1.2 1073741824).bind (fun r2 =>
          (shmalloc r2.2 2147483647).map (fun r3 =>
            (r2.2.free_offset, nshm_get_restbyte r2.2, r3.1, r3.2.free_offset,
              nshm_get_restbyte r3.2)))) =
        some (2147492552, 2147474744, 2147496648, 8904, 4294958392) :=
  ⟨reach_created_4GiB, by decide!⟩

/-- C11: on the fresh region of 9388 bytes `nshm_set("a", 5000)` allocates the
entry node (block 13352, header at offset 9240), fails to allocate the key
copy, frees the node and returns -1; the node is then the head of the free list
of its class (`small_msegs[1]`, the cell at offset 32).  The one-byte key `0xAD`
has hash -83, and `data[-83]` is that cell: before the call it holds -1 and
`nshm_get` of the key returns `NULL`; after the call it holds 9240, the walk
takes the freed segment for an entry (`klen` 32, `next_offset` 0), follows
offset 0 to `NULL` and faults.  So `nshm_get` does not return the same result
for every key as before the call. -/
theorem C11_error_changes_lookup :
    Reach arena_9388 [] [] ∧ _get_key_hash [173] = -83 ∧
      off_data + 8 * _get_key_hash [173] = off_small_msegs + 8 * 1 ∧
      (nshm_memalloc arena_9388 sizeof_tokarr_t).bind (fun a =>
        (nshm_memalloc a.2 1).map (fun b => [a.1, b.1])) = some [13352, 0] ∧
      arena_9388.mem 32 = -1 ∧ nshm_get arena_9388 [173] = some 0 ∧
      (nshm_set arena_9388 [97] 5000).map
        (fun r => [r.1, r.2.mem 32, r.2.mem (9240 + tok_klen), r.2.mem (9240 + tok_next_offset)]) =
        some [-1, 9240, 32, 0] ∧
      (nshm_set arena_9388 [97] 5000).bind (fun r => nshm_get r.2 [173]) = none :=
  ⟨reach_created_9388, by decide!, by decide!, by decide!, by decide!, by decide!, by decide!,
    by decide!⟩

/-- C12: for a size that is not positive or that is above 1 GiB (`2^30`),
`nshm_memalloc` returns `NULL` and the state it leaves is the state it was
called in: the cursor, every free-list head and every bucket head are as they
were, and so is every other cell of the region. -/
theorem C12_request_rejected (n : NShm) (s : Int) (h : s ≤ 0 ∨ 1073741824 < s) :
    nshm_memalloc n s = some (0, n) ∧
      ∀ p n1, nshm_memalloc n s = some (p, n1) →
        p = 0 ∧ n1.free_offset = n.free_offset ∧ n1.mem = n.mem ∧
          n1.lock_point = n.lock_point := by
  have e := nshm_memalloc_reject n h
  refine ⟨e, ?_⟩
  intro p n1 h1
  rw [e] at h1
  obtain ⟨rfl, rfl⟩ := Prod.mk.inj (Option.some.inj h1)
  exact ⟨rfl, rfl, rfl, rfl⟩

/-- Witness of C12: the sizes 0 and `2^30 + 1` on the fresh region of 1 MiB. -/
theorem C12_request_rejected_witness :
    nshm_memalloc arena_1MiB 0 = some (0, arena_1MiB) ∧
      nshm_memalloc arena_1MiB 1073741825 = some (0, arena_1MiB) :=
  ⟨(C12_request_rejected arena_1MiB 0 (Or.inl (by decide))).1,
    (C12_request_rejected arena_1MiB 1073741825 (Or.inr (by decide))).1⟩

/-- C13: on the fresh region of 1 MiB, take `k1` the one-byte key `0xAD` and
`k2` the key "a".  The hash of `k1` is -83 and `data[-83]` is `small_msegs[1]`,
the head of the free list of the class of 32 bytes.  Before `nshm_set(k2, 5000)`
that list is empty and `nshm_get(k1)` returns `NULL`; the call returns 1 and
leaves seven segments on the list, and `nshm_get(k1)` then takes the first of
them for an entry, follows its offset 0 to `NULL` and faults.  So `nshm_set` of
`k2` changes the result of `nshm_get` of the other key `k1`. -/
theorem C13_set_changes_other_lookup :
    Reach arena_1MiB [] [] ∧ ([173] : List Nat) ≠ [97] ∧ _get_key_hash [173] = -83 ∧
      off_data + 8 * _get_key_hash [173] = off_small_msegs + 8 * 1 ∧
      nshm_get arena_1MiB [173] = some 0 ∧
      (nshm_set arena_1MiB [97] 5000).map
        (fun r => [r.1, r.2.mem 32, r.2.mem (9192 + tok_klen), r.2.mem (9192 + tok_next_offset)]) =
        some [1, 9192, 32, 0] ∧
      (nshm_set arena_1MiB [97] 5000).bind (fun r => nshm_get r.2 [173]) = none :=
  ⟨reach_created_1MiB, by decide, by decide!, by decide!, by decide!, by decide!, by decide!⟩

/-- C14: let the same region content be mapped at the base of the handle and at
a second base `b2`, both above address 8 (a mapping never contains the page of
`NULL`).  When `nshm_get` returns an address `r` that is not `NULL` at the first
base, it returns `b2 + (r - base)` at the second; it returns not-found at the
one exactly when it does at the other, and it faults at the one exactly when it
does at the other. -/
theorem C14_lookup_base_independent (n : NShm) (b2 : Int) (key : List Nat)
    (h1 : 8 < n._base) (h2 : 8 < b2) :
    (∀ r, nshm_get n key = some r → r ≠ 0 →
        nshm_get (n.at_base b2) key = some (b2 + (r - n._base))) ∧
      (nshm_get n key = some 0 ↔ nshm_get (n.at_base b2) key = some 0) ∧
      (nshm_get n key = none ↔ nshm_get (n.at_base b2) key = none) := by
  obtain ⟨o, e1, e2⟩ := nshm_get_at_base n b2 key h1 h2
  rw [e1, e2]
  cases o with
  | none => simp
  | some vo =>
    simp only [Option.map_some', Option.some.injEq, reduceCtorEq, iff_self, and_true]
    by_cases hvo : 0 < vo
    · rw [vos_ptr_pos hvo, vos_ptr_pos hvo]
      refine ⟨?_, ?_⟩
      · intro r hr _
        rw [← hr]; omega
      · constructor <;> intro h <;> omega
    · have e3 : vos_ptr n._base vo = 0 := by unfold vos_ptr; rw [if_neg hvo]
      have e4 : vos_ptr b2 vo = 0 := by unfold vos_ptr; rw [if_neg hvo]
      rw [e3, e4]
      refine ⟨?_, by simp⟩
      intro r hr hne
      exact absurd hr.symm hne

/-- Witness of C14: on the fresh region of 1 MiB mapped at 4096, the key "a" is
set to the address 5000, which is offset 904; with the region mapped at 8192
`nshm_get` returns `8192 + 904`. -/
theorem C14_lookup_base_independent_witness :
    ∃ n1, nshm_set arena_1MiB [97] 5000 = some (1, n1) ∧ nshm_get n1 [97] = some 5000 ∧
      nshm_get (n1.at_base 8192) [97] = some (8192 + 904) := by
  have h : (nshm_set arena_1MiB [97] 5000).map (fun r => (r.1, r.2._base)) =
      some (1, 4096) := by decide!
  obtain ⟨n1, hs, hb⟩ := map_pair_some h
  have hg := get_after_set reach_created_1MiB (by decide) (by decide) hs
  have hc := (C14_lookup_base_independent n1 8192 [97] (by rw [hb]; decide) (by decide)).1
    5000 hg (by decide)
  rw [hb] at hc
  exact ⟨n1, hs, hg, hc⟩

/-- In a reachable state, let the request `s` be served from the class with
head cell `head`, class size `c` and batch size `k` (8 for a small class, 4 for
a big one), let the free list of the class be empty and let the region have
room for `k` segments of `16 + c` bytes.  Each raw allocation of the refill asks
for `12 + c` bytes, which `_shmalloc` rounds to `16 + c`.  `nshm_memalloc(s)`
returns a block and moves the cursor by exactly `k * (16 + c)`; it leaves
exactly `k - 1` segments on the free list of the class, each with `seg_siz = c`;
and the next `k - 1` requests of that class each return a block, all distinct
and distinct from the first, while the cursor stays. -/
theorem refill_batch_reachable (n : NShm) (live : List Int) (keys : List (List Nat))
    (s head c : Int) (k : Nat) (ss : List Int) (hr : Reach n live keys)
    (hcls : request_class s = some (head, c, k)) (hempty : n.mem head < 0)
    (hcap : n.free_offset + (k : Int) * (16 + c) ≤ (n._size : Int))
    (hss : ∀ s1 ∈ ss, request_class s1 = some (head, c, k)) (hlen : ss.length = k - 1) :
    (s ≤ 1024 → k = 8) ∧ (1024 < s → k = 4) ∧
      mask_align (wrap32 (wrap32 (8 + 4 + c) + _ALIGNMENT_BYTE - 1)) = 16 + c ∧
      ∃ p n1, nshm_memalloc n s = some (p, n1) ∧ p ≠ 0 ∧
        n1.free_offset = n.free_offset + (k : Int) * (16 + c) ∧
        (∃ fl : List Int, FreeList n1.mem (n1.mem head) fl ∧ fl.length = k - 1 ∧
          ∀ h ∈ fl, n1.mem (h + hdr_seg_siz) = c) ∧
        ∃ ps n2, alloc_list ss n1 = some (ps, n2) ∧ ps.length = k - 1 ∧ (∀ q ∈ ps, q ≠ 0) ∧
          ps.Nodup ∧ p ∉ ps ∧ n2.free_offset = n1.free_offset := by
  obtain ⟨hlk, L, owned, I⟩ := hr.inv
  obtain ⟨hc, hk, hs0, hsc, e, hsm, hbg⟩ := request_class_spec n hcls
  have hnil := I.empty_of_neg hc hempty
  obtain ⟨p, n1, L1, j, r1, r2, r3, r4, r5, r6, r7, r8, r9, r10⟩ :=
    alloc_class_refill I hlk hc hnil hk
  have hp : p ≠ 0 := r6.mpr hcap
  have hj : j = k := r5.mp hp
  subst hj
  obtain ⟨r11, _⟩ := r10 hp
  rw [if_neg hp] at r2
  have hfl : (L1.fl head).length = j - 1 := by
    have := carved_length c j n.free_offset
    rw [r11] at this
    simp only [List.length_cons] at this
    clear hbg hsm
    omega
  have hlk1 : n1.lock_point = false := by rw [r3.lock_eq]; exact hlk
  obtain ⟨f1, _, f3⟩ := r2.free_list hc
  obtain ⟨ps, n2, L2, q1, q2, q3, q4, q5, q6, _, _⟩ :=
    alloc_list_pops hc ss n1 L1 _ r2 hlk1 hss (le_of_eq (by rw [hlen, hfl]))
  refine ⟨fun h => (hsm h).1, fun h => (hbg h).1, class_alloc_siz hc, p, n1, by rw [e, r1], hp,
    r7, ⟨L1.fl head, f1, hfl, fun h hh => (f3 h hh).2.2⟩, ps, n2, q1, ?_, ?_, ?_, ?_, q5⟩
  · rw [q2, List.length_map, List.length_take, hlen, hfl]; exact Nat.min_self _
  · intro q hq
    obtain ⟨_, c1, _, hseg, _⟩ := q3.live_ok q (List.mem_append_left _ (List.mem_reverse.mpr hq))
    have g1 := (q3.seg_ok _ hseg).1
    have g2 := q3.base_pos
    simp only [sizeof_nshm_base_t] at g1
    omega
  · have := (List.nodup_append.mp q3.live_nodup).1
    exact List.nodup_reverse.mp this
  · intro hm
    have := (List.nodup_append.mp q3.live_nodup).2.2
    exact this (List.mem_reverse.mpr hm) (List.mem_cons_self _ _)

/-- Example: the fresh region of 1 MiB and the class of 16 bytes
(`small_msegs[0]`, batch 8); the first request is for 4 bytes, the seven that
follow for 1, 16, 7, 4, 9, 12 and 3 bytes. -/
theorem refill_batch_example :
    ∃ p n1, nshm_memalloc arena_1MiB 4 = some (p, n1) ∧ p ≠ 0 ∧
      n1.free_offset = arena_1MiB.free_offset + 8 * (16 + 16) ∧
      ∃ ps n2, alloc_list [1, 16, 7, 4, 9, 12, 3] n1 = some (ps, n2) ∧ ps.length = 7 ∧
        (∀ q ∈ ps, q ≠ 0) ∧ ps.Nodup ∧ p ∉ ps ∧ n2.free_offset = n1.free_offset := by
  obtain ⟨_, _, _, p, n1, h1, h2, h3, _, ps, n2, h4⟩ :=
    refill_batch_reachable arena_1MiB [] [] 4 24 16 8 [1, 16, 7, 4, 9, 12, 3] reach_created_1MiB
      (by decide!) (by decide!) (by decide!) (by decide!) (by decide)
  exact ⟨p, n1, h1, h2, h3, ps, n2, h4⟩

/-- In a reachable state, let the request `s` be served from the class with
head cell `head`, class size `c` and batch size `k`, let the free list of the
class be empty and let the room behind the cursor admit exactly `j` raw
allocations of `16 + c` bytes, with `1 ≤ j < k`.  Then `nshm_memalloc(s)` returns
`NULL`, the cursor has moved by `j * (16 + c)` and the `j` segments are on the
free list of the class; the next `j` requests of that class each return a
block, all distinct, while the cursor stays. -/
theorem partial_refill_reachable (n : NShm) (live : List Int) (keys : List (List Nat))
    (s head c : Int) (k j : Nat) (ss : List Int) (hr : Reach n live keys)
    (hcls : request_class s = some (head, c, k)) (hempty : n.mem head < 0)
    (hj1 : 1 ≤ j) (hj2 : j < k)
    (hcap1 : n.free_offset + (j : Int) * (16 + c) ≤ (n._size : Int))
    (hcap2 : (n._size : Int) < n.free_offset + ((j : Int) + 1) * (16 + c))
    (hss : ∀ s1 ∈ ss, request_class s1 = some (head, c, k)) (hlen : ss.length = j) :
    ∃ n1, nshm_memalloc n s = some (0, n1) ∧
      n1.free_offset = n.free_offset + (j : Int) * (16 + c) ∧
      (∃ fl : List Int, FreeList n1.mem (n1.mem head) fl ∧ fl.length = j ∧
        ∀ h ∈ fl, n1.mem (h + hdr_seg_siz) = c) ∧
      ∃ ps n2, alloc_list ss n1 = some (ps, n2) ∧ ps.length = j ∧ (∀ q ∈ ps, q ≠ 0) ∧
        ps.Nodup ∧ n2.free_offset = n1.free_offset := by
  obtain ⟨hlk, L, owned, I⟩ := hr.inv
  obtain ⟨hc, hk, hs0, hsc, e, -, -⟩ := request_class_spec n hcls
  have hnil := I.empty_of_neg hc hempty
  have hcpos := hc.size_pos
  obtain ⟨p, n1, L1, j1, r1, r2, r3, r4, r5, r6, r7, r8, r9, r10⟩ :=
    alloc_class_refill I hlk hc hnil hk
  have hkj : ((j : Int) + 1) * (16 + c) ≤ (k : Int) * (16 + c) :=
    mul_le_mul_of_nonneg_right (by exact_mod_cast hj2) (by omega)
  have hp : p = 0 := by
    by_contra hne
    have := r6.mp hne
    omega
  subst hp
  rw [if_pos rfl] at r2
  have hj1k : j1 < k := by
    rcases Nat.lt_or_ge j1 k with h | h
    · exact h
    · exact absurd (r5.mpr (le_antisymm r4 h)) (by simp)
  have h8 := r8 hj1k
  have hfo := r2.fo_le
  change n1.free_offset ≤ _ at hfo
  rw [r3.size_eq, r7] at hfo
  have hjj : j1 = j := by
    have a1 : (j1 : Int) * (16 + c) < ((j : Int) + 1) * (16 + c) := by omega
    have a2 : (j : Int) * (16 + c) < ((j1 : Int) + 1) * (16 + c) := by omega
    have b1 := lt_of_mul_lt_mul_right a1 (by omega)
    have b2 := lt_of_mul_lt_mul_right a2 (by omega)
    omega
  subst hjj
  have hfl : (L1.fl head).length = j1 := by
    rw [r9 rfl]; exact carved_length _ _ _
  have hlk1 : n1.lock_point = false := by rw [r3.lock_eq]; exact hlk
  obtain ⟨f1, _, f3⟩ := r2.free_list hc
  obtain ⟨ps, n2, L2, q1, q2, q3, q4, q5, q6, _, _⟩ :=
    alloc_list_pops hc ss n1 L1 _ r2 hlk1 hss (le_of_eq (by rw [hlen, hfl]))
  refine ⟨n1, by rw [e, r1], r7, ⟨L1.fl head, f1, hfl, fun h hh => (f3 h hh).2.2⟩, ps, n2, q1,
    ?_, ?_, ?_, q5⟩
  · rw [q2, List.length_map, List.length_take, hlen, hfl]; exact Nat.min_self _
  · intro q hq
    obtain ⟨_, c1, _, hseg, _⟩ := q3.live_ok q (List.mem_append_left _ (List.mem_reverse.mpr hq))
    have g1 := (q3.seg_ok _ hseg).1
    have g2 := q3.base_pos
    simp only [sizeof_nshm_base_t] at g1
    omega
  · have := (List.nodup_append.mp q3.live_nodup).1
    exact List.nodup_reverse.mp this

/-- Example: the fresh region of 9388 bytes has 484 bytes behind the
arena header, room for exactly 6 segments of the class of 64 bytes (80 bytes
each); the request for 64 bytes returns `NULL`, the six that follow (for 64,
50, 49, 60, 55 and 64 bytes) each return a block. -/
theorem partial_refill_example :
    ∃ n1, nshm_memalloc arena_9388 64 = some (0, n1) ∧
      n1.free_offset = arena_9388.free_offset + 6 * (16 + 64) ∧
      ∃ ps n2, alloc_list [64, 50, 49, 60, 55, 64] n1 = some (ps, n2) ∧ ps.length = 6 ∧
        (∀ q ∈ ps, q ≠ 0) ∧ ps.Nodup ∧ n2.free_offset = n1.free_offset := by
  obtain ⟨n1, h1, h2, _, ps, n2, h4⟩ :=
    partial_refill_reachable arena_9388 [] [] 64 48 64 8 6 [64, 50, 49, 60, 55, 64]
      reach_created_9388 (by decide!) (by decide!) (by decide) (by decide) (by decide!)
      (by decide!) (by decide!) (by decide)
  exact ⟨n1, h1, h2, ps, n2, h4⟩

/-- C17: on the fresh region of 1 MiB, `nshm_set` of the one-byte key `0xEB`
returns 1.  The hash of the key is -21 and `data[-21]` is `small_msegs[63]`, the
head of the free list of the class of 1024 bytes, so the call links the entry
node into that cell: the head of the class becomes 9256, the offset of the
node, which is no segment header, and the `seg_siz` read there is the `klen` of
the node, 1, not 1024.  The next `nshm_memalloc(1024)` returns 13368, an
address inside the node (13352 to 13384). -/
theorem C17_bad_key_breaks_free_list :
    Reach arena_1MiB [] [] ∧ _get_key_hash [235] = -21 ∧
      off_data + 8 * _get_key_hash [235] = off_small_msegs + 8 * 63 ∧
      get_smallseg_size 63 = 1024 ∧
      (nshm_set arena_1MiB [235] 5000).bind (fun r =>
        (nshm_memalloc r.2 1024).map (fun q =>
          [r.1, r.2.mem (off_small_msegs + 8 * 63), r.2.mem (9256 + hdr_seg_siz),
            r.2._base + 9256, q.1])) = some [1, 9256, 1, 13352, 13368] :=
  ⟨reach_created_1MiB, by decide!, by decide!, by decide!, by decide!⟩

/-- C18: let `p` be a block address whose segment header lies behind the arena
header and inside the region, and let `c` be the class size that header stores.
If `c ≤ 0`, `nshm_memfree(p)` leaves the state as it is.  If `c` is the size of
a class with head cell `head`, that cell is the one the code selects from `c`
(`small_msegs[get_smallseg_index c]` if `c ≤ 1024`, else
`big_msegs[get_bigseg_index c]`), and `nshm_memfree(p)`, called with the lock
free, stores the former head in the `next_offset` of the segment, makes the
segment the head, and leaves every other cell as it is: the cursor, the head
of every other class and every bucket head; it returns with the lock free. -/
theorem C18_free_pushes_on_class (n : NShm) (p head c : Int) (hb : 0 < n._base)
    (hp1 : sizeof_nshm_base_t + sizeof_shmem_hdr ≤ p - n._base)
    (hp2 : p - n._base ≤ (n._size : Int)) (hc : block_size n p = c) :
    (c ≤ 0 → nshm_memfree n p = some n) ∧
    (IsClass head c → n.lock_point = false →
      (c ≤ 1024 → off_small_msegs + 8 * get_smallseg_index c = head) ∧
      (1024 < c → ∃ i : Nat, get_bigseg_index c = some (i : Int) ∧
        off_big_msegs + 8 * (i : Int) = head) ∧
      ∃ n1, nshm_memfree n p = some n1 ∧
        n1.mem (p - n._base - sizeof_shmem_hdr + hdr_next_offset) = n.mem head ∧
        n1.mem head = p - n._base - sizeof_shmem_hdr ∧
        (∀ a, a ≠ head → a ≠ p - n._base - sizeof_shmem_hdr + hdr_next_offset →
          n1.mem a = n.mem a) ∧
        n1.free_offset = n.free_offset ∧
        (∀ head1 c1, IsClass head1 c1 → head1 ≠ head → n1.mem head1 = n.mem head1) ∧
        (∀ b, 0 ≤ b → b < 1024 → n1.mem (off_data + 8 * b) = n.mem (off_data + 8 * b)) ∧
        n1.lock_point = false ∧ n1._base = n._base ∧ n1._size = n._size) := by
  simp only [sizeof_nshm_base_t, sizeof_shmem_hdr] at hp1
  refine ⟨fun h0 => nshm_memfree_noop (by omega) hp2 hc h0, ?_⟩
  intro hcl hlk
  have hh1 := hcl.head_ge
  have hh2 := hcl.head_lt
  refine ⟨fun h => class_of_small hcl h, fun h => class_of_big hcl h, ?_⟩
  have e := nshm_memfree_eq hlk hb (by omega) hp2 hc hcl
  have hfr : ∀ a, a ≠ head → a ≠ p - n._base - 16 + hdr_next_offset →
      upd (upd n.mem (p - n._base - 16 + hdr_next_offset) (n.mem head)) head
        (p - n._base - 16) a = n.mem a := by
    intro a ha1 ha2
    rw [upd_other _ _ ha1, upd_other _ _ ha2]
  refine ⟨_, e, ?_, ?_, ?_, ?_, ?_, ?_, rfl, rfl, rfl⟩
  · show upd (upd n.mem (p - n._base - 16 + hdr_next_offset) (n.mem head)) head
      (p - n._base - 16) (p - n._base - 16 + hdr_next_offset) = n.mem head
    rw [upd_other _ _ (by simp only [hdr_next_offset]; omega), upd_same]
  · show upd (upd n.mem (p - n._base - 16 + hdr_next_offset) (n.mem head)) head
      (p - n._base - 16) head = p - n._base - 16
    rw [upd_same]
  · exact hfr
  · exact hfr _ (by simp only [off_free_offset]; omega)
      (by simp only [off_free_offset, hdr_next_offset]; omega)
  · intro head1 c1 hc1 hne
    have := hc1.head_lt
    exact hfr _ hne (by simp only [hdr_next_offset]; omega)
  · intro b hb0 hb1
    exact hfr _ (by simp only [off_data]; omega) (by simp only [off_data, hdr_next_offset]; omega)

/-- Witness of C18: on the fresh region of 1 MiB `nshm_memalloc(4)` returns the
block 13240, whose header at offset 9128 stores the class size 16; freeing it
makes 9128 the head of the class (`small_msegs[0]`, the cell at offset 24) and
links it to the former head. -/
theorem C18_free_pushes_on_class_witness :
    ∃ n1 n2, nshm_memalloc arena_1MiB 4 = some (13240, n1) ∧ block_size n1 13240 = 16 ∧
      nshm_memfree n1 13240 = some n2 ∧ n2.mem 24 = 9128 ∧ n2.mem 9128 = n1.mem 24 ∧
      n2.free_offset = n1.free_offset := by
  have h : (nshm_memalloc arena_1MiB 4).map
      (fun r => (r.1, (fun (s : NShm) => (s._base, s._size, s.lock_point, block_size s 13240))
        r.2)) = some (13240, (4096, 1048576, false, 16)) := by decide!
  obtain ⟨n1, hs, hf⟩ := map_pair_some
    (f := fun (s : NShm) => (s._base, s._size, s.lock_point, block_size s 13240)) h
  simp only [Prod.mk.injEq] at hf
  obtain ⟨hbase, hsize, hlk, hbs⟩ := hf
  have hcl : IsClass 24 16 := Or.inl ⟨0, by decide, by decide, by decide⟩
  obtain ⟨_, _, n2, e1, e2, e3, _, e4, _⟩ :=
    (C18_free_pushes_on_class n1 13240 24 16 (by rw [hbase]; decide)
      (by rw [hbase]; decide) (by rw [hbase, hsize]; decide) hbs).2 hcl hlk
  rw [hbase] at e2 e3
  exact ⟨n1, n2, hs, hbs, e1, e3, e2, e4⟩

/-- The lock is a flag of the state, and a call under observation raises
`unguarded` when it writes the cursor, a free-list head or a bucket head while
the lock is not held.  In a reachable state (the lock is free there) every call
of `shmalloc` and `nshm_memalloc`, every call of `nshm_memfree` on a block the
caller holds and every call of `nshm_set` on a key whose hash is a bucket index
returns, with `unguarded` down and the lock free, and the state it leaves is the
one the model computes; a call that acquired the lock while holding it would not
return.  For every other pointer and key: if `nshm_memfree` or `nshm_set`
returns, `unguarded` is down and the lock is free.  This covers every exit
path, the refill failure (`NULL` result) and the error result of `nshm_set`
included. -/
theorem lock_discipline_reachable (n : NShm) (live : List Int) (keys : List (List Nat))
    (hr : Reach n live keys) :
    n.lock_point = false ∧
    (∀ s, ∃ p x, shmalloc_w (watch n) s = some (p, x) ∧ x.unguarded = false ∧
      x.st.lock_point = false ∧ shmalloc n s = some (p, x.st)) ∧
    (∀ s, ∃ p x, nshm_memalloc_w (watch n) s = some (p, x) ∧ x.unguarded = false ∧
      x.st.lock_point = false ∧ nshm_memalloc n s = some (p, x.st)) ∧
    (∀ p ∈ live, ∃ x, nshm_memfree_w (watch n) p = some x ∧ x.unguarded = false ∧
      x.st.lock_point = false ∧ nshm_memfree n p = some x.st) ∧
    (∀ p x, nshm_memfree_w (watch n) p = some x →
      x.unguarded = false ∧ x.st.lock_point = false) ∧
    (∀ key val, GoodKey key → ∃ r x, nshm_set_w (watch n) key val = some (r, x) ∧
      x.unguarded = false ∧ x.st.lock_point = false ∧ nshm_set n key val = some (r, x.st)) ∧
    (∀ key val r x, nshm_set_w (watch n) key val = some (r, x) →
      x.unguarded = false ∧ x.st.lock_point = false) := by
  obtain ⟨hlk, L, owned, I⟩ := hr.inv
  refine ⟨hlk, ?_, ?_, ?_, ?_, ?_, ?_⟩
  · intro s
    obtain ⟨p, n1, e, h1⟩ := shmalloc_returns n s hlk
    refine ⟨p, ⟨n1, false⟩, ?_, rfl, h1, e⟩
    show shmalloc_w ⟨n, false⟩ s = _
    rw [shmalloc_w_eq, e]; rfl
  · intro s
    obtain ⟨p, n1, L1, hd, e, -, F, -⟩ := nshm_memalloc_spec I hlk s
    refine ⟨p, ⟨n1, false⟩, ?_, rfl, by show n1.lock_point = false; rw [F.lock_eq]; exact hlk, e⟩
    show nshm_memalloc_w ⟨n, false⟩ s = _
    rw [nshm_memalloc_w_eq, e]; rfl
  · intro p hp
    obtain ⟨n1, hd, c, -, -, e, -, F, -⟩ := nshm_memfree_spec I hlk (List.mem_append_left _ hp)
    refine ⟨⟨n1, false⟩, ?_, rfl, by show n1.lock_point = false; rw [F.lock_eq]; exact hlk, e⟩
    show nshm_memfree_w ⟨n, false⟩ p = _
    rw [nshm_memfree_w_eq, e]; rfl
  · intro p x h
    change nshm_memfree_w ⟨n, false⟩ p = _ at h
    rw [nshm_memfree_w_eq] at h
    cases e : nshm_memfree n p with
    | none => rw [e] at h; exact absurd h (by simp)
    | some n1 =>
      rw [e] at h
      simp only [Option.map_some', Option.some.injEq] at h
      rw [← h]
      exact ⟨rfl, nshm_memfree_unlocked hlk e⟩
  · intro key val hk
    obtain ⟨r, n1, e, -⟩ := nshm_set_returns hr hk val
    refine ⟨r, ⟨n1, false⟩, ?_, rfl, nshm_set_unlocked I hlk e, e⟩
    show nshm_set_w ⟨n, false⟩ key val = _
    rw [nshm_set_w_eq I hlk, e]; rfl
  · intro key val r x h
    change nshm_set_w ⟨n, false⟩ key val = _ at h
    rw [nshm_set_w_eq I hlk] at h
    cases e : nshm_set n key val with
    | none => rw [e] at h; exact absurd h (by simp)
    | some q =>
      obtain ⟨r1, n1⟩ := q
      rw [e] at h
      simp only [Option.map_some', Option.some.injEq, Prod.mk.injEq] at h
      rw [← h.2]
      exact ⟨rfl, nshm_set_unlocked I hlk e⟩

/-- Example: the fresh region of 8905 bytes, where every refill fails:
`nshm_memalloc(4)` returns `NULL` and `nshm_set("a", 5000)` returns -1, both
with `unguarded` down and the lock free; and a write of the cursor outside the
lock does raise `unguarded`. -/
theorem lock_discipline_example :
    (∃ x, nshm_memalloc_w (watch arena_tiny) 4 = some (0, x) ∧ x.unguarded = false ∧
      x.st.lock_point = false) ∧
    (∃ x, nshm_set_w (watch arena_tiny) [97] 5000 = some (-1, x) ∧ x.unguarded = false ∧
      x.st.lock_point = false) ∧
    ((watch arena_tiny).write off_free_offset 0).unguarded = true := by
  have h := lock_discipline_reachable arena_tiny [] [] reach_created_tiny
  obtain ⟨p, x, a1, a2, a3, a4⟩ := h.2.2.1 4
  obtain ⟨r, y, b1, b2, b3, b4⟩ := h.2.2.2.2.2.1 [97] 5000 (by decide)
  have e1 : (nshm_memalloc arena_tiny 4).map Prod.fst = some 0 := by decide!
  have e2 : (nshm_set arena_tiny [97] 5000).map Prod.fst = some (-1) := by decide!
  rw [a4] at e1
  rw [b4] at e2
  simp only [Option.map_some', Option.some.injEq] at e1 e2
  subst e1
  subst e2
  exact ⟨⟨x, a1, a2, a3⟩, ⟨y, b1, b2, b3⟩, by decide⟩

/-- C20: for a base address `b` (an address, so not negative): `vos_assign` maps
`NULL` to -1 and `vos_ptr` maps -1 to `NULL`; an address above `b` survives
`vos_assign` followed by `vos_ptr`, an offset above 0 survives `vos_ptr`
followed by `vos_assign`; the address `b` itself becomes offset 0, which
`vos_ptr` translates to `NULL`; the addresses that survive the round trip are
`NULL` and the addresses above `b`, and no other. -/
theorem C20_offset_round_trip (b : Int) (hb : 0 ≤ b) :
    vos_assign b 0 = -1 ∧ vos_ptr b (-1) = 0 ∧
      (∀ a, b < a → vos_ptr b (vos_assign b a) = a) ∧
      (∀ o, 0 < o → vos_assign b (vos_ptr b o) = o) ∧
      (b ≠ 0 → vos_assign b b = 0 ∧ vos_ptr b (vos_assign b b) = 0 ∧
        vos_ptr b (vos_assign b b) ≠ b) ∧
      (∀ a, vos_ptr b (vos_assign b a) = a ↔ a = 0 ∨ b < a) := by
  refine ⟨by simp [vos_assign], by simp [vos_ptr], ?_, ?_, ?_, ?_⟩
  · intro a ha
    unfold vos_assign vos_ptr
    rw [if_pos (by omega), if_pos (by omega)]
    omega
  · intro o ho
    unfold vos_assign vos_ptr
    rw [if_pos ho, if_pos (by omega)]
    omega
  · intro hne
    have e : vos_assign b b = 0 := by
      unfold vos_assign
      rw [if_pos hne]; omega
    refine ⟨e, ?_, ?_⟩ <;> rw [e] <;> simp [vos_ptr]
    exact fun h => hne h.symm
  · intro a
    unfold vos_assign vos_ptr
    by_cases h0 : a = 0
    · subst h0; simp
    · rw [if_pos h0]
      by_cases h1 : b < a
      · rw [if_pos (by omega)]
        constructor
        · intro _; exact Or.inr h1
        · intro _; omega
      · rw [if_neg (by omega)]
        constructor
        · intro h; exact absurd h.symm h0
        · intro h; rcases h with h | h
          · exact absurd h h0
          · exact absurd h h1

/-- Witness of C20: the base address 4096. -/
theorem C20_offset_round_trip_witness :
    vos_assign 4096 0 = -1 ∧ vos_ptr 4096 (-1) = 0 ∧
      vos_ptr 4096 (vos_assign 4096 5000) = 5000 ∧ vos_assign 4096 (vos_ptr 4096 904) = 904 ∧
      vos_ptr 4096 (vos_assign 4096 4096) = 0 :=
  have h := C20_offset_round_trip 4096 (by decide)
  ⟨h.1, h.2.1, h.2.2.1 5000 (by decide), h.2.2.2.1 904 (by decide),
    (h.2.2.2.2.1 (by decide)).2.1⟩

/-! ## States reached through a key of negative hash or through the overflow of
the rounding in `_shmalloc` -/

/-- C1: on the fresh region of 1 MiB, `nshm_set` of the one-byte key `0xEB`
(hash -21, so `data[-21]` is `small_msegs[63]`) returns 1 and leaves the offset
of the entry node in the head of the class of 1024 bytes.  The region has room
for a refill (cursor 9544), and `nshm_memalloc(1024)` uses small class
`(1024-1)/16 = 63` with class size 1024, but the block it returns, 13368, has
`seg_siz = 1` in the header in front of it, not `16*⌈1024/16⌉ = 1024`. -/
theorem C1_header_after_bad_key :
    _get_key_hash [235] = -21 ∧
      off_data + 8 * _get_key_hash [235] = off_small_msegs + 8 * get_smallseg_index 1024 ∧
      get_smallseg_index 1024 = (1024 - 1) / 16 ∧
      get_smallseg_size (get_smallseg_index 1024) = 16 * ((1024 + 15) / 16) ∧
      (9544 : Int) + 8 * (16 + 1024) ≤ (arena_1MiB._size : Int) ∧
      (nshm_set arena_1MiB [235] 5000).bind (fun r =>
        (nshm_memalloc r.2 1024).bind (fun q =>
          (load q.2 (q.1 - sizeof_shmem_hdr + hdr_seg_siz)).map (fun c =>
            [r.1, r.2.free_offset, q.1, c]))) = some [1, 9544, 13368, 1] :=
  ⟨by decide!, by decide!, by decide!, by decide!, by decide!, by decide!⟩

/-- C2: on the fresh region of 1 MiB, `nshm_set` of the one-byte key `0xEC`
(hash -20, so `data[-20]` is `big_msegs[0]`) returns 1 and leaves the offset of
the entry node in the head of the class of 2048 bytes.  For the request 2000
`get_bigseg_index` gives 0 and `get_bigseg_size` gives 2048, the region has
room for the batch of 4 (cursor 9544), but the block that `nshm_memalloc(2000)`
returns, 13368, has `seg_siz = 1` in the header in front of it, not 2048. -/
theorem C2_header_after_bad_key :
    _get_key_hash [236] = -20 ∧ off_data + 8 * _get_key_hash [236] = off_big_msegs + 8 * 0 ∧
      get_bigseg_index 2000 = some 0 ∧ get_bigseg_size 0 = 2048 ∧
      (9544 : Int) + 4 * (16 + 2048) ≤ (arena_1MiB._size : Int) ∧
      (nshm_set arena_1MiB [236] 5000).bind (fun r =>
        (nshm_memalloc r.2 2000).bind (fun q =>
          (load q.2 (q.1 - sizeof_shmem_hdr + hdr_seg_siz)).map (fun c =>
            [r.1, r.2.free_offset, q.1, c]))) = some [1, 9544, 13368, 1] :=
  ⟨by decide!, by decide!, by decide!, by decide!, by decide!, by decide!⟩

/-- C4: on the fresh region of 1 MiB, after `nshm_set` of the one-byte key
`0xEB` has returned 1, `p = nshm_memalloc(1024)` is 13368, not `NULL`.  The
header in front of `p` stores 1, so `nshm_memfree(p)` pushes the segment on the
list of the class of 16 bytes (`small_msegs[0]` becomes 9256) and not on the
list of the class of 1024 bytes, whose head is 9528; the next
`nshm_memalloc(1024)` returns 13640, not `p`. -/
theorem C4_other_block_after_bad_key :
    SameClass 1024 1024 ∧
      (nshm_set arena_1MiB [235] 5000).bind (fun r =>
        (nshm_memalloc r.2 1024).bind (fun q =>
          (nshm_memfree q.2 q.1).bind (fun f =>
            (nshm_memalloc f 1024).map (fun q2 =>
              [r.1, q.1, block_size q.2 q.1, f.mem (off_small_msegs + 8 * 0),
                f.mem (off_small_msegs + 8 * 63), q2.1])))) =
        some [1, 13368, 1, 9256, 9528, 13640] :=
  ⟨Or.inl ⟨by decide, by decide, rfl⟩, by decide!⟩

/-- C15: on the fresh region of 4 GiB, `shmalloc(2^30)` and
`shmalloc(2^30 - 8904)` put the cursor at `2^31`, and `shmalloc(2147483647)`,
whose size is rounded to `-2^31` in `int32_t`, sets it back to 0.  The free list
of the class of 16 bytes is empty and the whole region is behind the cursor,
but `nshm_memalloc(16)` returns `NULL`: the first raw allocation of the refill
is at offset 0, which `vos_ptr` translates to `NULL`.  The cursor has moved by
32, not by `8 * (16 + 16)`, and no segment is on the free list. -/
theorem C15_refill_at_cursor_zero :
    request_class 16 = some (24, 16, 8) ∧
      (0 : Int) + 8 * (16 + 16) ≤ (arena_4GiB._size : Int) ∧
      (shmalloc arena_4GiB 1073741824).bind (fun r1 =>
        (shmalloc r1.2 1073732920).bind (fun r2 =>
          (shmalloc r2.2 2147483647).bind (fun r3 =>
            (nshm_memalloc r3.2 16).map (fun q =>
              [r2.2.free_offset, r3.2.free_offset, r3.2.mem 24, q.1, q.2.free_offset,
                q.2.mem 24])))) = some [2147483648, 0, -1, 0, 32, -1] :=
  ⟨by decide!, by decide!, by decide!⟩

/-- C16: on the fresh region of `2^31 + 8` bytes, `shmalloc(2^30)` and
`shmalloc(2^30 - 8904)` put the cursor at `2^31`, and `shmalloc(2147483647)`
sets it back to 0.  The free list of the class of `2^30` bytes is empty and the
room behind the cursor admits exactly one raw allocation of `2^30 + 16` bytes
(batch 4).  `nshm_memalloc(2^30)` returns `NULL`, as the refill fails; but the
one raw allocation it made was at offset 0, taken for `NULL`, so no segment is
on the free list, and the next `nshm_memalloc(2^30)` returns `NULL` as well. -/
theorem C16_no_segment_at_cursor_zero :
    request_class 1073741824 = some (688, 1073741824, 4) ∧
      (0 : Int) + 1 * (16 + 1073741824) ≤ (arena_2GiB._size : Int) ∧
      (arena_2GiB._size : Int) < 0 + (1 + 1) * (16 + 1073741824) ∧
      (shmalloc arena_2GiB 1073741824).bind (fun r1 =>
        (shmalloc r1.2 1073732920).bind (fun r2 =>
          (shmalloc r2.2 2147483647).bind (fun r3 =>
            (nshm_memalloc r3.2 1073741824).bind (fun q =>
              (nshm_memalloc q.2 1073741824).map (fun q2 =>
                [r3.2.free_offset, r3.2.mem 688, q.1, q.2.free_offset, q.2.mem 688,
                  q2.1]))))) = some [0, -1, 0, 1073741840, -1, 0] :=
  ⟨by decide!, by decide!, by decide!, by decide!⟩

/-- C19: on the fresh region of 1 MiB, under observation: `nshm_set` of the
one-byte key `0xAD` (hash -83, so `data[-83]` is `small_msegs[1]`) returns 1 and
leaves the offset of the entry node in the head of the class of 32 bytes; two
calls `nshm_memalloc(32)` pop the node and its key copy, whose first cell holds
the key byte 173, which becomes the head.  Up to here `unguarded` is down.
`nshm_set("a", 5000)` then gets its entry node from that head, at offset 189
inside `small_msegs`, fills it in before it takes the lock, and returns 1 with
`unguarded` raised. -/
theorem C19_unguarded_after_bad_key :
    _get_key_hash [173] = -83 ∧
      off_data + 8 * _get_key_hash [173] = off_small_msegs + 8 * 1 ∧
      Protected (173 + sizeof_shmem_hdr + tok_key_offset) ∧
      (nshm_set_w (watch arena_1MiB) [173] 5000).bind (fun r1 =>
        (nshm_memalloc_w r1.2 32).bind (fun a =>
          (nshm_memalloc_w a.2 32).bind (fun b =>
            (nshm_set_w b.2 [97] 5000).map (fun r2 =>
              ([r1.1, a.1, b.1, b.2.st.mem 32, r2.1],
                [r1.2.unguarded, b.2.unguarded, r2.2.unguarded, r2.2.st.lock_point]))))) =
        some ([1, 13368, 13640, 173, 1], [false, false, true, false]) :=
  ⟨by decide!, by decide!, by decide, by decide!⟩

end Nshm
